import Mathlib

/-!
# Best-effort selection on a candidate region adjacency graph

A shallow embedding of `learning/BestEffort.cpp` (the ground-truth driven
best-effort solution of candidate_mc) and theorems about it.

Conventions of the embedding.

* Candidates (`Crag::CragNode`) are natural numbers; lateral edges carry an
  `id` under which they are selected; subset arcs point from the child
  (`source`) to the parent (`target`), as in the original graph library.
* A `std::map<int, int>` is the list of its entries in ascending key order,
  which is the order in which the program iterates over it.
* A finite `double` is `mant * 2 ^ exp`. The product of a count with the
  background overlap weight is rounded as the hardware does it, to 53
  significant binary digits, to nearest with ties to even, and overflows to
  infinity. Overlaps are integers in units of `2 ^ exp` of the weight when `exp`
  is negative and in units of one otherwise; conversions of counts and sums of
  overlaps are kept exactly.
* A count is a 32-bit `int`: the statement `h[k]++` wraps around at `2 ^ 31`.
* Recursion over the subset hierarchy is bounded by an explicit `fuel`; running
  out of it is the failure `Failure.outOfFuel`.
* The macro `UTIL_ASSERT_REL`, whose header is not among the sources, is taken
  from the specification: a violated assertion ends the computation with
  `Failure.assertion`. A failed `std::map::at` is `Failure.outOfRange`, and the
  use of an invalid or uninitialised node handle is `Failure.invalidNode`.
-/

namespace CandidateMc

/-! ## Data model -/

/-- Modelled from the spec: the node type tags of `Crag.h`, which is not among
the sources. `SliceNode` is the plain region candidate, `AssignmentNode` the
linking hub, `NoAssignmentNode` the placeholder; `VolumeNode` stands for every
other kind of candidate. -/
inductive NodeType where
  | VolumeNode
  | SliceNode
  | AssignmentNode
  | NoAssignmentNode
  deriving DecidableEq, Repr

/-- Modelled from the spec: the edge type tags of `Crag.h`, which is not among
the sources: in-section adjacency, cross-section link, and the edge that
records the absence of a link. -/
inductive EdgeType where
  | AdjacencyEdge
  | AssignmentEdge
  | NoAssignmentEdge
  deriving DecidableEq, Repr

/-- Candidate handle. -/
abbrev CragNode := Nat

/-- Subset arc from a child (`source`) to its parent (`target`). -/
structure CragArc where
  source : CragNode
  target : CragNode
  deriving DecidableEq, Repr

/-- Lateral edge between the candidates `u` and `v`. -/
structure CragEdge where
  id : Nat
  u : CragNode
  v : CragNode
  type : EdgeType
  deriving DecidableEq, Repr

/-- The candidate region adjacency graph: candidates and edges in the order in
which `crag.nodes()` and `crag.edges()` enumerate them. -/
structure Crag where
  nodes : List CragNode
  type : CragNode → NodeType
  arcs : List CragArc
  edges : List CragEdge

/-- Modelled from the spec: `Crag::inArcs` followed by `source()`, the children
of `n` (inverse of the subset relation). -/
def Crag.inArcs (crag : Crag) (n : CragNode) : List CragNode :=
  (crag.arcs.filter (fun a => a.target = n)).map CragArc.source

/-- Modelled from the spec: `Crag::isRootNode`, a candidate with no parent
arc. -/
def Crag.isRootNode (crag : Crag) (n : CragNode) : Bool :=
  (crag.arcs.filter (fun a => a.source = n)).isEmpty

/-- Modelled from the spec: `Crag::isLeafNode`, a candidate with no child. -/
def Crag.isLeafNode (crag : Crag) (n : CragNode) : Bool :=
  (crag.inArcs n).isEmpty

/-- Modelled from the spec: `Crag::adjEdges`, the lateral edges incident to
`n`. -/
def Crag.adjEdges (crag : Crag) (n : CragNode) : List CragEdge :=
  crag.edges.filter (fun e => e.u = n ∨ e.v = n)

/-- Modelled from the spec: `Crag::oppositeNode`, the other endpoint of `e`
seen from `n`; `none` is `lemon::INVALID`. -/
def Crag.oppositeNode (n : CragNode) (e : CragEdge) : Option CragNode :=
  if n = e.u then some e.v else if n = e.v then some e.u else none

/-- Region volume of a candidate: extent of the discrete bounding box, voxel
mask, offset of the region in ground-truth voxel units (the value of `offset`
in `getGroundTruthOverlaps`) and z-coordinate of the bounding box centre. -/
structure CragVolume where
  width : Nat
  height : Nat
  depth : Nat
  data : Nat → Nat → Nat → Bool
  offset : Nat × Nat × Nat
  centerZ : Int

/-- The map `CragVolumes` from candidates to their volume. -/
abbrev CragVolumes := CragNode → CragVolume

/-- The labelled ground-truth volume `ExplicitVolume<int>`, indexed by voxel. -/
abbrev GroundTruth := Nat → Nat → Nat → Int

/-- A `std::map<int, int>` from ground-truth label to voxel count, entries in
ascending key order. -/
abbrev Histogram := List (Int × Int)

/-- Ways in which the program stops without a result. -/
inductive Failure where
  | outOfFuel
  | assertion
  | outOfRange
  | invalidNode
  deriving DecidableEq, Repr

/-- The background overlap weight, a finite `double` with the value
`mant * 2 ^ exp`. Every finite `double` has this form with `|mant| < 2 ^ 53` and
`-1074 ≤ exp ≤ 971`. -/
structure Weight where
  mant : Int
  exp : Int

/-- Default value of `backgroundOverlapWeight`. -/
def Weight.one : Weight := ⟨1, 0⟩

/-- The program options read by `BestEffort`. -/
structure Options where
  fullBestEffort : Bool
  backgroundOverlapWeight : Weight
  majorityOverlap : Bool

/-- The selection state of `CragSolution`: one flag per candidate and one per
edge id. -/
structure Selection where
  node : CragNode → Bool
  edge : Nat → Bool

/-- Assignment `m[k] = v` in a node map. -/
def setAt {α : Type} (m : CragNode → α) (k : CragNode) (v : α) : CragNode → α :=
  fun x => if x = k then v else m x

/-- Call `setSelected(n, b)` on a candidate. -/
def Selection.setNode (s : Selection) (n : CragNode) (b : Bool) : Selection :=
  { s with node := setAt s.node n b }

/-- Call `setSelected(e, b)` on an edge. -/
def Selection.setEdge (s : Selection) (e : CragEdge) (b : Bool) : Selection :=
  { s with edge := setAt s.edge e.id b }

/-- A `for` loop whose body may fail: the state is threaded through the
elements in order and the first failure ends the loop. -/
def forEach {α σ : Type} (body : σ → α → Except Failure σ) :
    List α → σ → Except Failure σ
  | [], s => .ok s
  | a :: l, s =>
    match body s a with
    | .ok s' => forEach body l s'
    | .error e => .error e

/-! ## Histograms -/

/-- The value of a 32-bit `int` after an arithmetic step with the exact result
`x`: the result wraps around into `-2 ^ 31 ≤ x < 2 ^ 31`. -/
def wrapInt (x : Int) : Int :=
  (x + 2147483648) % 4294967296 - 2147483648

/-- The statement `h[k]++` on a `std::map<int, int>`: a missing key is created
with count zero first, at its place in key order, and the count is a 32-bit
`int`. -/
def Histogram.increment : Histogram → Int → Histogram
  | [], k => [(k, 1)]
  | (k', c) :: h, k =>
    if k = k' then (k', wrapInt (c + 1)) :: h
    else if k < k' then (k, 1) :: (k', c) :: h
    else (k', c) :: Histogram.increment h k

/-- The call `h.at(k)`, which throws when the key is missing. -/
def Histogram.at? : Histogram → Int → Option Int
  | [], _ => none
  | (k', c) :: h, k => if k = k' then some c else Histogram.at? h k

/-- The read `h[k]`: zero for a missing key. -/
def Histogram.get (h : Histogram) (k : Int) : Int :=
  (h.at? k).getD 0

/-- Sum of all counts of a histogram. -/
def Histogram.total (h : Histogram) : Int :=
  (h.map Prod.snd).sum

/-- Keys of a histogram. -/
def Histogram.keys (h : Histogram) : List Int :=
  h.map Prod.fst

/-! ## Overlap calculator -/

/-- The three nested voxel loops of `getGroundTruthOverlaps` for one region:
every voxel of the bounding box at which the mask is set increments the count
of the ground-truth label found there. -/
def regionOverlaps (region : CragVolume) (groundTruth : GroundTruth)
    (h : Histogram) : Histogram :=
  (List.range region.depth).foldl (fun h z =>
    (List.range region.height).foldl (fun h y =>
      (List.range region.width).foldl (fun h x =>
        if region.data x y z then
          h.increment (groundTruth (region.offset.1 + x) (region.offset.2.1 + y)
            (region.offset.2.2 + z))
        else h) h) h) h

/-- The function `BestEffort::getGroundTruthOverlaps`. -/
def getGroundTruthOverlaps (crag : Crag) (volumes : CragVolumes)
    (groundTruth : GroundTruth) (overlaps : CragNode → Histogram) :
    CragNode → Histogram :=
  crag.nodes.foldl (fun ov n =>
    if crag.type n = NodeType.NoAssignmentNode then ov
    else setAt ov n (regionOverlaps (volumes n) groundTruth (ov n))) overlaps

/-- Number of voxels of the bounding box at which the mask is set. -/
def voxelCount (region : CragVolume) : Int :=
  ((List.range region.depth).map (fun z =>
    ((List.range region.height).map (fun y =>
      ((List.range region.width).map (fun x =>
        if region.data x y z then (1 : Int) else 0)).sum)).sum)).sum

/-! ## Ground-truth assignment resolver -/

/-- Number of binary digits of `a`, searched with `fuel` steps. -/
def bitLengthAux : Nat → Nat → Nat
  | 0, _ => 0
  | fuel + 1, a => if a = 0 then 0 else bitLengthAux fuel (a / 2) + 1

/-- Number of binary digits of `a`. -/
def bitLength (a : Nat) : Nat :=
  bitLengthAux a a

/-- Rounding to the 53 significant binary digits of a `double`, to nearest and
to the even neighbour in a tie. -/
def roundToDouble (a : Nat) : Nat :=
  if 2 ^ (bitLength a - 53) < 2 * (a % 2 ^ (bitLength a - 53)) ∨
      (2 * (a % 2 ^ (bitLength a - 53)) = 2 ^ (bitLength a - 53) ∧
        a / 2 ^ (bitLength a - 53) % 2 = 1) then
    (a / 2 ^ (bitLength a - 53) + 1) * 2 ^ (bitLength a - 53)
  else a / 2 ^ (bitLength a - 53) * 2 ^ (bitLength a - 53)

/-- The value `2 ^ 1024` in the units of `w`, which stands for infinity. -/
def doubleInfinity (w : Weight) : Int :=
  ((2 ^ (1024 + (-w.exp).toNat) : Nat) : Int)

/-- The `double` product `overlap * _bgOverlapWeight` for the count `c`, in the
units of `w`: the exact product `c * mant * 2 ^ exp` is rounded to a `double`,
and a result of `2 ^ 1024` or more is infinite. Infinity is kept as the value
`2 ^ 1024`, which exceeds every finite `double`. -/
def productScore (w : Weight) (c : Int) : Int :=
  if c * w.mant < 0 then
    -(if 1024 < (bitLength (roundToDouble (c * w.mant).natAbs) : Int) + w.exp then
        doubleInfinity w
      else ((roundToDouble (c * w.mant).natAbs * 2 ^ w.exp.toNat : Nat) : Int))
  else
    if 1024 < (bitLength (roundToDouble (c * w.mant).natAbs) : Int) + w.exp then
      doubleInfinity w
    else ((roundToDouble (c * w.mant).natAbs * 2 ^ w.exp.toNat : Nat) : Int)

/-- Weighted overlap of one histogram entry as the program computes it, in the
units of `w`: the count converted to `double`, multiplied by the background
weight for label `0`. -/
def weighted (w : Weight) (p : Int × Int) : Int :=
  if p.1 = 0 then productScore w p.2 else p.2 * ((2 ^ (-w.exp).toNat : Nat) : Int)

/-- One iteration of the loop over `overlaps[i]` in
`getGroundTruthAssignments`; the state is `(maxOverlap, bestGtLabel)`. -/
def bestStep (w : Weight) (st : Int × Int) (p : Int × Int) : Int × Int :=
  if weighted w p > st.1 then (weighted w p, p.1) else st

/-- The label `bestGtLabel` that `getGroundTruthAssignments` finds for one
histogram. -/
def bestGtLabel (w : Weight) (h : Histogram) : Int :=
  (h.foldl (bestStep w) (0, 0)).2

/-- The function `BestEffort::getGroundTruthAssignments`. -/
def getGroundTruthAssignments (w : Weight) (crag : Crag)
    (overlaps : CragNode → Histogram) (gtAssignments : CragNode → Int) :
    CragNode → Int :=
  crag.nodes.foldl (fun gt i =>
    if crag.type i = NodeType.NoAssignmentNode then gt
    else setAt gt i (bestGtLabel w (overlaps i))) gtAssignments

/-! ## Candidate selector -/

/-- The call `s.insert(x)` on a `std::set<int>`, elements in ascending
order. -/
def setInsert : List Int → Int → List Int
  | [], x => [x]
  | y :: s, x =>
    if x = y then y :: s
    else if x < y then x :: y :: s
    else y :: setInsert s x

/-- The range insertion `s.insert(t.begin(), t.end())`. -/
def setInsertAll (s t : List Int) : List Int :=
  t.foldl setInsert s

/-- The function `BestEffort::getLeafAssignments`. -/
def getLeafAssignments (crag : Crag) (gtAssignments : CragNode → Int) :
    Nat → CragNode → (CragNode → List Int) → Except Failure (CragNode → List Int)
  | 0, _, _ => .error Failure.outOfFuel
  | fuel + 1, n, leafAssignments =>
    match forEach (fun la child =>
        match getLeafAssignments crag gtAssignments fuel child la with
        | .ok la' => .ok (setAt la' n (setInsertAll (la' n) (la' child)))
        | .error e => .error e)
      (crag.inArcs n) (setAt leafAssignments n []) with
    | .ok la => .ok (setAt la n (setInsert (la n) (gtAssignments n)))
    | .error e => .error e

/-- The sum `totalOverlap` of the weighted overlaps of a histogram, in the units
of `w`. -/
def totalOverlap (w : Weight) (h : Histogram) : Int :=
  h.foldl (fun t p => t + weighted w p) 0

/-- The test `maxOverlap/totalOverlap > 0.5` on doubles: a positive value
divided by zero is infinite, and `0/0` compares false. -/
def exceedsHalf (maxOverlap total : Int) : Bool :=
  if total = 0 then decide (0 < maxOverlap)
  else if 0 < total then decide (total < 2 * maxOverlap)
  else decide (2 * maxOverlap < total)

/-- The condition `crag.isLeafNode(n) || maxOverlap/totalOverlap > 0.5` of
`labelMajorityOverlapCandidate`, for the count `c` found at the assigned
label. -/
def majorityTest (w : Weight) (crag : Crag) (overlaps : CragNode → Histogram)
    (gtAssignments : CragNode → Int) (n : CragNode) (c : Int) : Bool :=
  crag.isLeafNode n ||
    exceedsHalf (weighted w (gtAssignments n, c)) (totalOverlap w (overlaps n))

/-- The function `BestEffort::labelMajorityOverlapCandidate`. -/
def labelMajorityOverlapCandidate (full : Bool) (w : Weight) (crag : Crag)
    (overlaps : CragNode → Histogram) (gtAssignments : CragNode → Int) :
    Nat → CragNode → Selection → Except Failure Selection
  | 0, _, _ => .error Failure.outOfFuel
  | fuel + 1, n, sel =>
    match (overlaps n).at? (gtAssignments n) with
    | none => .error Failure.outOfRange
    | some c =>
      if majorityTest w crag overlaps gtAssignments n c then
        if !full then .ok (sel.setNode n (decide (gtAssignments n ≠ 0)))
        else
          forEach (fun s child =>
              labelMajorityOverlapCandidate full w crag overlaps gtAssignments fuel child s)
            (crag.inArcs n) (sel.setNode n (decide (gtAssignments n ≠ 0)))
      else
        forEach (fun s child =>
            labelMajorityOverlapCandidate full w crag overlaps gtAssignments fuel child s)
          (crag.inArcs n) sel

/-- The function `BestEffort::findMajorityOverlapCandidates`. -/
def findMajorityOverlapCandidates (full : Bool) (w : Weight) (fuel : Nat)
    (crag : Crag) (overlaps : CragNode → Histogram)
    (gtAssignments : CragNode → Int) (sel : Selection) : Except Failure Selection :=
  forEach (fun s n =>
      if crag.type n = NodeType.NoAssignmentNode ∨
          crag.type n = NodeType.AssignmentNode then .ok s
      else if crag.isRootNode n then
        labelMajorityOverlapCandidate full w crag overlaps gtAssignments fuel n s
      else .ok s)
    crag.nodes sel

/-- The condition under which `labelSingleAssignmentCandidate` selects `n`:
exactly one leaf assignment, not background, and `n` neither an assignment
node nor a no-assignment node. -/
def singleTest (crag : Crag) (leafAssignments : CragNode → List Int)
    (n : CragNode) : Bool :=
  ((leafAssignments n).length == 1 && (leafAssignments n).head? != some 0) &&
    (crag.type n != NodeType.AssignmentNode &&
      crag.type n != NodeType.NoAssignmentNode)

/-- The function `BestEffort::labelSingleAssignmentCandidate`. -/
def labelSingleAssignmentCandidate (full : Bool) (crag : Crag)
    (leafAssignments : CragNode → List Int) :
    Nat → CragNode → Selection → Except Failure Selection
  | 0, _, _ => .error Failure.outOfFuel
  | fuel + 1, n, sel =>
    if singleTest crag leafAssignments n then
      if !full then .ok (sel.setNode n true)
      else
        forEach (fun s child =>
            labelSingleAssignmentCandidate full crag leafAssignments fuel child s)
          (crag.inArcs n) (sel.setNode n true)
    else
      forEach (fun s child =>
          labelSingleAssignmentCandidate full crag leafAssignments fuel child s)
        (crag.inArcs n) sel

/-- The first loop of `findConcordantLeafNodeCandidates`: the leaf assignments
below every root. -/
def allLeafAssignments (fuel : Nat) (crag : Crag) (gtAssignments : CragNode → Int) :
    Except Failure (CragNode → List Int) :=
  forEach (fun la n =>
      if crag.isRootNode n then getLeafAssignments crag gtAssignments fuel n la
      else .ok la)
    crag.nodes (fun _ => [])

/-- The function `BestEffort::findConcordantLeafNodeCandidates`. -/
def findConcordantLeafNodeCandidates (full : Bool) (fuel : Nat) (crag : Crag)
    (gtAssignments : CragNode → Int) (sel : Selection) : Except Failure Selection :=
  match allLeafAssignments fuel crag gtAssignments with
  | .error e => .error e
  | .ok leafAssignments =>
    forEach (fun s n =>
        if crag.isRootNode n then
          labelSingleAssignmentCandidate full crag leafAssignments fuel n s
        else .ok s)
      crag.nodes sel

/-! ## Cross-section link resolver -/

/-- The function `BestEffort::unselectChildren`. -/
def unselectChildren (crag : Crag) : Nat → CragNode → Selection → Except Failure Selection
  | 0, _, _ => .error Failure.outOfFuel
  | fuel + 1, n, sel =>
    forEach (fun s child => unselectChildren crag fuel child (s.setNode child false))
      (crag.inArcs n) sel

/-- First loop of `selectAssignments`: below every selected slice node all
candidates are unselected. -/
def unselectBelowSelected (fuel : Nat) (crag : Crag) (sel : Selection) :
    Except Failure Selection :=
  forEach (fun s n =>
      if crag.type n ≠ NodeType.SliceNode then .ok s
      else if s.node n then unselectChildren crag fuel n s
      else .ok s)
    crag.nodes sel

/-- The loop over `crag.adjEdges(n)` for one assignment node in
`selectAssignments`: the value of `selectAssignmentNode` when the loop is left,
given the current `sliceLabel`. -/
def linksSelectedSlices (crag : Crag) (gtAssignments : CragNode → Int)
    (sel : Selection) (n : CragNode) : List CragEdge → Int → Except Failure Bool
  | [], _ => .ok true
  | edge :: rest, sliceLabel =>
    match Crag.oppositeNode n edge with
    | none => .error Failure.invalidNode
    | some opposite =>
      if crag.type opposite ≠ NodeType.SliceNode then .error Failure.assertion
      else if !sel.node opposite then .ok false
      else if sliceLabel = -1 then
        linksSelectedSlices crag gtAssignments sel n rest (gtAssignments opposite)
      else if sliceLabel ≠ gtAssignments opposite then .ok false
      else linksSelectedSlices crag gtAssignments sel n rest sliceLabel

/-- Second loop of `selectAssignments`: the assignment nodes that link selected
candidates with the same label are selected. -/
def selectAssignmentNodes (crag : Crag) (gtAssignments : CragNode → Int)
    (sel : Selection) : Except Failure Selection :=
  forEach (fun s n =>
      if crag.type n ≠ NodeType.AssignmentNode then .ok s
      else
        match linksSelectedSlices crag gtAssignments s n (crag.adjEdges n) (-1) with
        | .error e => .error e
        | .ok selectAssignmentNode =>
          if selectAssignmentNode then .ok (s.setNode n true) else .ok s)
    crag.nodes sel

/-- Third loop of `selectAssignments`: an assignment edge is selected when both
end points are selected and carry the same label other than background. -/
def selectAssignmentEdges (crag : Crag) (gtAssignments : CragNode → Int)
    (sel : Selection) : Selection :=
  crag.edges.foldl (fun s e =>
      if e.type ≠ EdgeType.AssignmentEdge then s
      else if !s.node e.u || !s.node e.v then s
      else if gtAssignments e.u ≠ 0 ∧ gtAssignments e.u = gtAssignments e.v then
        s.setEdge e true
      else s)
    sel

/-- Local variables of `explanationConstraint` while the edges of one slice
node are visited. -/
structure RepairState where
  sel : Selection
  previous : Option CragNode
  assignmentSelected : Nat

/-- Body of the innermost loop of `explanationConstraint` for the slice node
`n`, one `direction` and one incident `edge`. The read `overlaps[x][label]`
yields zero for a missing label. -/
def explanationEdge (crag : Crag) (volumes : CragVolumes)
    (gtAssignments : CragNode → Int) (overlaps : CragNode → Histogram)
    (n : CragNode) (direction : Int) (st : RepairState) (edge : CragEdge) :
    Except Failure RepairState :=
  if edge.type ≠ EdgeType.AssignmentEdge then .ok st
  else if !st.sel.edge edge.id then .ok st
  else
    match Crag.oppositeNode n edge with
    | none => .ok st
    | some opposite =>
      if crag.type opposite ≠ NodeType.AssignmentNode then .error Failure.assertion
      else if ((volumes opposite).centerZ - (volumes n).centerZ) * direction < 0 then .ok st
      else if st.assignmentSelected + 1 > 1 then
        match st.previous with
        | none => .error Failure.invalidNode
        | some previous =>
          let label := gtAssignments previous
          let removed :=
            if (overlaps previous).get label > (overlaps opposite).get label then opposite
            else previous
          let sel := (crag.adjEdges removed).foldl (fun s e => s.setEdge e false)
            (st.sel.setNode removed false)
          .ok ⟨sel, if sel.node opposite then some opposite else st.previous,
            st.assignmentSelected⟩
      else
        .ok ⟨st.sel, if st.sel.node opposite then some opposite else st.previous,
          st.assignmentSelected + 1⟩

/-- The loop over the two directions in `explanationConstraint` for one
selected slice node; `previous` is kept from one direction to the next. -/
def explanationNode (crag : Crag) (volumes : CragVolumes)
    (gtAssignments : CragNode → Int) (overlaps : CragNode → Histogram)
    (n : CragNode) (sel : Selection) : Except Failure Selection :=
  match forEach (fun (st : RepairState) (direction : Int) =>
      forEach (explanationEdge crag volumes gtAssignments overlaps n direction)
        (crag.adjEdges n) ⟨st.sel, st.previous, 0⟩)
    [1, -1] ⟨sel, none, 0⟩ with
  | .ok st => .ok st.sel
  | .error e => .error e

/-- The function `BestEffort::explanationConstraint`. -/
def explanationConstraint (crag : Crag) (volumes : CragVolumes)
    (gtAssignments : CragNode → Int) (overlaps : CragNode → Histogram)
    (sel : Selection) : Except Failure Selection :=
  forEach (fun s n =>
      if crag.type n ≠ NodeType.SliceNode then .ok s
      else if !s.node n then .ok s
      else explanationNode crag volumes gtAssignments overlaps n s)
    crag.nodes sel

/-- First inner loop of `selectNoAssignmentEdges`: the value of
`needNoAssignmentNode` for the slice node `n` and one `direction`. -/
def needNoAssignmentNode (crag : Crag) (volumes : CragVolumes) (sel : Selection)
    (n : CragNode) (direction : Int) : Except Failure Bool :=
  forEach (fun (need : Bool) (edge : CragEdge) =>
      if edge.type ≠ EdgeType.AssignmentEdge then .ok need
      else
        match Crag.oppositeNode n edge with
        | none => .ok need
        | some opposite =>
          if crag.type opposite ≠ NodeType.AssignmentNode then .error Failure.assertion
          else if ((volumes opposite).centerZ - (volumes n).centerZ) * direction < 0 then
            .ok need
          else if sel.edge edge.id then .ok false
          else .ok need)
    (crag.adjEdges n) true

/-- Second inner loop of `selectNoAssignmentEdges`: the no-assignment edges of
`n` that lie in `direction` are selected. -/
def selectNoAssignmentEdgesOf (crag : Crag) (volumes : CragVolumes)
    (n : CragNode) (direction : Int) (sel : Selection) : Except Failure Selection :=
  forEach (fun (s : Selection) (edge : CragEdge) =>
      if edge.type ≠ EdgeType.NoAssignmentEdge then .ok s
      else
        match Crag.oppositeNode n edge with
        | none => .ok s
        | some opposite =>
          if crag.type opposite ≠ NodeType.NoAssignmentNode then .error Failure.assertion
          else if ((volumes opposite).centerZ - (volumes n).centerZ) * direction < 0 then
            .ok s
          else .ok (s.setEdge edge true))
    (crag.adjEdges n) sel

/-- The function `BestEffort::selectNoAssignmentEdges`. -/
def selectNoAssignmentEdges (crag : Crag) (volumes : CragVolumes)
    (sel : Selection) : Except Failure Selection :=
  forEach (fun s n =>
      if crag.type n ≠ NodeType.SliceNode then .ok s
      else if !s.node n then .ok s
      else
        forEach (fun (s : Selection) (direction : Int) =>
            match needNoAssignmentNode crag volumes s n direction with
            | .error e => .error e
            | .ok need =>
              if !need then .ok s
              else selectNoAssignmentEdgesOf crag volumes n direction s)
          [1, -1] s)
    crag.nodes sel

/-- The function `BestEffort::selectAssignments`. -/
def selectAssignments (fuel : Nat) (crag : Crag) (volumes : CragVolumes)
    (gtAssignments : CragNode → Int) (overlaps : CragNode → Histogram)
    (sel : Selection) : Except Failure Selection :=
  match unselectBelowSelected fuel crag sel with
  | .error e => .error e
  | .ok s1 =>
    match selectAssignmentNodes crag gtAssignments s1 with
    | .error e => .error e
    | .ok s2 =>
      match explanationConstraint crag volumes gtAssignments overlaps
          (selectAssignmentEdges crag gtAssignments s2) with
      | .error e => .error e
      | .ok s4 => selectNoAssignmentEdges crag volumes s4

/-! ## The ground-truth constructor -/

/-- The state of a fresh `CragSolution` after the two loops that unselect every
candidate and every edge. -/
def clearSelection (crag : Crag) : Selection :=
  crag.edges.foldl (fun s e => s.setEdge e false)
    (crag.nodes.foldl (fun s n => s.setNode n false) ⟨fun _ => false, fun _ => false⟩)

/-- The candidate selector chosen by the option `majorityOverlap`. -/
def selectCandidates (opts : Options) (fuel : Nat) (crag : Crag)
    (overlaps : CragNode → Histogram) (gtAssignments : CragNode → Int)
    (sel : Selection) : Except Failure Selection :=
  if opts.majorityOverlap then
    findMajorityOverlapCandidates opts.fullBestEffort opts.backgroundOverlapWeight fuel
      crag overlaps gtAssignments sel
  else
    findConcordantLeafNodeCandidates opts.fullBestEffort fuel crag gtAssignments sel

/-- The loop of the constructor over the edges that are not assignment edges:
such an edge is selected when both end points are selected and carry the same
label other than background. -/
def selectAdjacencyEdges (crag : Crag) (gtAssignments : CragNode → Int)
    (sel : Selection) : Selection :=
  crag.edges.foldl (fun s e =>
      if e.type = EdgeType.AssignmentEdge then s
      else if !s.node e.u || !s.node e.v then s
      else if gtAssignments e.u ≠ 0 ∧ gtAssignments e.u = gtAssignments e.v then
        s.setEdge e true
      else s)
    sel

/-- The overlaps computed by the constructor. -/
def bestEffortOverlaps (crag : Crag) (volumes : CragVolumes)
    (groundTruth : GroundTruth) : CragNode → Histogram :=
  getGroundTruthOverlaps crag volumes groundTruth (fun _ => [])

/-- The ground-truth assignments computed by the constructor. -/
def bestEffortAssignments (opts : Options) (crag : Crag) (volumes : CragVolumes)
    (groundTruth : GroundTruth) : CragNode → Int :=
  getGroundTruthAssignments opts.backgroundOverlapWeight crag
    (bestEffortOverlaps crag volumes groundTruth) (fun _ => 0)

/-- The constructor `BestEffort::BestEffort(crag, volumes, groundTruth)`. -/
def bestEffort (opts : Options) (fuel : Nat) (crag : Crag) (volumes : CragVolumes)
    (groundTruth : GroundTruth) : Except Failure Selection :=
  let overlaps := bestEffortOverlaps crag volumes groundTruth
  let gtAssignments := bestEffortAssignments opts crag volumes groundTruth
  match selectCandidates opts fuel crag overlaps gtAssignments (clearSelection crag) with
  | .error e => .error e
  | .ok s =>
    selectAssignments fuel crag volumes gtAssignments overlaps
      (selectAdjacencyEdges crag gtAssignments s)

/-! # Vocabulary of the claims and example inputs -/

/-- A histogram as the program builds it: keys strictly ascending and every
count a positive 32-bit `int`. -/
def Histogram.WellFormed (h : Histogram) : Prop :=
  h.Pairwise (fun p q => p.1 < q.1) ∧ (∀ p ∈ h, 0 < p.2) ∧ ∀ p ∈ h, p.2 < 2147483648

/-- The label `a` is a weighted argmax of the histogram `h`: background for an
empty histogram, otherwise a key of `h` whose weighted overlap is not exceeded
by that of any entry. -/
def IsWeightedArgmax (w : Weight) (h : Histogram) (a : Int) : Prop :=
  (h = [] → a = 0) ∧
    (h ≠ [] → a ∈ h.keys ∧ ∀ p ∈ h, weighted w p ≤ weighted w (a, h.get a))

/-- The background weight one half. -/
def Weight.half : Weight := ⟨1, -1⟩

/-- The `double` nearest to one third, `6004799503160661 * 2 ^ -54`. -/
def thirdWeight : Weight := ⟨6004799503160661, -54⟩

/-- Modelled from the spec: the weighted score of a histogram entry as a real
number, the count, or `count * w` for label `0`, without rounding, in the units
of `w`. -/
def exactWeighted (w : Weight) (p : Int × Int) : Int :=
  if p.1 = 0 then p.2 * w.mant * ((2 ^ w.exp.toNat : Nat) : Int)
  else p.2 * ((2 ^ (-w.exp).toNat : Nat) : Int)

/-- A row of `n` voxels, all of them in the mask. -/
def rowVolume (n : Nat) : CragVolume := ⟨n, 1, 1, fun _ _ _ => true, (0, 0, 0), 0⟩

/-- A ground truth with three background voxels at the start of every row,
followed by the regions `1`, `2` and so on. -/
def thirdTruth : GroundTruth := fun x _ _ => if x < 3 then 0 else (x : Int) - 2

/-- A hierarchy of a single slice node without edges. -/
def singleCrag : Crag := ⟨[0], fun _ => NodeType.SliceNode, [], []⟩

/-- A hierarchy of a single no-assignment node without edges. -/
def placeholderCrag : Crag := ⟨[0], fun _ => NodeType.NoAssignmentNode, [], []⟩

/-- A region of one voxel, whose mask is set. -/
def unitVolume : CragVolume := ⟨1, 1, 1, fun _ _ _ => true, (0, 0, 0), 0⟩

/-- A region of two by two voxels in one section, three of them in the mask. -/
def cornerVolume : CragVolume :=
  ⟨2, 2, 1, fun x y _ => x == 0 || y == 1, (1, 0, 0), 0⟩

/-- A ground truth whose label grows with the x-coordinate. -/
def stripeTruth : GroundTruth := fun x _ _ => (x : Int)

/-- A ground truth that is label `7` everywhere. -/
def sevenTruth : GroundTruth := fun _ _ _ => 7

/-- The candidate `d` is a proper descendant of `a`: it is reached from `a` by
one or more steps from a candidate to one of its children. -/
inductive Crag.ProperDescendant (crag : Crag) : CragNode → CragNode → Prop
  | child {a c : CragNode} : c ∈ crag.inArcs a → Crag.ProperDescendant crag c a
  | step {a c d : CragNode} : c ∈ crag.inArcs a → Crag.ProperDescendant crag d c →
      Crag.ProperDescendant crag d a

/-- A top-down traversal that starts at `r` and does not descend below a
candidate at which `halt` holds reaches `x`. -/
inductive Crag.Visits (crag : Crag) (halt : CragNode → Bool) : CragNode → CragNode → Prop
  | here (r : CragNode) : Crag.Visits crag halt r r
  | down {r c x : CragNode} : halt r = false → c ∈ crag.inArcs r →
      Crag.Visits crag halt c x → Crag.Visits crag halt r x

/-- Every candidate has at most one parent. -/
def Crag.UniqueParent (crag : Crag) : Prop :=
  ∀ c p q, c ∈ crag.inArcs p → c ∈ crag.inArcs q → p = q

/-- The subset arcs run between candidates of the CRAG. -/
def Crag.ArcsClosed (crag : Crag) : Prop :=
  ∀ a ∈ crag.arcs, a.source ∈ crag.nodes ∧ a.target ∈ crag.nodes

/-- The function `level` decreases along every subset arc from parent to
child and stays below `bound` on the candidates: the subset relation has no
cycle and no chain of `bound` or more arcs. -/
def Crag.Ranked (crag : Crag) (level : CragNode → Nat) (bound : Nat) : Prop :=
  (∀ a ∈ crag.arcs, level a.source < level a.target) ∧ ∀ n ∈ crag.nodes, level n < bound

/-- The value of the condition `crag.isLeafNode(n) || maxOverlap/totalOverlap >
0.5` of `labelMajorityOverlapCandidate` at `n`; false when the assigned label
is missing from the histogram. -/
def majorityStop (w : Weight) (crag : Crag) (overlaps : CragNode → Histogram)
    (gtAssignments : CragNode → Int) (n : CragNode) : Bool :=
  match (overlaps n).at? (gtAssignments n) with
  | none => false
  | some c => majorityTest w crag overlaps gtAssignments n c

/-- The selection state in which nothing is selected. -/
def Selection.none : Selection := ⟨fun _ => false, fun _ => false⟩

/-- The candidates at which `labelMajorityOverlapCandidate` returns without
visiting the children. -/
def majorityHalt (full : Bool) (w : Weight) (crag : Crag)
    (overlaps : CragNode → Histogram) (gtAssignments : CragNode → Int)
    (n : CragNode) : Bool :=
  !full && majorityStop w crag overlaps gtAssignments n

/-- The candidates at which `labelSingleAssignmentCandidate` returns without
visiting the children. -/
def singleHalt (full : Bool) (crag : Crag) (leafAssignments : CragNode → List Int)
    (n : CragNode) : Bool :=
  !full && singleTest crag leafAssignments n

/-- The candidates from which `findMajorityOverlapCandidates` starts a
traversal: roots that are neither assignment nor no-assignment nodes. -/
def Crag.MajorityStart (crag : Crag) (r : CragNode) : Prop :=
  r ∈ crag.nodes ∧ crag.type r ≠ NodeType.NoAssignmentNode ∧
    crag.type r ≠ NodeType.AssignmentNode ∧ crag.isRootNode r = true

/-- The candidates from which `findConcordantLeafNodeCandidates` starts a
traversal: the roots. -/
def Crag.Root (crag : Crag) (r : CragNode) : Prop :=
  r ∈ crag.nodes ∧ crag.isRootNode r = true

/-- The label `l` is assigned to `x` or to one of its descendants. -/
def Crag.SubtreeLabel (crag : Crag) (gtAssignments : CragNode → Int) (x : CragNode)
    (l : Int) : Prop :=
  l = gtAssignments x ∨ ∃ d, crag.ProperDescendant d x ∧ l = gtAssignments d

/-- The set `s` holds exactly the labels assigned to `x` and to its
descendants, in ascending order. -/
def Crag.LeafSet (crag : Crag) (gtAssignments : CragNode → Int) (x : CragNode)
    (s : List Int) : Prop :=
  (∀ l, l ∈ s ↔ crag.SubtreeLabel gtAssignments x l) ∧ s.Pairwise (· < ·)

/-- The candidate `n` and all of its descendants are assigned one and the same
label, which is not background. -/
def Crag.Concordant (crag : Crag) (gtAssignments : CragNode → Int) (n : CragNode) : Prop :=
  gtAssignments n ≠ 0 ∧ ∀ d, crag.ProperDescendant d n → gtAssignments d = gtAssignments n

/-- The selection state of a result; nothing is selected after a failure. -/
def selectionOf (r : Except Failure Selection) : Selection :=
  match r with
  | .ok s => s
  | .error _ => Selection.none

/-- A root `0` with the two children `1` and `2`, all of them slice nodes. -/
def forkCrag : Crag :=
  ⟨[0, 1, 2], fun _ => NodeType.SliceNode, [⟨1, 0⟩, ⟨2, 0⟩], []⟩

/-- Overlaps on `forkCrag`: the children lie in the ground-truth regions `1`
and `2`, the root covers both in equal parts. -/
def forkOverlaps : CragNode → Histogram := fun n =>
  if n = 0 then [(1, 10), (2, 10)] else if n = 1 then [(1, 10)] else [(2, 10)]

/-- The assignments that `getGroundTruthAssignments` derives from
`forkOverlaps`. -/
def forkAssignments : CragNode → Int :=
  getGroundTruthAssignments Weight.one forkCrag forkOverlaps (fun _ => 0)

/-- Height of the candidates of `forkCrag`, and of the other two-level
examples whose root is `0`. -/
def rootLevel : CragNode → Nat := fun n => if n = 0 then 1 else 0

/-- The candidate `n` has a strict majority overlap with the ground-truth
region it is assigned to: twice the overlap exceeds the sum of all counts. -/
def StrictMajority (overlaps : CragNode → Histogram) (gtAssignments : CragNode → Int)
    (n : CragNode) : Prop :=
  (overlaps n).total < 2 * (overlaps n).get (gtAssignments n)

instance (h : Histogram) : Decidable h.WellFormed := by
  unfold Histogram.WellFormed
  infer_instance

instance (crag : Crag) : Decidable crag.ArcsClosed := by
  unfold Crag.ArcsClosed
  infer_instance

instance (crag : Crag) (level : CragNode → Nat) (bound : Nat) :
    Decidable (crag.Ranked level bound) := by
  unfold Crag.Ranked
  infer_instance

/-- A linear hierarchy: the root `0` with the single child `1`, slice nodes. -/
def chainCrag : Crag := ⟨[0, 1], fun _ => NodeType.SliceNode, [⟨1, 0⟩], []⟩

/-- An assignment node `0` with edges to the two slice nodes `1` and `2`. -/
def linkCrag : Crag :=
  ⟨[0, 1, 2], fun n => if n = 0 then NodeType.AssignmentNode else NodeType.SliceNode, [],
    [⟨0, 0, 1, EdgeType.AssignmentEdge⟩, ⟨1, 0, 2, EdgeType.AssignmentEdge⟩]⟩

/-- Ground-truth assignments on `linkCrag`: label `-1` for the slice node `1`
and label `5` for the other candidates. -/
def sentinelAssignments : CragNode → Int := fun n => if n = 1 then -1 else 5

/-- The state in which exactly the candidates `1` and `2` are selected. -/
def slicesSelected : Selection := ⟨fun n => n == 1 || n == 2, fun _ => false⟩

/-- Regions of one voxel for `linkCrag`: the slice node `1` at the origin, the
other candidates one voxel further along the x-axis. -/
def sentinelVolumes : CragVolumes := fun n =>
  if n = 1 then unitVolume else ⟨1, 1, 1, fun _ _ _ => true, (1, 0, 0), 0⟩

/-- A ground truth that is label `-1` in the plane `x = 0` and label `5`
elsewhere. -/
def sentinelTruth : GroundTruth := fun x _ _ => if x = 0 then -1 else 5

/-- Every candidate adjacent to `n` over an incident edge is selected, and all
of these neighbours carry the same ground-truth label. -/
def Crag.LinksSelected (crag : Crag) (gtAssignments : CragNode → Int) (sel : Selection)
    (n : CragNode) : Prop :=
  (∀ e ∈ crag.adjEdges n, ∀ o, Crag.oppositeNode n e = some o → sel.node o = true) ∧
  (∀ e ∈ crag.adjEdges n, ∀ e' ∈ crag.adjEdges n, ∀ o o',
    Crag.oppositeNode n e = some o → Crag.oppositeNode n e' = some o' →
    gtAssignments o = gtAssignments o')

/-- The edge ids of the CRAG are pairwise distinct: an id names one edge. -/
def Crag.EdgeIdsDistinct (crag : Crag) : Prop :=
  (crag.edges.map CragEdge.id).Nodup

instance (crag : Crag) : Decidable crag.EdgeIdsDistinct := by
  unfold Crag.EdgeIdsDistinct
  infer_instance

/-- Two slice nodes `0` and `1` in one section, joined by an adjacency edge. -/
def pairCrag : Crag :=
  ⟨[0, 1], fun _ => NodeType.SliceNode, [], [⟨0, 0, 1, EdgeType.AdjacencyEdge⟩]⟩

/-- The options of the examples: Strategy B without the full best-effort. -/
def plainOptions : Options := ⟨false, Weight.one, false⟩

/-- The state of `linkCrag`, all candidates assigned label `5`, when the
candidate selector has returned. -/
def linkStage0 : Selection :=
  selectionOf (selectCandidates plainOptions 1 linkCrag (fun _ => [(5, 1)]) (fun _ => 5)
    (clearSelection linkCrag))

/-- The state of `linkCrag` after the first loop of `selectAssignments`. -/
def linkStage1 : Selection :=
  selectionOf (unselectBelowSelected 1 linkCrag
    (selectAdjacencyEdges linkCrag (fun _ => 5) linkStage0))

/-- The state of `linkCrag` after the second loop of `selectAssignments`. -/
def linkStage2 : Selection :=
  selectionOf (selectAssignmentNodes linkCrag (fun _ => 5) linkStage1)

/-- A region whose bounding box holds no voxel. -/
def emptyVolume : CragVolume := ⟨0, 0, 0, fun _ _ _ => false, (0, 0, 0), 0⟩

/-- The options that choose Strategy A with the default weight. -/
def majorityOptions : Options := ⟨false, Weight.one, true⟩

/-- Strategy A with `fullBestEffort = true` and the default weight. -/
def fullMajorityOptions : Options := ⟨true, Weight.one, true⟩

/-- The root `0` of `chainCrag` holds one voxel, its child `1` has an empty
mask. -/
def hollowChildVolumes : CragVolumes := fun n => if n = 0 then unitVolume else emptyVolume

/-- The histogram of a region that meets the ground-truth label `l` only, in
`k` voxels. -/
def constHistogram (l k : Int) : Histogram :=
  if k = 0 then [] else [(l, k)]

/-- The test `maxOverlap/totalOverlap > 0.5` of `labelMajorityOverlapCandidate`
holds at `n`: the weighted overlap with the assigned region is more than half
of the sum of all weighted overlaps. -/
def HasMajority (w : Weight) (overlaps : CragNode → Histogram)
    (gtAssignments : CragNode → Int) (n : CragNode) : Prop :=
  exceedsHalf (weighted w (gtAssignments n, (overlaps n).get (gtAssignments n)))
    (totalOverlap w (overlaps n)) = true

instance (w : Weight) (overlaps : CragNode → Histogram) (gtAssignments : CragNode → Int)
    (n : CragNode) : Decidable (HasMajority w overlaps gtAssignments n) := by
  unfold HasMajority
  infer_instance

/-- A histogram that is shared in equal parts between background and the
ground-truth region `1`. -/
def tiedHistogram : Histogram := [(0, 5), (1, 5)]

/-- The options that choose Strategy B with the full best-effort. -/
def fullOptions : Options := ⟨true, Weight.one, false⟩

/-- Overlaps on `chainCrag`: the root has two thirds of its voxels in region `1`,
its child lies in the background. -/
def backgroundChildOverlaps : CragNode → Histogram := fun n =>
  if n = 0 then [(0, 5), (1, 10)] else [(0, 5)]

/-- An assignment node `0` with an edge to the slice node `1` and, visited
after it, an edge to the candidate `2`, which is not a slice node. -/
def mistypedCrag : Crag :=
  ⟨[0, 1, 2],
    fun n => if n = 0 then NodeType.AssignmentNode
      else if n = 1 then NodeType.SliceNode else NodeType.VolumeNode,
    [], [⟨0, 0, 1, EdgeType.AssignmentEdge⟩, ⟨1, 0, 2, EdgeType.AssignmentEdge⟩]⟩

/-- A ground truth that is background everywhere. -/
def backgroundTruth : GroundTruth := fun _ _ _ => 0

/-- The state in which exactly the candidate `1` is selected. -/
def oneSelected : Selection := ⟨fun n => n == 1, fun _ => false⟩

/-- The z offset `zDiff` from the candidate `n` to the candidate `o`. -/
def zOffset (volumes : CragVolumes) (n o : CragNode) : Int :=
  (volumes o).centerZ - (volumes n).centerZ

/-- The edge `e` at `n` is not skipped by the test `zDiff*direction < 0` for the
direction `d`. -/
def Passes (volumes : CragVolumes) (n : CragNode) (d : Int) (e : CragEdge) : Prop :=
  ∃ o, Crag.oppositeNode n e = some o ∧ ¬ zOffset volumes n o * d < 0

/-- The opposite endpoint of the edge `e` at `n` lies in direction `d`. -/
def InDirection (volumes : CragVolumes) (n : CragNode) (d : Int) (e : CragEdge) : Prop :=
  ∃ o, Crag.oppositeNode n e = some o ∧ 0 < zOffset volumes n o * d

/-- No selected assignment edge at `n` passes the direction test for `d`: the
condition under which `selectNoAssignmentEdges` selects no-assignment edges. -/
def Crag.NeedsNoLink (crag : Crag) (volumes : CragVolumes) (sel : Selection)
    (n : CragNode) (d : Int) : Prop :=
  ¬ ∃ e ∈ crag.adjEdges n, e.type = EdgeType.AssignmentEdge ∧ Passes volumes n d e ∧
    sel.edge e.id = true

/-- Every cross-section neighbour of a slice node has a z offset other than
zero. -/
def Crag.OffsetsNonzero (crag : Crag) (volumes : CragVolumes) : Prop :=
  ∀ n ∈ crag.nodes, crag.type n = NodeType.SliceNode → ∀ e ∈ crag.adjEdges n,
    (e.type = EdgeType.AssignmentEdge ∨ e.type = EdgeType.NoAssignmentEdge) →
    ∀ o, Crag.oppositeNode n e = some o → zOffset volumes n o ≠ 0

instance (crag : Crag) (volumes : CragVolumes) : Decidable (crag.OffsetsNonzero volumes) := by
  unfold Crag.OffsetsNonzero
  infer_instance

instance (volumes : CragVolumes) (n : CragNode) (d : Int) (e : CragEdge) :
    Decidable (InDirection volumes n d e) := by
  unfold InDirection
  cases h : Crag.oppositeNode n e with
  | none => exact isFalse (fun ⟨_, ho, _⟩ => by cases ho)
  | some o =>
    by_cases hz : 0 < zOffset volumes n o * d
    · exact isTrue ⟨o, rfl, hz⟩
    · exact isFalse (fun ⟨o', ho', hz'⟩ => by
        simp only [Option.some.injEq] at ho'
        subst ho'
        exact hz hz')

/-- Two slice nodes `1` and `2` in the sections `z = 0` and `z = 2`, linked by
the assignment node `10`, with the placeholders `20` below and `21` above both of
them. -/
def fallbackCrag : Crag :=
  ⟨[1, 2, 10, 20, 21],
    fun n => if n = 10 then NodeType.AssignmentNode
      else if n = 20 ∨ n = 21 then NodeType.NoAssignmentNode else NodeType.SliceNode,
    [],
    [⟨0, 1, 10, EdgeType.AssignmentEdge⟩, ⟨1, 10, 2, EdgeType.AssignmentEdge⟩,
      ⟨2, 1, 20, EdgeType.NoAssignmentEdge⟩, ⟨3, 1, 21, EdgeType.NoAssignmentEdge⟩,
      ⟨4, 2, 20, EdgeType.NoAssignmentEdge⟩, ⟨5, 2, 21, EdgeType.NoAssignmentEdge⟩]⟩

/-- Regions of one voxel for `fallbackCrag`, centred at `z = 0`, `2`, `1`, `-5`
and `5`. -/
def fallbackVolumes : CragVolumes := fun n =>
  ⟨1, 1, 1, fun _ _ _ => true, (0, 0, 0),
    if n = 1 then 0 else if n = 2 then 2 else if n = 10 then 1 else if n = 20 then -5 else 5⟩

/-- The state of `fallbackCrag` in which the slice nodes, the assignment node
and the two assignment edges are selected. -/
def fallbackSelected : Selection :=
  ⟨fun n => n == 1 || n == 2 || n == 10, fun i => i == 0 || i == 1⟩

/-- The state after `setSelected(removed, false)` and `setSelected(e, false)` for
every `e` in `crag.adjEdges(removed)`, the body of the repair in
`explanationConstraint`. -/
def unselectNode (crag : Crag) (removed : CragNode) (s : Selection) : Selection :=
  (crag.adjEdges removed).foldl (fun s e => s.setEdge e false) (s.setNode removed false)

/-- The edge `e` at `n` is counted by `explanationConstraint` in direction `d`:
a selected assignment edge that is not skipped by the direction test. -/
def Live (volumes : CragVolumes) (sel : Selection) (n : CragNode) (d : Int)
    (e : CragEdge) : Prop :=
  e.type = EdgeType.AssignmentEdge ∧ sel.edge e.id = true ∧ Passes volumes n d e

/-- The node `x` is an assignment node reached from `n` by an edge counted in
direction `d`. -/
def Crag.Competitor (crag : Crag) (volumes : CragVolumes) (sel : Selection)
    (n : CragNode) (d : Int) (x : CragNode) : Prop :=
  crag.type x = NodeType.AssignmentNode ∧
    ∃ e ∈ crag.adjEdges n, Live volumes sel n d e ∧ Crag.oppositeNode n e = some x

/-- The state `s` is `s0` with the nodes of `removed` and all their incident
edges unselected. -/
def Crag.Removed (crag : Crag) (removed : List CragNode) (s0 s : Selection) : Prop :=
  (∀ x, s.node x = true ↔ s0.node x = true ∧ x ∉ removed) ∧
  (∀ i, s.edge i = true ↔ s0.edge i = true ∧ ∀ x ∈ removed, ∀ e ∈ crag.adjEdges x, e.id ≠ i)

/-- Every selected assignment edge at `n` leads to a selected node. -/
def Crag.Linked (crag : Crag) (sel : Selection) (n : CragNode) : Prop :=
  ∀ e ∈ crag.adjEdges n, e.type = EdgeType.AssignmentEdge → sel.edge e.id = true →
    ∀ o, Crag.oppositeNode n e = some o → sel.node o = true

instance (volumes : CragVolumes) (n : CragNode) (d : Int) (e : CragEdge) :
    Decidable (Passes volumes n d e) := by
  unfold Passes
  cases h : Crag.oppositeNode n e with
  | none => exact isFalse (fun ⟨_, ho, _⟩ => by cases ho)
  | some o =>
    by_cases hz : zOffset volumes n o * d < 0
    · exact isFalse (fun ⟨o', ho', hz'⟩ => by
        simp only [Option.some.injEq] at ho'
        subst ho'
        exact hz' hz)
    · exact isTrue ⟨o, rfl, hz⟩

instance (volumes : CragVolumes) (sel : Selection) (n : CragNode) (d : Int) (e : CragEdge) :
    Decidable (Live volumes sel n d e) := by
  unfold Live
  infer_instance

instance (crag : Crag) (sel : Selection) (n : CragNode) : Decidable (crag.Linked sel n) := by
  unfold Crag.Linked
  infer_instance

/-- The slice node `1` with assignment edges to the assignment nodes `10`, `11`
and `12`, visited in this order. -/
def repairCrag : Crag :=
  ⟨[1, 10, 11, 12],
    fun n => if n = 1 then NodeType.SliceNode else NodeType.AssignmentNode,
    [],
    [⟨0, 1, 10, EdgeType.AssignmentEdge⟩, ⟨1, 1, 11, EdgeType.AssignmentEdge⟩,
      ⟨2, 1, 12, EdgeType.AssignmentEdge⟩]⟩

/-- Regions of one voxel whose centres have the z coordinates given by `z`. -/
def volumesAt (z : CragNode → Int) : CragVolumes := fun n =>
  ⟨1, 1, 1, fun _ _ _ => true, (0, 0, 0), z n⟩

/-- Overlaps with the label `7`: `5` for the node `10`, `10` for `11`, `3` for
`12`. -/
def repairOverlaps : CragNode → Histogram := fun n =>
  if n = 10 then [(7, 5)] else if n = 11 then [(7, 10)] else if n = 12 then [(7, 3)] else []

/-- Overlaps with the label `7`: `10` for the node `10`, `5` for `11`, `3` for
`12`. -/
def fallingOverlaps : CragNode → Histogram := fun n =>
  if n = 10 then [(7, 10)] else if n = 11 then [(7, 5)] else if n = 12 then [(7, 3)] else []

/-- Every candidate and every edge is selected. -/
def allSelected : Selection := ⟨fun _ => true, fun _ => true⟩

/-- At most one edge at `n` is counted in direction `d`: the state in which
`explanationConstraint` leaves a slice node. -/
def Crag.Resolved (crag : Crag) (volumes : CragVolumes) (sel : Selection)
    (n : CragNode) (d : Int) : Prop :=
  ∀ e ∈ crag.adjEdges n, ∀ e' ∈ crag.adjEdges n,
    Live volumes sel n d e → Live volumes sel n d e' → e = e'

/-- Every slice node has exactly one no-assignment edge lying in each of the
two directions. -/
def Crag.OneNoLink (crag : Crag) (volumes : CragVolumes) : Prop :=
  ∀ n ∈ crag.nodes, crag.type n = NodeType.SliceNode → ∀ d ∈ [(1 : Int), -1],
    ∃ e ∈ crag.adjEdges n, e.type = EdgeType.NoAssignmentEdge ∧ InDirection volumes n d e ∧
      ∀ e' ∈ crag.adjEdges n, e'.type = EdgeType.NoAssignmentEdge →
        InDirection volumes n d e' → e' = e

instance (crag : Crag) (volumes : CragVolumes) : Decidable (crag.OneNoLink volumes) := by
  unfold Crag.OneNoLink
  infer_instance

/-- Two slice nodes `1` and `2` in the sections `z = 0` and `z = 2` that are
linked by each of the three assignment nodes `10`, `11` and `12`, with the
placeholders `20` below and `21` above both of them. -/
def conflictCrag : Crag :=
  ⟨[1, 2, 10, 11, 12, 20, 21],
    fun n => if n = 1 ∨ n = 2 then NodeType.SliceNode
      else if n = 20 ∨ n = 21 then NodeType.NoAssignmentNode else NodeType.AssignmentNode,
    [],
    [⟨0, 1, 10, EdgeType.AssignmentEdge⟩, ⟨1, 10, 2, EdgeType.AssignmentEdge⟩,
      ⟨2, 1, 11, EdgeType.AssignmentEdge⟩, ⟨3, 11, 2, EdgeType.AssignmentEdge⟩,
      ⟨4, 1, 12, EdgeType.AssignmentEdge⟩, ⟨5, 12, 2, EdgeType.AssignmentEdge⟩,
      ⟨6, 1, 20, EdgeType.NoAssignmentEdge⟩, ⟨7, 1, 21, EdgeType.NoAssignmentEdge⟩,
      ⟨8, 2, 20, EdgeType.NoAssignmentEdge⟩, ⟨9, 2, 21, EdgeType.NoAssignmentEdge⟩]⟩

/-- Sections of `conflictCrag`: the assignment nodes lie between the two slice
nodes. -/
def conflictVolumes : CragVolumes :=
  volumesAt (fun n => if n = 1 then 0 else if n = 2 then 2 else if n = 20 then -5
    else if n = 21 then 5 else 1)

/-! # Theorems -/

/-! ## Loops -/

theorem forEach_invariant {α σ : Type} (body : σ → α → Except Failure σ) (P : σ → Prop)
    (l : List α) (hstep : ∀ s a s', a ∈ l → P s → body s a = .ok s' → P s') :
    ∀ s s', P s → forEach body l s = .ok s' → P s' := by
  induction l with
  | nil =>
    intro s s' hP h
    simp only [forEach, Except.ok.injEq] at h
    exact h ▸ hP
  | cons a l ih =>
    intro s s' hP h
    simp only [forEach] at h
    cases hb : body s a with
    | error e => rw [hb] at h; cases h
    | ok s1 =>
      rw [hb] at h
      exact ih (fun s a' s' ha' => hstep s a' s' (List.mem_cons_of_mem _ ha')) s1 s'
        (hstep s a s1 (List.mem_cons_self _ _) hP hb) h

/-! ## Histograms -/

theorem wrapInt_of_lt {x : Int} (h0 : -2147483648 ≤ x) (h1 : x < 2147483648) :
    wrapInt x = x := by
  unfold wrapInt
  omega

theorem Histogram.total_nonneg (h : Histogram) (hpos : ∀ p ∈ h, 0 < p.2) :
    0 ≤ h.total := by
  unfold Histogram.total
  induction h with
  | nil => simp
  | cons p l ih =>
    simp only [List.map_cons, List.sum_cons]
    have hp : 0 < p.2 := hpos p (List.mem_cons_self _ _)
    have := ih (fun q hq => hpos q (List.mem_cons_of_mem _ hq))
    omega

theorem Histogram.total_cons (p : Int × Int) (h : Histogram) :
    Histogram.total (p :: h) = p.2 + h.total := by
  simp [Histogram.total]

theorem Histogram.mem_increment {h : Histogram} {k : Int} {p : Int × Int}
    (hp : p ∈ h.increment k) : p.1 = k ∨ ∃ c, (p.1, c) ∈ h := by
  induction h with
  | nil =>
    simp only [Histogram.increment, List.mem_singleton] at hp
    left; rw [hp]
  | cons q h ih =>
    obtain ⟨k', c⟩ := q
    simp only [Histogram.increment] at hp
    split_ifs at hp with h1 h2
    · rcases List.mem_cons.1 hp with rfl | hp
      · left; exact h1.symm
      · right; exact ⟨p.2, List.mem_cons_of_mem _ hp⟩
    · rcases List.mem_cons.1 hp with rfl | hp
      · left; rfl
      · right; exact ⟨p.2, hp⟩
    · rcases List.mem_cons.1 hp with rfl | hp
      · right; exact ⟨c, List.mem_cons_self _ _⟩
      · rcases ih hp with h3 | ⟨c', h3⟩
        · left; exact h3
        · right; exact ⟨c', List.mem_cons_of_mem _ h3⟩

/-- While fewer than `2 ^ 31 - 1` voxels are counted, the statement `h[k]++`
does not overflow: the histogram stays well formed and its total grows by
one. -/
theorem Histogram.increment_spec {h : Histogram} (k : Int) (hwf : h.WellFormed)
    (hb : h.total < 2147483647) :
    (h.increment k).WellFormed ∧ (h.increment k).total = h.total + 1 := by
  induction h with
  | nil =>
    refine ⟨⟨by simp [Histogram.increment], ?_, ?_⟩, by simp [Histogram.increment, Histogram.total]⟩
    · intro p hp
      simp only [Histogram.increment, List.mem_singleton] at hp
      rw [hp]; exact Int.one_pos
    · intro p hp
      simp only [Histogram.increment, List.mem_singleton] at hp
      rw [hp]
      show (1 : Int) < 2147483648
      decide
  | cons q h ih =>
    obtain ⟨k', c⟩ := q
    obtain ⟨hs, hpos, hint⟩ := hwf
    rw [List.pairwise_cons] at hs
    have hc : 0 < c := hpos (k', c) (List.mem_cons_self _ _)
    have hc2 : c < 2147483648 := hint (k', c) (List.mem_cons_self _ _)
    have hwf' : Histogram.WellFormed h :=
      ⟨hs.2, fun p hp => hpos p (List.mem_cons_of_mem _ hp),
        fun p hp => hint p (List.mem_cons_of_mem _ hp)⟩
    have htail := Histogram.total_nonneg h hwf'.2.1
    rw [Histogram.total_cons] at hb
    simp only at hb
    simp only [Histogram.increment]
    split_ifs with h1 h2
    · have hw : wrapInt (c + 1) = c + 1 := wrapInt_of_lt (by omega) (by omega)
      rw [hw]
      refine ⟨⟨List.pairwise_cons.2 ⟨hs.1, hs.2⟩, ?_, ?_⟩, ?_⟩
      · intro p hp
        rcases List.mem_cons.1 hp with rfl | hp
        · show 0 < c + 1
          omega
        · exact hpos p (List.mem_cons_of_mem _ hp)
      · intro p hp
        rcases List.mem_cons.1 hp with rfl | hp
        · show c + 1 < 2147483648
          omega
        · exact hint p (List.mem_cons_of_mem _ hp)
      · rw [Histogram.total_cons, Histogram.total_cons]
        simp only
        omega
    · refine ⟨⟨List.pairwise_cons.2 ⟨?_, List.pairwise_cons.2 hs⟩, ?_, ?_⟩, ?_⟩
      · intro p hp
        rcases List.mem_cons.1 hp with rfl | hp
        · exact h2
        · exact lt_trans h2 (hs.1 p hp)
      · intro p hp
        rcases List.mem_cons.1 hp with rfl | hp
        · exact Int.one_pos
        · exact hpos p hp
      · intro p hp
        rcases List.mem_cons.1 hp with rfl | hp
        · show (1 : Int) < 2147483648
          decide
        · exact hint p hp
      · simp only [Histogram.total, List.map_cons, List.sum_cons]
        omega
    · obtain ⟨ih1, ih2⟩ := ih hwf' (by omega)
      refine ⟨⟨List.pairwise_cons.2 ⟨?_, ih1.1⟩, ?_, ?_⟩, ?_⟩
      · intro p hp
        rcases Histogram.mem_increment hp with h3 | ⟨c', h3⟩
        · show k' < p.1
          rw [h3]
          exact lt_of_le_of_ne (not_lt.1 h2) (Ne.symm h1)
        · exact hs.1 (p.1, c') h3
      · intro p hp
        rcases List.mem_cons.1 hp with rfl | hp
        · exact hc
        · exact ih1.2.1 p hp
      · intro p hp
        rcases List.mem_cons.1 hp with rfl | hp
        · exact hc2
        · exact ih1.2.2 p hp
      · rw [Histogram.total_cons, Histogram.total_cons, ih2]
        simp only
        omega

theorem sum_map_nonneg {α : Type} (c : α → Int) (hc : ∀ a, 0 ≤ c a) (as : List α) :
    0 ≤ (as.map c).sum := by
  induction as with
  | nil => simp
  | cons a as ih =>
    simp only [List.map_cons, List.sum_cons]
    have := hc a
    omega

/-- A loop that counts `c a` voxels in the step for `a` keeps the histogram well
formed and adds these counts to the total, while the total stays below
`2 ^ 31`. -/
theorem histogram_foldl_spec {α : Type} (f : Histogram → α → Histogram) (c : α → Int)
    (hc : ∀ a, 0 ≤ c a)
    (hf : ∀ h a, h.WellFormed → h.total + c a < 2147483648 →
      (f h a).WellFormed ∧ (f h a).total = h.total + c a) (l : List α) :
    ∀ h : Histogram, h.WellFormed → h.total + (l.map c).sum < 2147483648 →
      (l.foldl f h).WellFormed ∧ (l.foldl f h).total = h.total + (l.map c).sum := by
  induction l with
  | nil => intro h hwf _; exact ⟨hwf, by simp⟩
  | cons a l ih =>
    intro h hwf hb
    simp only [List.foldl_cons, List.map_cons, List.sum_cons] at hb ⊢
    have hrest := sum_map_nonneg c hc l
    obtain ⟨h1, h2⟩ := hf h a hwf (by omega)
    obtain ⟨h3, h4⟩ := ih (f h a) h1 (by rw [h2]; omega)
    exact ⟨h3, by rw [h4, h2]; ring⟩

/-- The voxel loops of `getGroundTruthOverlaps` for a region whose voxels do not
overflow the counts. -/
theorem regionOverlaps_spec (region : CragVolume) (groundTruth : GroundTruth)
    (h : Histogram) (hwf : h.WellFormed)
    (hb : h.total + voxelCount region < 2147483648) :
    (regionOverlaps region groundTruth h).WellFormed ∧
      (regionOverlaps region groundTruth h).total = h.total + voxelCount region := by
  have hx : ∀ (z y x : Nat), 0 ≤ (if region.data x y z then (1 : Int) else 0) := by
    intro z y x
    split_ifs <;> decide
  have hy : ∀ (z y : Nat), 0 ≤ ((List.range region.width).map (fun x =>
      if region.data x y z then (1 : Int) else 0)).sum :=
    fun z y => sum_map_nonneg _ (hx z y) _
  unfold regionOverlaps voxelCount at *
  refine histogram_foldl_spec _ (fun z =>
    ((List.range region.height).map (fun y =>
      ((List.range region.width).map (fun x =>
        if region.data x y z then (1 : Int) else 0)).sum)).sum)
    (fun z => sum_map_nonneg _ (hy z) _) (fun h z hwf hb => ?_) _ h hwf hb
  refine histogram_foldl_spec _ (fun y =>
      ((List.range region.width).map (fun x =>
        if region.data x y z then (1 : Int) else 0)).sum)
    (hy z) (fun h y hwf hb => ?_) _ h hwf hb
  refine histogram_foldl_spec _ (fun x => if region.data x y z then (1 : Int) else 0)
    (hx z y) (fun h x hwf hb => ?_) _ h hwf hb
  by_cases hd : region.data x y z = true
  · simp only [hd, if_true] at hb ⊢
    exact Histogram.increment_spec _ hwf (by omega)
  · simp only [hd, Bool.false_eq_true, if_false] at hb ⊢
    exact ⟨hwf, by omega⟩

theorem Histogram.wellFormed_nil : Histogram.WellFormed [] :=
  ⟨List.Pairwise.nil, fun _ hp => absurd hp (List.not_mem_nil _),
    fun _ hp => absurd hp (List.not_mem_nil _)⟩

theorem foldl_setAt_not_mem {α : Type} (skip : CragNode → Bool)
    (f : CragNode → α → α) (l : List CragNode) (n : CragNode) (hn : n ∉ l) :
    ∀ m : CragNode → α,
      (l.foldl (fun m i => if skip i then m else setAt m i (f i (m i))) m) n = m n := by
  induction l with
  | nil => intro m; rfl
  | cons a l ih =>
    intro m
    simp only [List.foldl_cons]
    rw [ih (fun h => hn (List.mem_cons_of_mem _ h))]
    have hne : n ≠ a := fun h => hn (h ▸ List.mem_cons_self _ _)
    by_cases hs : skip a <;> simp [hs, setAt, hne]

theorem foldl_setAt_mem {α : Type} (skip : CragNode → Bool)
    (f : CragNode → α → α) (l : List CragNode) (n : CragNode) (hn : n ∈ l)
    (hnd : l.Nodup) (hs : skip n = false) :
    ∀ m : CragNode → α,
      (l.foldl (fun m i => if skip i then m else setAt m i (f i (m i))) m) n = f n (m n) := by
  induction l with
  | nil => cases hn
  | cons a l ih =>
    intro m
    simp only [List.foldl_cons]
    rw [List.nodup_cons] at hnd
    rcases List.mem_cons.1 hn with rfl | hmem
    · rw [foldl_setAt_not_mem skip f l n hnd.1]
      simp [hs, setAt]
    · rw [ih hmem hnd.2]
      have hne : n ≠ a := fun h => hnd.1 (h ▸ hmem)
      by_cases hsa : skip a <;> simp [hsa, setAt, hne]

theorem getGroundTruthOverlaps_eq (crag : Crag) (volumes : CragVolumes)
    (groundTruth : GroundTruth) (overlaps : CragNode → Histogram) (n : CragNode)
    (hn : n ∈ crag.nodes) (hnd : crag.nodes.Nodup)
    (ht : crag.type n ≠ NodeType.NoAssignmentNode) :
    getGroundTruthOverlaps crag volumes groundTruth overlaps n
      = regionOverlaps (volumes n) groundTruth (overlaps n) := by
  have h := foldl_setAt_mem (fun i => decide (crag.type i = NodeType.NoAssignmentNode))
    (fun i h => regionOverlaps (volumes i) groundTruth h) crag.nodes n hn hnd
    (by simpa using ht) overlaps
  simpa [getGroundTruthOverlaps] using h

theorem wellFormed_bestEffortOverlaps (crag : Crag) (volumes : CragVolumes)
    (groundTruth : GroundTruth) (n : CragNode) (hn : n ∈ crag.nodes)
    (hnd : crag.nodes.Nodup) (ht : crag.type n ≠ NodeType.NoAssignmentNode)
    (hb : voxelCount (volumes n) < 2147483648) :
    (bestEffortOverlaps crag volumes groundTruth n).WellFormed := by
  unfold bestEffortOverlaps
  rw [getGroundTruthOverlaps_eq crag volumes groundTruth _ n hn hnd ht]
  refine (regionOverlaps_spec _ _ _ Histogram.wellFormed_nil ?_).1
  simpa [Histogram.total] using hb

theorem Histogram.at?_of_mem {h : Histogram} (hs : h.Pairwise (fun p q => p.1 < q.1))
    {p : Int × Int} (hp : p ∈ h) : h.at? p.1 = some p.2 := by
  induction h with
  | nil => cases hp
  | cons q h ih =>
    obtain ⟨k', c⟩ := q
    rw [List.pairwise_cons] at hs
    simp only [Histogram.at?]
    rcases List.mem_cons.1 hp with rfl | hp
    · simp
    · have hlt : k' < p.1 := hs.1 p hp
      rw [if_neg (ne_of_gt hlt)]
      exact ih hs.2 hp

theorem Histogram.mem_of_at? {h : Histogram} {k c : Int} (hk : h.at? k = some c) :
    (k, c) ∈ h := by
  induction h with
  | nil => simp [Histogram.at?] at hk
  | cons q h ih =>
    obtain ⟨k', c'⟩ := q
    simp only [Histogram.at?] at hk
    split_ifs at hk with h1
    · simp only [Option.some.injEq] at hk
      rw [h1, hk]; exact List.mem_cons_self _ _
    · exact List.mem_cons_of_mem _ (ih hk)

theorem bestStep_foldl (w : Weight) (h : Histogram) :
    ∀ st : Int × Int,
      (∀ p ∈ h, weighted w p ≤ (h.foldl (bestStep w) st).1) ∧
      st.1 ≤ (h.foldl (bestStep w) st).1 ∧
      (h.foldl (bestStep w) st = st ∨
        ∃ p ∈ h, h.foldl (bestStep w) st = (weighted w p, p.1)) := by
  induction h with
  | nil => intro st; simp
  | cons q h ih =>
    intro st
    simp only [List.foldl_cons]
    obtain ⟨h1, h2, h3⟩ := ih (bestStep w st q)
    have hq : weighted w q ≤ (bestStep w st q).1 ∧ st.1 ≤ (bestStep w st q).1 := by
      unfold bestStep
      split_ifs with hc
      · exact ⟨le_refl _, le_of_lt hc⟩
      · exact ⟨not_lt.1 hc, le_refl _⟩
    refine ⟨?_, le_trans hq.2 h2, ?_⟩
    · intro p hp
      rcases List.mem_cons.1 hp with rfl | hp
      · exact le_trans hq.1 h2
      · exact h1 p hp
    · rcases h3 with h3 | ⟨p, hp, h3⟩
      · rw [h3]
        unfold bestStep
        split_ifs
        · right; exact ⟨q, List.mem_cons_self _ _, rfl⟩
        · left; rfl
      · right; exact ⟨p, List.mem_cons_of_mem _ hp, h3⟩

theorem weighted_pos_of_ne_zero (w : Weight) {p : Int × Int} (h0 : p.1 ≠ 0)
    (hp : 0 < p.2) : 0 < weighted w p := by
  unfold weighted
  rw [if_neg h0]
  exact mul_pos hp (by positivity)

theorem bestGtLabel_nil (w : Weight) : bestGtLabel w [] = 0 := rfl

theorem bestGtLabel_spec (w : Weight) {h : Histogram} (hwf : h.WellFormed)
    (hne : h ≠ []) :
    h.at? (bestGtLabel w h) ≠ none ∧
      ∀ p ∈ h, weighted w p ≤ weighted w (bestGtLabel w h, h.get (bestGtLabel w h)) := by
  obtain ⟨h1, _, h3⟩ := bestStep_foldl w h (0, 0)
  unfold bestGtLabel
  rcases h3 with h3 | ⟨q, hq, h3⟩
  · rw [h3] at h1 ⊢
    have hkey : ∀ p ∈ h, p.1 = 0 := by
      intro p hp
      by_contra h0
      exact absurd (h1 p hp) (not_le.2 (weighted_pos_of_ne_zero w h0 (hwf.2.1 p hp)))
    obtain ⟨q, hq⟩ := List.exists_mem_of_ne_nil h hne
    have hat := Histogram.at?_of_mem hwf.1 hq
    rw [hkey q hq] at hat
    refine ⟨by simp [hat], ?_⟩
    intro p hp
    have hat' := Histogram.at?_of_mem hwf.1 hp
    rw [hkey p hp] at hat'
    have : p = ((0 : Int), h.get 0) := by
      ext
      · exact hkey p hp
      · simp [Histogram.get, hat']
    rw [← this]
  · rw [h3] at h1 ⊢
    have hat := Histogram.at?_of_mem hwf.1 hq
    refine ⟨by simp [hat], ?_⟩
    intro p hp
    have : q = (q.1, h.get q.1) := by
      ext
      · rfl
      · simp [Histogram.get, hat]
    rw [← this]
    exact h1 p hp

theorem getGroundTruthAssignments_eq (w : Weight) (crag : Crag)
    (overlaps : CragNode → Histogram) (n : CragNode) (hn : n ∈ crag.nodes)
    (ht : crag.type n ≠ NodeType.NoAssignmentNode) (gt : CragNode → Int) :
    getGroundTruthAssignments w crag overlaps gt n = bestGtLabel w (overlaps n) := by
  unfold getGroundTruthAssignments
  suffices h : ∀ (l : List CragNode) (gt : CragNode → Int),
      (n ∈ l ∨ gt n = bestGtLabel w (overlaps n)) →
      (l.foldl (fun gt i =>
        if crag.type i = NodeType.NoAssignmentNode then gt
        else setAt gt i (bestGtLabel w (overlaps i))) gt) n = bestGtLabel w (overlaps n)
    from h _ _ (Or.inl hn)
  intro l
  induction l with
  | nil =>
    intro gt h
    rcases h with h | h
    · cases h
    · exact h
  | cons a l ih =>
    intro gt h
    simp only [List.foldl_cons]
    apply ih
    rcases h with h | h
    · rcases List.mem_cons.1 h with rfl | h
      · right; simp [ht, setAt]
      · left; exact h
    · right
      split_ifs
      · exact h
      · unfold setAt
        split_ifs with h1
        · rw [h1]
        · exact h

theorem getGroundTruthAssignments_skip (w : Weight) (crag : Crag)
    (overlaps : CragNode → Histogram) (n : CragNode)
    (ht : n ∉ crag.nodes ∨ crag.type n = NodeType.NoAssignmentNode) (gt : CragNode → Int) :
    getGroundTruthAssignments w crag overlaps gt n = gt n := by
  unfold getGroundTruthAssignments
  suffices h : ∀ (l : List CragNode) (gt : CragNode → Int),
      (n ∉ l ∨ crag.type n = NodeType.NoAssignmentNode) →
      (l.foldl (fun gt i =>
        if crag.type i = NodeType.NoAssignmentNode then gt
        else setAt gt i (bestGtLabel w (overlaps i))) gt) n = gt n
    from h _ _ ht
  intro l
  induction l with
  | nil => intro gt _; rfl
  | cons a l ih =>
    intro gt h
    simp only [List.foldl_cons]
    rw [ih]
    · split_ifs with h1
      · rfl
      · unfold setAt
        split_ifs with h2
        · rcases h with h | h
          · exact absurd (h2 ▸ List.mem_cons_self _ _) h
          · exact absurd (h2 ▸ h) h1
        · rfl
    · rcases h with h | h
      · left; exact fun hm => h (List.mem_cons_of_mem _ hm)
      · right; exact h

theorem Histogram.mem_keys_of_at? {h : Histogram} {k : Int} (hk : h.at? k ≠ none) :
    k ∈ h.keys := by
  cases hc : h.at? k with
  | none => exact absurd hc hk
  | some c => exact List.mem_map.2 ⟨(k, c), Histogram.mem_of_at? hc, rfl⟩

theorem bestGtLabel_isWeightedArgmax (w : Weight) {h : Histogram} (hwf : h.WellFormed) :
    IsWeightedArgmax w h (bestGtLabel w h) := by
  refine ⟨fun h0 => by rw [h0]; rfl, fun hne => ?_⟩
  obtain ⟨h1, h2⟩ := bestGtLabel_spec w hwf hne
  exact ⟨Histogram.mem_keys_of_at? h1, h2⟩

/-- C2 (amended): after `getGroundTruthOverlaps`, started as in the constructor
on empty histograms, for every candidate `n` of the CRAG that is not a
no-assignment node and whose mask is set at fewer than `2 ^ 31` voxels, the
counts of the histogram `overlaps[n]` add up to the number of voxels of the
bounding box of `n` at which the mask of `n` is set. -/
theorem overlaps_total_eq_voxelCount (crag : Crag) (volumes : CragVolumes)
    (groundTruth : GroundTruth) (n : CragNode) (hn : n ∈ crag.nodes)
    (hnd : crag.nodes.Nodup) (ht : crag.type n ≠ NodeType.NoAssignmentNode)
    (hb : voxelCount (volumes n) < 2147483648) :
    (bestEffortOverlaps crag volumes groundTruth n).total = voxelCount (volumes n) := by
  unfold bestEffortOverlaps
  rw [getGroundTruthOverlaps_eq crag volumes groundTruth _ n hn hnd ht,
    (regionOverlaps_spec _ _ _ Histogram.wellFormed_nil (by simpa [Histogram.total] using hb)).2]
  simp [Histogram.total]

theorem overlaps_total_eq_voxelCount_witness :
    (0 ∈ singleCrag.nodes ∧ singleCrag.nodes.Nodup ∧
      singleCrag.type 0 ≠ NodeType.NoAssignmentNode ∧
      voxelCount cornerVolume < 2147483648) ∧
    (bestEffortOverlaps singleCrag (fun _ => cornerVolume) stripeTruth 0).total
      = voxelCount cornerVolume :=
  ⟨by decide, overlaps_total_eq_voxelCount singleCrag (fun _ => cornerVolume) stripeTruth 0
    (by decide) (by decide) (by decide) (by decide)⟩

/-- C2 as stated fails for a no-assignment node: `getGroundTruthOverlaps` skips
it, its histogram stays empty, while its mask holds a voxel. -/
theorem overlaps_total_noAssignmentNode_counterexample :
    0 ∈ placeholderCrag.nodes ∧
    (bestEffortOverlaps placeholderCrag (fun _ => unitVolume) sevenTruth 0).total = 0 ∧
    voxelCount unitVolume = 1 := by
  decide

/-- C3 (amended): for every candidate `n` that takes part in the ground-truth
assignment and whose mask is set at fewer than `2 ^ 31` voxels, and for every
background weight, the label that `getGroundTruthAssignments` assigns from the
overlaps of the constructor is background when `overlaps[n]` is empty, and
otherwise a key of `overlaps[n]` whose weighted overlap, as the program computes
it in `double`, is at least that of every key; the histogram `{1: 40, 0: 60}`
with weight one half is assigned label `1`. -/
theorem assignment_is_weighted_argmax (w : Weight) (crag : Crag) (volumes : CragVolumes)
    (groundTruth : GroundTruth) (n : CragNode) (hn : n ∈ crag.nodes)
    (hnd : crag.nodes.Nodup) (ht : crag.type n ≠ NodeType.NoAssignmentNode)
    (hb : voxelCount (volumes n) < 2147483648) :
    IsWeightedArgmax w (bestEffortOverlaps crag volumes groundTruth n)
        (getGroundTruthAssignments w crag (bestEffortOverlaps crag volumes groundTruth)
          (fun _ => 0) n) ∧
      getGroundTruthAssignments Weight.half singleCrag (fun _ => [(0, 60), (1, 40)])
        (fun _ => 0) 0 = 1 := by
  refine ⟨?_, by decide⟩
  rw [getGroundTruthAssignments_eq w crag _ n hn ht]
  exact bestGtLabel_isWeightedArgmax w
    (wellFormed_bestEffortOverlaps crag volumes groundTruth n hn hnd ht hb)

theorem assignment_is_weighted_argmax_witness :
    (0 ∈ singleCrag.nodes ∧ singleCrag.nodes.Nodup ∧
      singleCrag.type 0 ≠ NodeType.NoAssignmentNode ∧
      voxelCount cornerVolume < 2147483648) ∧
    IsWeightedArgmax Weight.half
        (bestEffortOverlaps singleCrag (fun _ => cornerVolume) stripeTruth 0)
        (getGroundTruthAssignments Weight.half singleCrag
          (bestEffortOverlaps singleCrag (fun _ => cornerVolume) stripeTruth)
          (fun _ => 0) 0) :=
  ⟨by decide, (assignment_is_weighted_argmax Weight.half singleCrag (fun _ => cornerVolume)
    stripeTruth 0 (by decide) (by decide) (by decide) (by decide)).1⟩

/-- C3 as stated fails for a weight whose product with a count is rounded. The
region of four voxels, three in the background and one in region `1`, has the
histogram `{0: 3, 1: 1}`. With the `double` nearest to one third as the weight,
the product `3 * w` is less than `1`, but it is rounded to `1.0`: the label `0`
is assigned, whose weighted score is less than that of label `1`. -/
theorem assignment_rounding_counterexample :
    bestEffortOverlaps singleCrag (fun _ => rowVolume 4) thirdTruth 0 = [(0, 3), (1, 1)] ∧
    bestEffortAssignments ⟨false, thirdWeight, false⟩ singleCrag (fun _ => rowVolume 4)
      thirdTruth 0 = 0 ∧
    exactWeighted thirdWeight (0, 3) < exactWeighted thirdWeight (1, 1) ∧
    weighted thirdWeight (0, 3) = weighted thirdWeight (1, 1) := by
  decide

/-! ## Loops that paint the selection -/

theorem forEach_paint {α : Type} (body : Selection → α → Except Failure Selection)
    (R : α → CragNode → Prop) (v : CragNode → Bool) (l : List α)
    (hbody : ∀ a ∈ l, ∀ s s', body s a = .ok s' →
      s'.edge = s.edge ∧ (∀ x, R a x → s'.node x = v x) ∧
        (∀ x, ¬ R a x → s'.node x = s.node x)) :
    ∀ s s', forEach body l s = .ok s' →
      s'.edge = s.edge ∧ (∀ x, (∃ a ∈ l, R a x) → s'.node x = v x) ∧
        (∀ x, (¬ ∃ a ∈ l, R a x) → s'.node x = s.node x) := by
  induction l with
  | nil =>
    intro s s' h
    simp only [forEach, Except.ok.injEq] at h
    subst h
    exact ⟨rfl, fun x hx => by simp at hx, fun x _ => rfl⟩
  | cons a l ih =>
    intro s s' h
    simp only [forEach] at h
    cases hb : body s a with
    | error e => rw [hb] at h; cases h
    | ok s1 =>
      rw [hb] at h
      obtain ⟨he1, ha1, hb1⟩ := hbody a (List.mem_cons_self _ _) s s1 hb
      obtain ⟨he2, ha2, hb2⟩ :=
        ih (fun a' ha' => hbody a' (List.mem_cons_of_mem _ ha')) s1 s' h
      refine ⟨he2.trans he1, ?_, ?_⟩
      · intro x hx
        by_cases hl : ∃ a' ∈ l, R a' x
        · exact ha2 x hl
        · rw [hb2 x hl]
          obtain ⟨a', ha', hR⟩ := hx
          rcases List.mem_cons.1 ha' with rfl | ha'
          · exact ha1 x hR
          · exact absurd ⟨a', ha', hR⟩ hl
      · intro x hx
        have h1 : ¬ ∃ a' ∈ l, R a' x :=
          fun ⟨a', ha', hR⟩ => hx ⟨a', List.mem_cons_of_mem _ ha', hR⟩
        have h2 : ¬ R a x := fun hR => hx ⟨a, List.mem_cons_self _ _, hR⟩
        rw [hb2 x h1, hb1 x h2]

theorem forEach_total {α σ : Type} (body : σ → α → Except Failure σ) (l : List α)
    (hbody : ∀ a ∈ l, ∀ s, ∃ s', body s a = .ok s') :
    ∀ s, ∃ s', forEach body l s = .ok s' := by
  induction l with
  | nil => intro s; exact ⟨s, rfl⟩
  | cons a l ih =>
    intro s
    obtain ⟨s1, h1⟩ := hbody a (List.mem_cons_self _ _) s
    obtain ⟨s2, h2⟩ := ih (fun a' ha' => hbody a' (List.mem_cons_of_mem _ ha')) s1
    exact ⟨s2, by simp only [forEach, h1, h2]⟩

/-! ## The subset hierarchy -/

theorem Crag.mem_inArcs {crag : Crag} {c p : CragNode} :
    c ∈ crag.inArcs p ↔ (⟨c, p⟩ : CragArc) ∈ crag.arcs := by
  unfold Crag.inArcs
  constructor
  · intro h
    obtain ⟨a, ha, rfl⟩ := List.mem_map.1 h
    obtain ⟨ha1, ha2⟩ := List.mem_filter.1 ha
    have : a.target = p := by simpa using ha2
    rw [← this]
    exact ha1
  · intro h
    exact List.mem_map.2 ⟨⟨c, p⟩, List.mem_filter.2 ⟨h, by simp⟩, rfl⟩

theorem Crag.isRootNode_eq_false {crag : Crag} {c p : CragNode} (h : c ∈ crag.inArcs p) :
    crag.isRootNode c = false := by
  unfold Crag.isRootNode
  rw [List.isEmpty_eq_false]
  intro h0
  have : (⟨c, p⟩ : CragArc) ∈ crag.arcs.filter (fun a => a.source = c) :=
    List.mem_filter.2 ⟨Crag.mem_inArcs.1 h, by simp⟩
  rw [h0] at this
  cases this

theorem Crag.exists_parent_of_not_root {crag : Crag} {c : CragNode}
    (h : crag.isRootNode c = false) : ∃ p, c ∈ crag.inArcs p := by
  unfold Crag.isRootNode at h
  rw [List.isEmpty_eq_false] at h
  obtain ⟨a, ha⟩ := List.exists_mem_of_ne_nil _ h
  obtain ⟨ha1, ha2⟩ := List.mem_filter.1 ha
  have hs : a.source = c := by simpa using ha2
  refine ⟨a.target, Crag.mem_inArcs.2 ?_⟩
  rw [← hs]
  exact ha1

theorem Crag.ProperDescendant.parent {crag : Crag} {d a : CragNode}
    (h : crag.ProperDescendant d a) :
    ∃ p, d ∈ crag.inArcs p ∧ (p = a ∨ crag.ProperDescendant p a) := by
  induction h with
  | child hc => exact ⟨_, hc, Or.inl rfl⟩
  | step hc _ ih =>
    obtain ⟨p, hp, hpa⟩ := ih
    refine ⟨p, hp, Or.inr ?_⟩
    rcases hpa with rfl | hpa
    · exact Crag.ProperDescendant.child hc
    · exact Crag.ProperDescendant.step hc hpa

theorem Crag.ProperDescendant.trans {crag : Crag} {d c a : CragNode}
    (h1 : crag.ProperDescendant d c) (h2 : crag.ProperDescendant c a) :
    crag.ProperDescendant d a := by
  induction h2 with
  | child hc => exact Crag.ProperDescendant.step hc h1
  | step hc _ ih => exact Crag.ProperDescendant.step hc (ih h1)

theorem Crag.ProperDescendant.not_root {crag : Crag} {d a : CragNode}
    (h : crag.ProperDescendant d a) : crag.isRootNode d = false := by
  obtain ⟨p, hp, _⟩ := h.parent
  exact Crag.isRootNode_eq_false hp

theorem Crag.ProperDescendant.level_lt {crag : Crag} {level : CragNode → Nat}
    (hl : ∀ a ∈ crag.arcs, level a.source < level a.target) {d a : CragNode}
    (h : crag.ProperDescendant d a) : level d < level a := by
  induction h with
  | child hc => exact hl _ (Crag.mem_inArcs.1 hc)
  | step hc _ ih => exact lt_trans ih (hl _ (Crag.mem_inArcs.1 hc))

theorem Crag.Visits.iff_cases {crag : Crag} {halt : CragNode → Bool} {r x : CragNode} :
    crag.Visits halt r x ↔
      x = r ∨ (halt r = false ∧ ∃ c ∈ crag.inArcs r, crag.Visits halt c x) := by
  constructor
  · intro h
    cases h with
    | here => exact Or.inl rfl
    | down h1 h2 h3 => exact Or.inr ⟨h1, _, h2, h3⟩
  · rintro (rfl | ⟨h1, c, h2, h3⟩)
    · exact Crag.Visits.here _
    · exact Crag.Visits.down h1 h2 h3

theorem Crag.Visits.descendant {crag : Crag} {halt : CragNode → Bool} {r x : CragNode}
    (h : crag.Visits halt r x) : x = r ∨ crag.ProperDescendant x r := by
  induction h with
  | here => exact Or.inl rfl
  | down _ hc _ ih =>
    right
    rcases ih with rfl | ih
    · exact Crag.ProperDescendant.child hc
    · exact Crag.ProperDescendant.step hc ih

theorem Crag.Visits.of_descendant {crag : Crag} {halt : CragNode → Bool}
    (hh : ∀ n, halt n = false) {r x : CragNode} (h : crag.ProperDescendant x r) :
    crag.Visits halt r x := by
  induction h with
  | child hc => exact Crag.Visits.down (hh _) hc (Crag.Visits.here _)
  | step hc _ ih => exact Crag.Visits.down (hh _) hc ih

theorem Crag.Visits.mono {crag : Crag} {halt halt' : CragNode → Bool}
    (hh : ∀ n, halt n = false → halt' n = false) {r x : CragNode}
    (h : crag.Visits halt r x) : crag.Visits halt' r x := by
  induction h with
  | here => exact Crag.Visits.here _
  | down h1 hc _ ih => exact Crag.Visits.down (hh _ h1) hc ih

theorem Crag.Visits.snoc {crag : Crag} {halt : CragNode → Bool} {r p x : CragNode}
    (h : crag.Visits halt r p) (hp : halt p = false) (hx : x ∈ crag.inArcs p) :
    crag.Visits halt r x := by
  induction h with
  | here => exact Crag.Visits.down hp hx (Crag.Visits.here _)
  | down h1 hc _ ih => exact Crag.Visits.down h1 hc (ih hp hx)

/-- On the way from `r` down to a visited candidate every proper ancestor of
that candidate was passed without halting, unless it lies above `r`. -/
theorem Crag.Visits.ancestor {crag : Crag} (hu : crag.UniqueParent)
    {halt : CragNode → Bool} {r x a : CragNode} (h : crag.Visits halt r x)
    (ha : crag.ProperDescendant x a) :
    (halt a = false ∧ crag.Visits halt r a) ∨ crag.ProperDescendant r a := by
  induction h with
  | here => exact Or.inr ha
  | down h1 hc hv ih =>
    rename_i r c x
    rcases ih ha with ⟨h2, h3⟩ | h2
    · exact Or.inl ⟨h2, Crag.Visits.down h1 hc h3⟩
    · obtain ⟨p, hp, hpa⟩ := h2.parent
      have hpr : p = r := hu c p r hp hc
      subst hpr
      rcases hpa with rfl | hpa
      · exact Or.inl ⟨h1, Crag.Visits.here _⟩
      · exact Or.inr hpa

theorem Crag.Visits.ancestor_of_root {crag : Crag} (hu : crag.UniqueParent)
    {halt : CragNode → Bool} {r x a : CragNode} (hr : crag.isRootNode r = true)
    (h : crag.Visits halt r x) (ha : crag.ProperDescendant x a) :
    halt a = false ∧ crag.Visits halt r a := by
  rcases h.ancestor hu ha with h1 | h1
  · exact h1
  · rw [h1.not_root] at hr
    cases hr

/-- In a hierarchy without cycles every candidate none of whose proper
ancestors halts the traversal is visited from some root. -/
theorem Crag.exists_root_visits {crag : Crag} {level : CragNode → Nat} {bound : Nat}
    (hr : crag.Ranked level bound) (hc : crag.ArcsClosed) (halt : CragNode → Bool) :
    ∀ (k : Nat) (n : CragNode), bound ≤ level n + k → n ∈ crag.nodes →
      (∀ a, crag.ProperDescendant n a → halt a = false) →
      ∃ r ∈ crag.nodes, crag.isRootNode r = true ∧ crag.Visits halt r n := by
  intro k
  induction k with
  | zero =>
    intro n hk hn
    exact absurd (hr.2 n hn) (by omega)
  | succ k ih =>
    intro n hk hn hanc
    cases hroot : crag.isRootNode n with
    | true => exact ⟨n, hn, hroot, Crag.Visits.here _⟩
    | false =>
      obtain ⟨p, hp⟩ := Crag.exists_parent_of_not_root hroot
      have harc := Crag.mem_inArcs.1 hp
      have hlt : level n < level p := hr.1 _ harc
      obtain ⟨r, hrn, hrr, hv⟩ := ih p (by omega) (hc _ harc).2
        (fun a ha => hanc a (Crag.ProperDescendant.trans (Crag.ProperDescendant.child hp) ha))
      exact ⟨r, hrn, hrr, hv.snoc (hanc p (Crag.ProperDescendant.child hp)) hp⟩

/-! ## Strategy A: majority overlap -/

theorem labelMajorityOverlapCandidate_spec (full : Bool) (w : Weight) (crag : Crag)
    (overlaps : CragNode → Histogram) (gt : CragNode → Int) :
    ∀ (fuel : Nat) (n : CragNode) (sel sel' : Selection),
      labelMajorityOverlapCandidate full w crag overlaps gt fuel n sel = .ok sel' →
      sel'.edge = sel.edge ∧
      (∀ x, (crag.Visits (majorityHalt full w crag overlaps gt) n x ∧
          majorityStop w crag overlaps gt x = true) → sel'.node x = decide (gt x ≠ 0)) ∧
      (∀ x, ¬ (crag.Visits (majorityHalt full w crag overlaps gt) n x ∧
          majorityStop w crag overlaps gt x = true) → sel'.node x = sel.node x) := by
  intro fuel
  induction fuel with
  | zero => intro n sel sel' h; simp [labelMajorityOverlapCandidate] at h
  | succ fuel ih =>
    intro n sel sel' h
    have hkids : ∀ s s', forEach (fun s child =>
          labelMajorityOverlapCandidate full w crag overlaps gt fuel child s)
          (crag.inArcs n) s = .ok s' → _ :=
      forEach_paint _ (fun c x => crag.Visits (majorityHalt full w crag overlaps gt) c x ∧
        majorityStop w crag overlaps gt x = true) (fun x => decide (gt x ≠ 0))
        (crag.inArcs n) (fun c _ s s' hc => ih c s s' hc)
    unfold labelMajorityOverlapCandidate at h
    cases hat : (overlaps n).at? (gt n) with
    | none => rw [hat] at h; cases h
    | some c =>
      rw [hat] at h
      simp only at h
      have hstop : majorityStop w crag overlaps gt n
          = majorityTest w crag overlaps gt n c := by
        simp [majorityStop, hat]
      cases htest : majorityTest w crag overlaps gt n c with
      | true =>
        rw [htest] at h hstop
        simp only [if_true] at h
        cases full with
        | false =>
          simp only [Bool.not_false, if_true, Except.ok.injEq] at h
          subst h
          have hhalt : majorityHalt false w crag overlaps gt n = true := by
            simp [majorityHalt, hstop]
          have hvis : ∀ x, crag.Visits (majorityHalt false w crag overlaps gt) n x → x = n := by
            intro x hx
            rcases Crag.Visits.iff_cases.1 hx with h1 | ⟨h1, _⟩
            · exact h1
            · rw [hhalt] at h1; cases h1
          refine ⟨rfl, ?_, ?_⟩
          · rintro x ⟨hx, _⟩
            rw [hvis x hx]
            simp [Selection.setNode, setAt]
          · intro x hx
            have hne : x ≠ n := by
              rintro rfl
              exact hx ⟨Crag.Visits.here _, hstop⟩
            simp [Selection.setNode, setAt, hne]
        | true =>
          simp only [Bool.not_true, Bool.false_eq_true, if_false] at h
          obtain ⟨he, ha, hb⟩ := hkids _ _ h
          have hhalt : majorityHalt true w crag overlaps gt n = false := by
            simp [majorityHalt]
          refine ⟨he, ?_, ?_⟩
          · rintro x ⟨hx, hsx⟩
            by_cases hk : ∃ c ∈ crag.inArcs n,
                crag.Visits (majorityHalt true w crag overlaps gt) c x ∧
                  majorityStop w crag overlaps gt x = true
            · exact ha x hk
            · rw [hb x hk]
              rcases Crag.Visits.iff_cases.1 hx with h1 | ⟨_, c, hc, hv⟩
              · rw [h1]; simp [Selection.setNode, setAt]
              · exact absurd ⟨c, hc, hv, hsx⟩ hk
          · intro x hx
            have hk : ¬ ∃ c ∈ crag.inArcs n,
                crag.Visits (majorityHalt true w crag overlaps gt) c x ∧
                  majorityStop w crag overlaps gt x = true :=
              fun ⟨c, hc, hv, hsx⟩ => hx ⟨Crag.Visits.down hhalt hc hv, hsx⟩
            have hne : x ≠ n := by
              rintro rfl
              exact hx ⟨Crag.Visits.here _, hstop⟩
            rw [hb x hk]
            simp [Selection.setNode, setAt, hne]
      | false =>
        rw [htest] at h hstop
        simp only [Bool.false_eq_true, if_false] at h
        obtain ⟨he, ha, hb⟩ := hkids _ _ h
        have hhalt : majorityHalt full w crag overlaps gt n = false := by
          simp [majorityHalt, hstop]
        refine ⟨he, ?_, ?_⟩
        · rintro x ⟨hx, hsx⟩
          rcases Crag.Visits.iff_cases.1 hx with h1 | ⟨_, c, hc, hv⟩
          · rw [h1, hstop] at hsx; cases hsx
          · exact ha x ⟨c, hc, hv, hsx⟩
        · intro x hx
          exact hb x (fun ⟨c, hc, hv, hsx⟩ => hx ⟨Crag.Visits.down hhalt hc hv, hsx⟩)

theorem labelMajorityOverlapCandidate_total (full : Bool) (w : Weight) (crag : Crag)
    (overlaps : CragNode → Histogram) (gt : CragNode → Int) (level : CragNode → Nat)
    (hl : ∀ a ∈ crag.arcs, level a.source < level a.target) :
    ∀ (fuel : Nat) (n : CragNode) (sel : Selection), level n < fuel →
      (∀ x, x = n ∨ crag.ProperDescendant x n → (overlaps x).at? (gt x) ≠ none) →
      ∃ sel', labelMajorityOverlapCandidate full w crag overlaps gt fuel n sel = .ok sel' := by
  intro fuel
  induction fuel with
  | zero => intro n sel h; omega
  | succ fuel ih =>
    intro n sel hlev hat
    have hkids : ∀ s, ∃ s', forEach (fun s child =>
          labelMajorityOverlapCandidate full w crag overlaps gt fuel child s)
          (crag.inArcs n) s = .ok s' := by
      apply forEach_total
      intro c hc s
      have hlt := hl _ (Crag.mem_inArcs.1 hc)
      apply ih c s (by simp only at hlt; omega)
      intro x hx
      apply hat x
      right
      rcases hx with rfl | hx
      · exact Crag.ProperDescendant.child hc
      · exact Crag.ProperDescendant.step hc hx
    unfold labelMajorityOverlapCandidate
    cases hc : (overlaps n).at? (gt n) with
    | none => exact absurd hc (hat n (Or.inl rfl))
    | some c =>
      simp only
      split_ifs
      · exact ⟨_, rfl⟩
      · exact hkids _
      · exact hkids _

theorem findMajorityOverlapCandidates_spec (full : Bool) (w : Weight) (fuel : Nat)
    (crag : Crag) (overlaps : CragNode → Histogram) (gt : CragNode → Int)
    (sel sel' : Selection)
    (h : findMajorityOverlapCandidates full w fuel crag overlaps gt sel = .ok sel') :
    sel'.edge = sel.edge ∧
    (∀ x, (∃ r, crag.MajorityStart r ∧
        crag.Visits (majorityHalt full w crag overlaps gt) r x ∧
        majorityStop w crag overlaps gt x = true) → sel'.node x = decide (gt x ≠ 0)) ∧
    (∀ x, (¬ ∃ r, crag.MajorityStart r ∧
        crag.Visits (majorityHalt full w crag overlaps gt) r x ∧
        majorityStop w crag overlaps gt x = true) → sel'.node x = sel.node x) := by
  unfold findMajorityOverlapCandidates at h
  obtain ⟨he, ha, hb⟩ := forEach_paint _
    (fun r x => (crag.type r ≠ NodeType.NoAssignmentNode ∧
        crag.type r ≠ NodeType.AssignmentNode ∧ crag.isRootNode r = true) ∧
      crag.Visits (majorityHalt full w crag overlaps gt) r x ∧
      majorityStop w crag overlaps gt x = true)
    (fun x => decide (gt x ≠ 0)) crag.nodes
    (by
      intro r _ s s' hr
      split_ifs at hr with h1 h2
      · simp only [Except.ok.injEq] at hr
        subst hr
        refine ⟨rfl, ?_, fun _ _ => rfl⟩
        rintro x ⟨⟨h3, h4, _⟩, _⟩
        rcases h1 with h1 | h1
        · exact absurd h1 h3
        · exact absurd h1 h4
      · obtain ⟨he, ha, hb⟩ := labelMajorityOverlapCandidate_spec full w crag overlaps gt
          fuel r s s' hr
        exact ⟨he, fun x hx => ha x hx.2, fun x hx => hb x (fun hx' =>
          hx ⟨⟨fun h3 => h1 (Or.inl h3), fun h3 => h1 (Or.inr h3), h2⟩, hx'⟩)⟩
      · simp only [Except.ok.injEq] at hr
        subst hr
        refine ⟨rfl, ?_, fun _ _ => rfl⟩
        rintro x ⟨⟨_, _, h3⟩, _⟩
        exact absurd h3 h2)
    sel sel' h
  refine ⟨he, ?_, ?_⟩
  · rintro x ⟨r, ⟨hr1, hr2⟩, hv⟩
    exact ha x ⟨r, hr1, hr2, hv⟩
  · intro x hx
    exact hb x (fun ⟨r, hr1, hr2, hv⟩ => hx ⟨r, ⟨hr1, hr2⟩, hv⟩)

/-- From the state in which nothing is selected, Strategy A selects exactly the
candidates that a traversal reaches, that pass the leaf-or-majority test and
that are not assigned to the background. -/
theorem findMajorityOverlapCandidates_selected (full : Bool) (w : Weight) (fuel : Nat)
    (crag : Crag) (overlaps : CragNode → Histogram) (gt : CragNode → Int)
    (sel sel' : Selection) (hsel : ∀ x, sel.node x = false)
    (h : findMajorityOverlapCandidates full w fuel crag overlaps gt sel = .ok sel')
    (x : CragNode) :
    sel'.node x = true ↔
      (∃ r, crag.MajorityStart r ∧
        crag.Visits (majorityHalt full w crag overlaps gt) r x) ∧
      majorityStop w crag overlaps gt x = true ∧ gt x ≠ 0 := by
  obtain ⟨_, ha, hb⟩ := findMajorityOverlapCandidates_spec full w fuel crag overlaps gt
    sel sel' h
  by_cases hx : ∃ r, crag.MajorityStart r ∧
        crag.Visits (majorityHalt full w crag overlaps gt) r x ∧
        majorityStop w crag overlaps gt x = true
  · rw [ha x hx]
    obtain ⟨r, hr, hv, hs⟩ := hx
    simp only [decide_eq_true_eq]
    exact ⟨fun h0 => ⟨⟨r, hr, hv⟩, hs, h0⟩, fun h0 => h0.2.2⟩
  · rw [hb x hx, hsel x]
    constructor
    · intro h0; cases h0
    · rintro ⟨⟨r, hr, hv⟩, hs, _⟩
      exact absurd ⟨r, hr, hv, hs⟩ hx

theorem findMajorityOverlapCandidates_total (full : Bool) (w : Weight) (fuel : Nat)
    (crag : Crag) (overlaps : CragNode → Histogram) (gt : CragNode → Int)
    (level : CragNode → Nat) (hr : crag.Ranked level fuel) (hc : crag.ArcsClosed)
    (hat : ∀ x ∈ crag.nodes, (overlaps x).at? (gt x) ≠ none) (sel : Selection) :
    ∃ sel', findMajorityOverlapCandidates full w fuel crag overlaps gt sel = .ok sel' := by
  unfold findMajorityOverlapCandidates
  apply forEach_total
  intro r hrn s
  split_ifs
  · exact ⟨_, rfl⟩
  · apply labelMajorityOverlapCandidate_total full w crag overlaps gt level hr.1 fuel r s
      (hr.2 r hrn)
    rintro x (rfl | hx)
    · exact hat _ hrn
    · obtain ⟨p, hp, _⟩ := hx.parent
      exact hat x (hc _ (Crag.mem_inArcs.1 hp)).1
  · exact ⟨_, rfl⟩

/-! ## Strategy B: concordant leaf assignments -/

theorem labelSingleAssignmentCandidate_spec (full : Bool) (crag : Crag)
    (la : CragNode → List Int) :
    ∀ (fuel : Nat) (n : CragNode) (sel sel' : Selection),
      labelSingleAssignmentCandidate full crag la fuel n sel = .ok sel' →
      sel'.edge = sel.edge ∧
      (∀ x, (crag.Visits (singleHalt full crag la) n x ∧ singleTest crag la x = true) →
        sel'.node x = true) ∧
      (∀ x, ¬ (crag.Visits (singleHalt full crag la) n x ∧ singleTest crag la x = true) →
        sel'.node x = sel.node x) := by
  intro fuel
  induction fuel with
  | zero => intro n sel sel' h; simp [labelSingleAssignmentCandidate] at h
  | succ fuel ih =>
    intro n sel sel' h
    have hkids : ∀ s s', forEach (fun s child =>
          labelSingleAssignmentCandidate full crag la fuel child s)
          (crag.inArcs n) s = .ok s' → _ :=
      forEach_paint _ (fun c x => crag.Visits (singleHalt full crag la) c x ∧
        singleTest crag la x = true) (fun _ => true)
        (crag.inArcs n) (fun c _ s s' hc => ih c s s' hc)
    unfold labelSingleAssignmentCandidate at h
    cases htest : singleTest crag la n with
    | true =>
      rw [htest] at h
      simp only [if_true] at h
      cases full with
      | false =>
        simp only [Bool.not_false, if_true, Except.ok.injEq] at h
        subst h
        have hhalt : singleHalt false crag la n = true := by
          simp [singleHalt, htest]
        have hvis : ∀ x, crag.Visits (singleHalt false crag la) n x → x = n := by
          intro x hx
          rcases Crag.Visits.iff_cases.1 hx with h1 | ⟨h1, _⟩
          · exact h1
          · rw [hhalt] at h1; cases h1
        refine ⟨rfl, ?_, ?_⟩
        · rintro x ⟨hx, _⟩
          rw [hvis x hx]
          simp [Selection.setNode, setAt]
        · intro x hx
          have hne : x ≠ n := by
            rintro rfl
            exact hx ⟨Crag.Visits.here _, htest⟩
          simp [Selection.setNode, setAt, hne]
      | true =>
        simp only [Bool.not_true, Bool.false_eq_true, if_false] at h
        obtain ⟨he, ha, hb⟩ := hkids _ _ h
        have hhalt : singleHalt true crag la n = false := by
          simp [singleHalt]
        refine ⟨he, ?_, ?_⟩
        · rintro x ⟨hx, hsx⟩
          by_cases hk : ∃ c ∈ crag.inArcs n,
              crag.Visits (singleHalt true crag la) c x ∧ singleTest crag la x = true
          · exact ha x hk
          · rw [hb x hk]
            rcases Crag.Visits.iff_cases.1 hx with h1 | ⟨_, c, hc, hv⟩
            · rw [h1]; simp [Selection.setNode, setAt]
            · exact absurd ⟨c, hc, hv, hsx⟩ hk
        · intro x hx
          have hk : ¬ ∃ c ∈ crag.inArcs n,
              crag.Visits (singleHalt true crag la) c x ∧ singleTest crag la x = true :=
            fun ⟨c, hc, hv, hsx⟩ => hx ⟨Crag.Visits.down hhalt hc hv, hsx⟩
          have hne : x ≠ n := by
            rintro rfl
            exact hx ⟨Crag.Visits.here _, htest⟩
          rw [hb x hk]
          simp [Selection.setNode, setAt, hne]
    | false =>
      rw [htest] at h
      simp only [Bool.false_eq_true, if_false] at h
      obtain ⟨he, ha, hb⟩ := hkids _ _ h
      have hhalt : singleHalt full crag la n = false := by
        simp [singleHalt, htest]
      refine ⟨he, ?_, ?_⟩
      · rintro x ⟨hx, hsx⟩
        rcases Crag.Visits.iff_cases.1 hx with h1 | ⟨_, c, hc, hv⟩
        · rw [h1, htest] at hsx; cases hsx
        · exact ha x ⟨c, hc, hv, hsx⟩
      · intro x hx
        exact hb x (fun ⟨c, hc, hv, hsx⟩ => hx ⟨Crag.Visits.down hhalt hc hv, hsx⟩)

theorem labelSingleAssignmentCandidate_total (full : Bool) (crag : Crag)
    (la : CragNode → List Int) (level : CragNode → Nat)
    (hl : ∀ a ∈ crag.arcs, level a.source < level a.target) :
    ∀ (fuel : Nat) (n : CragNode) (sel : Selection), level n < fuel →
      ∃ sel', labelSingleAssignmentCandidate full crag la fuel n sel = .ok sel' := by
  intro fuel
  induction fuel with
  | zero => intro n sel h; omega
  | succ fuel ih =>
    intro n sel hlev
    have hkids : ∀ s, ∃ s', forEach (fun s child =>
          labelSingleAssignmentCandidate full crag la fuel child s)
          (crag.inArcs n) s = .ok s' := by
      apply forEach_total
      intro c hc s
      have hlt := hl _ (Crag.mem_inArcs.1 hc)
      exact ih c s (by simp only at hlt; omega)
    unfold labelSingleAssignmentCandidate
    split_ifs
    · exact ⟨_, rfl⟩
    · exact hkids _
    · exact hkids _

/-! ## Sets of labels -/

theorem mem_setInsert {s : List Int} {x y : Int} :
    y ∈ setInsert s x ↔ y = x ∨ y ∈ s := by
  induction s with
  | nil => simp [setInsert]
  | cons a s ih =>
    simp only [setInsert]
    split_ifs with h1 h2
    · subst h1
      simp only [List.mem_cons]
      tauto
    · simp only [List.mem_cons]
    · simp only [List.mem_cons, ih]
      tauto

theorem sorted_setInsert {s : List Int} (x : Int) (hs : s.Pairwise (· < ·)) :
    (setInsert s x).Pairwise (· < ·) := by
  induction s with
  | nil => simp [setInsert]
  | cons a s ih =>
    rw [List.pairwise_cons] at hs
    simp only [setInsert]
    split_ifs with h1 h2
    · exact List.pairwise_cons.2 hs
    · refine List.pairwise_cons.2 ⟨?_, List.pairwise_cons.2 hs⟩
      intro y hy
      rcases List.mem_cons.1 hy with rfl | hy
      · exact h2
      · exact lt_trans h2 (hs.1 y hy)
    · refine List.pairwise_cons.2 ⟨?_, ih hs.2⟩
      intro y hy
      rcases mem_setInsert.1 hy with rfl | hy
      · exact lt_of_le_of_ne (not_lt.1 h2) (Ne.symm h1)
      · exact hs.1 y hy

theorem mem_setInsertAll {t s : List Int} {y : Int} :
    y ∈ setInsertAll s t ↔ y ∈ s ∨ y ∈ t := by
  unfold setInsertAll
  induction t generalizing s with
  | nil => simp
  | cons a t ih =>
    simp only [List.foldl_cons, ih, mem_setInsert, List.mem_cons]
    tauto

theorem sorted_setInsertAll {t s : List Int} (hs : s.Pairwise (· < ·)) :
    (setInsertAll s t).Pairwise (· < ·) := by
  unfold setInsertAll
  induction t generalizing s with
  | nil => exact hs
  | cons a t ih =>
    simp only [List.foldl_cons]
    exact ih (sorted_setInsert a hs)

/-! ## Leaf assignments -/

theorem Crag.ProperDescendant.iff_child {crag : Crag} {d a : CragNode} :
    crag.ProperDescendant d a ↔
      ∃ c ∈ crag.inArcs a, d = c ∨ crag.ProperDescendant d c := by
  constructor
  · intro h
    cases h with
    | child hc => exact ⟨_, hc, Or.inl rfl⟩
    | step hc hd => exact ⟨_, hc, Or.inr hd⟩
  · rintro ⟨c, hc, rfl | hd⟩
    · exact Crag.ProperDescendant.child hc
    · exact Crag.ProperDescendant.step hc hd

theorem Crag.subtreeLabel_iff {crag : Crag} {gt : CragNode → Int} {n : CragNode} {l : Int} :
    crag.SubtreeLabel gt n l ↔ l = gt n ∨ ∃ c ∈ crag.inArcs n, crag.SubtreeLabel gt c l := by
  unfold Crag.SubtreeLabel
  constructor
  · rintro (h | ⟨d, hd, hl⟩)
    · exact Or.inl h
    · obtain ⟨c, hc, hdc⟩ := Crag.ProperDescendant.iff_child.1 hd
      right
      refine ⟨c, hc, ?_⟩
      rcases hdc with rfl | hdc
      · exact Or.inl hl
      · exact Or.inr ⟨d, hdc, hl⟩
  · rintro (h | ⟨c, hc, h | ⟨d, hd, hl⟩⟩)
    · exact Or.inl h
    · exact Or.inr ⟨c, Crag.ProperDescendant.child hc, h⟩
    · exact Or.inr ⟨d, Crag.ProperDescendant.step hc hd, hl⟩

theorem getLeafAssignments_spec (crag : Crag) (gt : CragNode → Int)
    (level : CragNode → Nat) (hl : ∀ a ∈ crag.arcs, level a.source < level a.target) :
    ∀ (fuel : Nat) (n : CragNode) (la la' : CragNode → List Int),
      getLeafAssignments crag gt fuel n la = .ok la' →
      (∀ x, (x = n ∨ crag.ProperDescendant x n) → crag.LeafSet gt x (la' x)) ∧
      (∀ x, ¬ (x = n ∨ crag.ProperDescendant x n) → la' x = la x) := by
  intro fuel
  induction fuel with
  | zero => intro n la la' h; simp [getLeafAssignments] at h
  | succ fuel ih =>
    intro n la la' h
    have hloop : ∀ (l : List CragNode), (∀ c ∈ l, c ∈ crag.inArcs n) →
        ∀ s s' : CragNode → List Int,
        forEach (fun la child =>
          match getLeafAssignments crag gt fuel child la with
          | .ok la' => .ok (setAt la' n (setInsertAll (la' n) (la' child)))
          | .error e => .error e) l s = .ok s' →
        (∀ x, (∃ c ∈ l, x = c ∨ crag.ProperDescendant x c) → crag.LeafSet gt x (s' x)) ∧
        (∀ lb, lb ∈ s' n ↔ lb ∈ s n ∨ ∃ c ∈ l, crag.SubtreeLabel gt c lb) ∧
        ((s n).Pairwise (· < ·) → (s' n).Pairwise (· < ·)) ∧
        (∀ x, x ≠ n → (¬ ∃ c ∈ l, x = c ∨ crag.ProperDescendant x c) → s' x = s x) := by
      intro l
      induction l with
      | nil =>
        intro _ s s' hs
        simp only [forEach, Except.ok.injEq] at hs
        subst hs
        exact ⟨fun x hx => by simp at hx, fun lb => by simp, fun h => h, fun _ _ _ => rfl⟩
      | cons c l ihl =>
        intro hmem s s' hs
        simp only [forEach] at hs
        cases hc : getLeafAssignments crag gt fuel c s with
        | error e => rw [hc] at hs; cases hs
        | ok t =>
          rw [hc] at hs
          simp only at hs
          obtain ⟨ha, hb⟩ := ih c s t hc
          have hcn : c ∈ crag.inArcs n := hmem c (List.mem_cons_self _ _)
          have hlev : level c < level n := hl _ (Crag.mem_inArcs.1 hcn)
          have hn : ¬ (n = c ∨ crag.ProperDescendant n c) := by
            rintro (h1 | h1)
            · rw [h1] at hlev; exact lt_irrefl _ hlev
            · exact lt_irrefl _ (lt_trans hlev (h1.level_lt hl))
          have htn : t n = s n := hb n hn
          have hne : c ≠ n := fun h1 => hn (Or.inl h1.symm)
          obtain ⟨h1, h2, h3, h4⟩ :=
            ihl (fun c' hc' => hmem c' (List.mem_cons_of_mem _ hc')) _ s' hs
          have hcset := ha c (Or.inl rfl)
          refine ⟨?_, ?_, ?_, ?_⟩
          · intro x hx
            by_cases hxl : ∃ c' ∈ l, x = c' ∨ crag.ProperDescendant x c'
            · exact h1 x hxl
            · obtain ⟨c', hc', hxc⟩ := hx
              rcases List.mem_cons.1 hc' with rfl | hc'
              · have hxn : x ≠ n := by
                  rintro rfl
                  exact hn hxc
                rw [h4 x hxn hxl]
                simp only [setAt, if_neg hxn]
                exact ha x hxc
              · exact absurd ⟨c', hc', hxc⟩ hxl
          · intro lb
            rw [h2 lb]
            simp only [setAt, if_true, mem_setInsertAll, htn, hcset.1 lb,
              List.mem_cons, exists_eq_or_imp]
            tauto
          · intro hsn
            apply h3
            simp only [setAt, if_true]
            rw [htn]
            exact sorted_setInsertAll hsn
          · intro x hxn hx
            have hxl : ¬ ∃ c' ∈ l, x = c' ∨ crag.ProperDescendant x c' :=
              fun ⟨c', hc', hxc⟩ => hx ⟨c', List.mem_cons_of_mem _ hc', hxc⟩
            have hxc : ¬ (x = c ∨ crag.ProperDescendant x c) :=
              fun hxc => hx ⟨c, List.mem_cons_self _ _, hxc⟩
            rw [h4 x hxn hxl]
            simp only [setAt, if_neg hxn]
            exact hb x hxc
    unfold getLeafAssignments at h
    cases hf : forEach (fun la child =>
          match getLeafAssignments crag gt fuel child la with
          | .ok la' => .ok (setAt la' n (setInsertAll (la' n) (la' child)))
          | .error e => .error e) (crag.inArcs n) (setAt la n []) with
    | error e => rw [hf] at h; cases h
    | ok s' =>
      rw [hf] at h
      simp only [Except.ok.injEq] at h
      subst h
      obtain ⟨h1, h2, h3, h4⟩ := hloop _ (fun c hc => hc) _ s' hf
      have hnn : ¬ crag.ProperDescendant n n :=
        fun h0 => lt_irrefl _ (h0.level_lt hl)
      refine ⟨?_, ?_⟩
      · rintro x (rfl | hx)
        · refine ⟨?_, ?_⟩
          · intro lb
            simp only [setAt, if_true, mem_setInsert, h2 lb, List.not_mem_nil, false_or]
            rw [Crag.subtreeLabel_iff]
          · simp only [setAt, if_true]
            apply sorted_setInsert
            apply h3
            simp [setAt]
        · have hxn : x ≠ n := by
            rintro rfl
            exact hnn hx
          simp only [setAt, if_neg hxn]
          exact h1 x (Crag.ProperDescendant.iff_child.1 hx)
      · intro x hx
        have hxn : x ≠ n := fun h0 => hx (Or.inl h0)
        simp only [setAt, if_neg hxn]
        rw [h4 x hxn (fun hc => hx (Or.inr (Crag.ProperDescendant.iff_child.2 hc)))]
        simp [setAt, hxn]

theorem getLeafAssignments_total (crag : Crag) (gt : CragNode → Int)
    (level : CragNode → Nat) (hl : ∀ a ∈ crag.arcs, level a.source < level a.target) :
    ∀ (fuel : Nat) (n : CragNode) (la : CragNode → List Int), level n < fuel →
      ∃ la', getLeafAssignments crag gt fuel n la = .ok la' := by
  intro fuel
  induction fuel with
  | zero => intro n la h; omega
  | succ fuel ih =>
    intro n la hlev
    have hkids : ∀ s, ∃ s', forEach (fun la child =>
          match getLeafAssignments crag gt fuel child la with
          | .ok la' => .ok (setAt la' n (setInsertAll (la' n) (la' child)))
          | .error e => .error e) (crag.inArcs n) s = .ok s' := by
      apply forEach_total
      intro c hc s
      have hlt := hl _ (Crag.mem_inArcs.1 hc)
      obtain ⟨t, ht⟩ := ih c s (by simp only at hlt; omega)
      exact ⟨setAt t n (setInsertAll (t n) (t c)), by simp only [ht]⟩
    obtain ⟨s', hs'⟩ := hkids (setAt la n [])
    exact ⟨setAt s' n (setInsert (s' n) (gt n)), by simp only [getLeafAssignments, hs']⟩

theorem forEach_establish {α β : Type} (body : (CragNode → β) → α → Except Failure (CragNode → β))
    (R : α → CragNode → Prop) (Q : CragNode → β → Prop) (l : List α)
    (hbody : ∀ a ∈ l, ∀ s s', body s a = .ok s' →
      (∀ x, R a x → Q x (s' x)) ∧ (∀ x, ¬ R a x → s' x = s x)) :
    ∀ s s', forEach body l s = .ok s' →
      (∀ x, (∃ a ∈ l, R a x) → Q x (s' x)) ∧
        (∀ x, (¬ ∃ a ∈ l, R a x) → s' x = s x) := by
  induction l with
  | nil =>
    intro s s' h
    simp only [forEach, Except.ok.injEq] at h
    subst h
    exact ⟨fun x hx => by simp at hx, fun x _ => rfl⟩
  | cons a l ih =>
    intro s s' h
    simp only [forEach] at h
    cases hb : body s a with
    | error e => rw [hb] at h; cases h
    | ok s1 =>
      rw [hb] at h
      obtain ⟨ha1, hb1⟩ := hbody a (List.mem_cons_self _ _) s s1 hb
      obtain ⟨ha2, hb2⟩ :=
        ih (fun a' ha' => hbody a' (List.mem_cons_of_mem _ ha')) s1 s' h
      refine ⟨?_, ?_⟩
      · intro x hx
        by_cases hl : ∃ a' ∈ l, R a' x
        · exact ha2 x hl
        · rw [hb2 x hl]
          obtain ⟨a', ha', hR⟩ := hx
          rcases List.mem_cons.1 ha' with rfl | ha'
          · exact ha1 x hR
          · exact absurd ⟨a', ha', hR⟩ hl
      · intro x hx
        have h1 : ¬ ∃ a' ∈ l, R a' x :=
          fun ⟨a', ha', hR⟩ => hx ⟨a', List.mem_cons_of_mem _ ha', hR⟩
        have h2 : ¬ R a x := fun hR => hx ⟨a, List.mem_cons_self _ _, hR⟩
        rw [hb2 x h1, hb1 x h2]

theorem allLeafAssignments_spec (fuel : Nat) (crag : Crag) (gt : CragNode → Int)
    (level : CragNode → Nat) (hl : ∀ a ∈ crag.arcs, level a.source < level a.target)
    (la : CragNode → List Int) (h : allLeafAssignments fuel crag gt = .ok la)
    (x r : CragNode) (hr : crag.Root r) (hx : x = r ∨ crag.ProperDescendant x r) :
    crag.LeafSet gt x (la x) := by
  unfold allLeafAssignments at h
  obtain ⟨ha, _⟩ := forEach_establish _
    (fun r x => crag.isRootNode r = true ∧ (x = r ∨ crag.ProperDescendant x r))
    (fun x s => crag.LeafSet gt x s) crag.nodes
    (by
      intro r _ s s' hs
      split_ifs at hs with h1
      · obtain ⟨h2, h3⟩ := getLeafAssignments_spec crag gt level hl fuel r s s' hs
        exact ⟨fun x hx => h2 x hx.2, fun x hx => h3 x (fun h4 => hx ⟨h1, h4⟩)⟩
      · simp only [Except.ok.injEq] at hs
        subst hs
        exact ⟨fun x hx => absurd hx.1 h1, fun _ _ => rfl⟩)
    _ la h
  exact ha x ⟨r, hr.1, hr.2, hx⟩

theorem allLeafAssignments_total (fuel : Nat) (crag : Crag) (gt : CragNode → Int)
    (level : CragNode → Nat) (hr : crag.Ranked level fuel) :
    ∃ la, allLeafAssignments fuel crag gt = .ok la := by
  unfold allLeafAssignments
  apply forEach_total
  intro r hrn s
  split_ifs
  · exact getLeafAssignments_total crag gt level hr.1 fuel r s (hr.2 r hrn)
  · exact ⟨_, rfl⟩

theorem singleTest_iff {crag : Crag} {gt : CragNode → Int} {la : CragNode → List Int}
    {x : CragNode} (hset : crag.LeafSet gt x (la x)) :
    singleTest crag la x = true ↔
      crag.Concordant gt x ∧ crag.type x ≠ NodeType.AssignmentNode ∧
        crag.type x ≠ NodeType.NoAssignmentNode := by
  obtain ⟨hmem, hsorted⟩ := hset
  have hown : gt x ∈ la x := (hmem _).2 (Or.inl rfl)
  have hconc : ((la x).length = 1 ∧ (la x).head? ≠ some 0) ↔ crag.Concordant gt x := by
    constructor
    · rintro ⟨h1, h2⟩
      obtain ⟨a, ha⟩ := List.length_eq_one.1 h1
      rw [ha] at hown h2
      have hg : gt x = a := by simpa using hown
      refine ⟨?_, ?_⟩
      · intro h0
        apply h2
        simp [← hg, h0]
      · intro d hd
        have hdm : gt d ∈ la x := (hmem _).2 (Or.inr ⟨d, hd, rfl⟩)
        rw [ha] at hdm
        have : gt d = a := by simpa using hdm
        rw [this, hg]
    · rintro ⟨h0, hall⟩
      have hmem' : ∀ l ∈ la x, l = gt x := by
        intro l hl
        rcases (hmem l).1 hl with h1 | ⟨d, hd, h1⟩
        · exact h1
        · rw [h1]; exact hall d hd
      cases hla : la x with
      | nil => rw [hla] at hown; cases hown
      | cons a t =>
        rw [hla] at hmem' hsorted
        have ha : a = gt x := hmem' a (List.mem_cons_self _ _)
        have ht : t = [] := by
          cases t with
          | nil => rfl
          | cons b t =>
            exfalso
            have hb : b = gt x := hmem' b (List.mem_cons_of_mem _ (List.mem_cons_self _ _))
            have hlt : a < b := (List.pairwise_cons.1 hsorted).1 b (List.mem_cons_self _ _)
            rw [ha, hb] at hlt
            exact lt_irrefl _ hlt
        subst ht
        refine ⟨rfl, ?_⟩
        simp only [List.head?_cons, ne_eq, Option.some.injEq]
        rw [ha]; exact h0
  unfold singleTest
  simp only [Bool.and_eq_true, beq_iff_eq, bne_iff_ne, ne_eq]
  rw [hconc]

theorem findConcordantLeafNodeCandidates_selected (full : Bool) (fuel : Nat) (crag : Crag)
    (gt : CragNode → Int) (sel sel' : Selection) (hsel : ∀ x, sel.node x = false)
    (h : findConcordantLeafNodeCandidates full fuel crag gt sel = .ok sel') :
    ∃ la, allLeafAssignments fuel crag gt = .ok la ∧ sel'.edge = sel.edge ∧
      ∀ x, sel'.node x = true ↔
        (∃ r, crag.Root r ∧ crag.Visits (singleHalt full crag la) r x) ∧
          singleTest crag la x = true := by
  unfold findConcordantLeafNodeCandidates at h
  cases hla : allLeafAssignments fuel crag gt with
  | error e => rw [hla] at h; cases h
  | ok la =>
    rw [hla] at h
    simp only at h
    refine ⟨la, rfl, ?_⟩
    obtain ⟨he, ha, hb⟩ := forEach_paint _
      (fun r x => crag.isRootNode r = true ∧
        crag.Visits (singleHalt full crag la) r x ∧ singleTest crag la x = true)
      (fun _ => true) crag.nodes
      (by
        intro r _ s s' hr
        split_ifs at hr with h1
        · obtain ⟨he, ha, hb⟩ := labelSingleAssignmentCandidate_spec full crag la fuel r s s' hr
          exact ⟨he, fun x hx => ha x hx.2, fun x hx => hb x (fun hx' => hx ⟨h1, hx'⟩)⟩
        · simp only [Except.ok.injEq] at hr
          subst hr
          exact ⟨rfl, fun x hx => absurd hx.1 h1, fun _ _ => rfl⟩)
      sel sel' h
    refine ⟨he, fun x => ?_⟩
    by_cases hx : ∃ r ∈ crag.nodes, crag.isRootNode r = true ∧
        crag.Visits (singleHalt full crag la) r x ∧ singleTest crag la x = true
    · rw [ha x hx]
      obtain ⟨r, hr1, hr2, hv, hs⟩ := hx
      simp only [true_iff]
      exact ⟨⟨r, ⟨hr1, hr2⟩, hv⟩, hs⟩
    · rw [hb x hx, hsel x]
      constructor
      · intro h0; cases h0
      · rintro ⟨⟨r, ⟨hr1, hr2⟩, hv⟩, hs⟩
        exact absurd ⟨r, hr1, hr2, hv, hs⟩ hx

theorem findConcordantLeafNodeCandidates_total (full : Bool) (fuel : Nat) (crag : Crag)
    (gt : CragNode → Int) (level : CragNode → Nat) (hr : crag.Ranked level fuel)
    (sel : Selection) :
    ∃ sel', findConcordantLeafNodeCandidates full fuel crag gt sel = .ok sel' := by
  obtain ⟨la, hla⟩ := allLeafAssignments_total fuel crag gt level hr
  unfold findConcordantLeafNodeCandidates
  rw [hla]
  simp only
  apply forEach_total
  intro r hrn s
  split_ifs
  · exact labelSingleAssignmentCandidate_total full crag la level hr.1 fuel r s (hr.2 r hrn)
  · exact ⟨_, rfl⟩

/-! ## Properties of the candidate selector -/

theorem Crag.uniqueParent_of_nodup {crag : Crag}
    (h : (crag.arcs.map CragArc.source).Nodup) : crag.UniqueParent := by
  intro c p q hp hq
  have h1 := Crag.mem_inArcs.1 hp
  have h2 := Crag.mem_inArcs.1 hq
  have := List.inj_on_of_nodup_map h h1 h2 rfl
  exact congrArg CragArc.target this

/-- On a hierarchy without cycles, with enough fuel, the candidate selector
returns a selection: Strategy B always, Strategy A when the histogram of every
candidate holds the label the candidate is assigned to. -/
theorem selectCandidates_total (opts : Options) (fuel : Nat) (crag : Crag)
    (overlaps : CragNode → Histogram) (gt : CragNode → Int) (level : CragNode → Nat)
    (hr : crag.Ranked level fuel) (hc : crag.ArcsClosed)
    (hat : opts.majorityOverlap = true →
      ∀ x ∈ crag.nodes, (overlaps x).at? (gt x) ≠ none)
    (sel : Selection) :
    ∃ sel', selectCandidates opts fuel crag overlaps gt sel = .ok sel' := by
  unfold selectCandidates
  split_ifs with h
  · exact findMajorityOverlapCandidates_total _ _ fuel crag overlaps gt level hr hc (hat h) sel
  · exact findConcordantLeafNodeCandidates_total _ fuel crag gt level hr sel

/-- C6: for either strategy and either value of `fullBestEffort`, on a
hierarchy without cycles, every candidate that is selected when the candidate
selector returns from a state in which no candidate was selected has a
ground-truth assignment other than background. -/
theorem selector_selects_only_labelled (opts : Options) (fuel : Nat) (crag : Crag)
    (overlaps : CragNode → Histogram) (gt : CragNode → Int) (level : CragNode → Nat)
    (hl : ∀ a ∈ crag.arcs, level a.source < level a.target)
    (sel sel' : Selection) (hsel : ∀ x, sel.node x = false)
    (h : selectCandidates opts fuel crag overlaps gt sel = .ok sel')
    (n : CragNode) (hn : sel'.node n = true) : gt n ≠ 0 := by
  unfold selectCandidates at h
  split_ifs at h
  · exact ((findMajorityOverlapCandidates_selected _ _ fuel crag overlaps gt sel sel'
      hsel h n).1 hn).2.2
  · obtain ⟨la, hla, _, hiff⟩ :=
      findConcordantLeafNodeCandidates_selected _ fuel crag gt sel sel' hsel h
    obtain ⟨⟨r, hr, hv⟩, ht⟩ := (hiff n).1 hn
    have hset := allLeafAssignments_spec fuel crag gt level hl la hla n r hr hv.descendant
    exact ((singleTest_iff hset).1 ht).1.1

theorem selector_selects_only_labelled_witness :
    (∀ a ∈ forkCrag.arcs, rootLevel a.source < rootLevel a.target) ∧
    (∀ x, Selection.none.node x = false) ∧
    (selectionOf (selectCandidates ⟨true, Weight.one, false⟩ 2 forkCrag forkOverlaps
      forkAssignments Selection.none)).node 1 = true ∧
    forkAssignments 1 ≠ 0 :=
  ⟨by decide, fun _ => rfl, by decide,
    selector_selects_only_labelled ⟨true, Weight.one, false⟩ 2 forkCrag forkOverlaps
      forkAssignments rootLevel (by decide) Selection.none _ (fun _ => rfl) rfl 1 (by decide)⟩

/-- C7: with `fullBestEffort = false`, for either strategy and every forest,
the candidates selected when the candidate selector returns form an antichain:
no proper descendant of a selected candidate is selected. -/
theorem selector_antichain (opts : Options) (hfull : opts.fullBestEffort = false)
    (fuel : Nat) (crag : Crag) (overlaps : CragNode → Histogram) (gt : CragNode → Int)
    (hu : crag.UniqueParent) (sel sel' : Selection) (hsel : ∀ x, sel.node x = false)
    (h : selectCandidates opts fuel crag overlaps gt sel = .ok sel')
    (a d : CragNode) (hd : crag.ProperDescendant d a) (ha : sel'.node a = true) :
    sel'.node d = false := by
  unfold selectCandidates at h
  rw [hfull] at h
  cases hsd : sel'.node d with
  | false => rfl
  | true =>
    exfalso
    split_ifs at h
    · have hiff := findMajorityOverlapCandidates_selected false _ fuel crag overlaps gt
        sel sel' hsel h
      obtain ⟨_, hsa, _⟩ := (hiff a).1 ha
      obtain ⟨⟨r, hr, hv⟩, _⟩ := (hiff d).1 hsd
      have hhalt := (hv.ancestor_of_root hu hr.2.2.2 hd).1
      simp [majorityHalt, hsa] at hhalt
    · obtain ⟨la, _, _, hiff⟩ :=
        findConcordantLeafNodeCandidates_selected false fuel crag gt sel sel' hsel h
      obtain ⟨_, hsa⟩ := (hiff a).1 ha
      obtain ⟨⟨r, hr, hv⟩, _⟩ := (hiff d).1 hsd
      have hhalt := (hv.ancestor_of_root hu hr.2 hd).1
      simp [singleHalt, hsa] at hhalt

theorem selector_antichain_witness :
    ((⟨false, Weight.one, false⟩ : Options).fullBestEffort = false ∧
      forkCrag.UniqueParent ∧ (∀ x, Selection.none.node x = false) ∧
      forkCrag.ProperDescendant 1 0 ∧
      (selectionOf (selectCandidates ⟨false, Weight.one, false⟩ 2 forkCrag
        (fun _ => [(1, 10)]) (fun _ => 1) Selection.none)).node 0 = true) ∧
    (selectionOf (selectCandidates ⟨false, Weight.one, false⟩ 2 forkCrag
      (fun _ => [(1, 10)]) (fun _ => 1) Selection.none)).node 1 = false :=
  ⟨⟨rfl, Crag.uniqueParent_of_nodup (by decide), fun _ => rfl,
      Crag.ProperDescendant.child (by decide), by decide⟩,
    selector_antichain ⟨false, Weight.one, false⟩ rfl 2 forkCrag (fun _ => [(1, 10)])
      (fun _ => 1) (Crag.uniqueParent_of_nodup (by decide)) Selection.none _
      (fun _ => rfl) rfl 0 1 (Crag.ProperDescendant.child (by decide)) (by decide)⟩

/-- Monotonicity of the candidate selector when the run with
`fullBestEffort = true` returns: for each strategy, every candidate selected
with `fullBestEffort = false` is then selected with `fullBestEffort = true`. -/
theorem selector_monotone (w : Weight) (majority : Bool) (fuel : Nat) (crag : Crag)
    (overlaps : CragNode → Histogram) (gt : CragNode → Int)
    (sel selFalse selTrue : Selection) (hsel : ∀ x, sel.node x = false)
    (hf : selectCandidates ⟨false, w, majority⟩ fuel crag overlaps gt sel = .ok selFalse)
    (ht : selectCandidates ⟨true, w, majority⟩ fuel crag overlaps gt sel = .ok selTrue)
    (n : CragNode) (hn : selFalse.node n = true) : selTrue.node n = true := by
  unfold selectCandidates at hf ht
  cases majority with
  | true =>
    simp only [if_true] at hf ht
    obtain ⟨⟨r, hr, hv⟩, hs⟩ :=
      (findMajorityOverlapCandidates_selected false w fuel crag overlaps gt sel selFalse
        hsel hf n).1 hn
    refine (findMajorityOverlapCandidates_selected true w fuel crag overlaps gt sel selTrue
      hsel ht n).2 ⟨⟨r, hr, hv.mono (fun m _ => ?_)⟩, hs⟩
    simp [majorityHalt]
  | false =>
    simp only [Bool.false_eq_true, if_false] at hf ht
    obtain ⟨la, hla, _, hiff⟩ :=
      findConcordantLeafNodeCandidates_selected false fuel crag gt sel selFalse hsel hf
    obtain ⟨la', hla', _, hiff'⟩ :=
      findConcordantLeafNodeCandidates_selected true fuel crag gt sel selTrue hsel ht
    rw [hla] at hla'
    simp only [Except.ok.injEq] at hla'
    subst hla'
    obtain ⟨⟨r, hr, hv⟩, hs⟩ := (hiff n).1 hn
    refine (hiff' n).2 ⟨⟨r, hr, hv.mono (fun m _ => ?_)⟩, hs⟩
    simp [singleHalt]

theorem selector_monotone_witness :
    ((∀ x, Selection.none.node x = false) ∧
      (selectionOf (selectCandidates ⟨false, Weight.one, true⟩ 2 forkCrag
        (fun _ => [(1, 10)]) (fun _ => 1) Selection.none)).node 0 = true) ∧
    (selectionOf (selectCandidates ⟨true, Weight.one, true⟩ 2 forkCrag
      (fun _ => [(1, 10)]) (fun _ => 1) Selection.none)).node 0 = true :=
  ⟨⟨fun _ => rfl, by decide⟩,
    selector_monotone Weight.one true 2 forkCrag (fun _ => [(1, 10)]) (fun _ => 1)
      Selection.none _ _ (fun _ => rfl) rfl rfl 0 (by decide)⟩

/-- C8 at a failing input: the run of Strategy A with `fullBestEffort = true`
does not return where the run with `fullBestEffort = false` selects a
candidate. In `chainCrag` the root holds one voxel of region `7` and its child
has an empty mask: the constructor with `fullBestEffort = false` selects the
root and returns, while with `fullBestEffort = true` it goes on to the child,
whose histogram is empty, and ends in the failed lookup
`overlaps[n].at(gtAssignments[n])`; so do the two runs of the selector alone. -/
theorem selector_monotone_fails :
    (∃ s, bestEffort majorityOptions 2 chainCrag hollowChildVolumes sevenTruth = .ok s ∧
      s.node 0 = true) ∧
    bestEffort fullMajorityOptions 2 chainCrag hollowChildVolumes sevenTruth
      = .error Failure.outOfRange ∧
    (∃ s, selectCandidates majorityOptions 2 chainCrag
        (bestEffortOverlaps chainCrag hollowChildVolumes sevenTruth)
        (bestEffortAssignments majorityOptions chainCrag hollowChildVolumes sevenTruth)
        (clearSelection chainCrag) = .ok s ∧ s.node 0 = true) ∧
    selectCandidates fullMajorityOptions 2 chainCrag
        (bestEffortOverlaps chainCrag hollowChildVolumes sevenTruth)
        (bestEffortAssignments fullMajorityOptions chainCrag hollowChildVolumes sevenTruth)
        (clearSelection chainCrag) = .error Failure.outOfRange :=
  ⟨⟨_, rfl, by decide⟩, rfl, ⟨_, rfl, by decide⟩, rfl⟩

theorem Crag.ProperDescendant.mem_nodes {crag : Crag} (hc : crag.ArcsClosed)
    {d a : CragNode} (h : crag.ProperDescendant d a) : a ∈ crag.nodes := by
  obtain ⟨c, hca, _⟩ := Crag.ProperDescendant.iff_child.1 h
  exact (hc _ (Crag.mem_inArcs.1 hca)).2

theorem Crag.ProperDescendant.not_leaf {crag : Crag} {d a : CragNode}
    (h : crag.ProperDescendant d a) : crag.isLeafNode a = false := by
  obtain ⟨c, hca, _⟩ := Crag.ProperDescendant.iff_child.1 h
  unfold Crag.isLeafNode
  rw [List.isEmpty_eq_false]
  intro h0
  rw [h0] at hca
  cases hca

theorem bitLengthAux_le : ∀ (fuel a n : Nat), a < 2 ^ n → bitLengthAux fuel a ≤ n := by
  intro fuel
  induction fuel with
  | zero => intro a n _; exact Nat.zero_le _
  | succ fuel ih =>
    intro a n ha
    unfold bitLengthAux
    split_ifs with h0
    · exact Nat.zero_le _
    · cases n with
      | zero =>
        simp only [pow_zero, Nat.lt_one_iff] at ha
        exact absurd ha h0
      | succ n =>
        have := ih (a / 2) n (by rw [pow_succ] at ha; omega)
        omega

/-- A number of at most 53 binary digits is a `double` and is not rounded. -/
theorem roundToDouble_of_lt {a : Nat} (ha : a < 2 ^ 53) : roundToDouble a = a := by
  have hk : bitLength a - 53 = 0 := Nat.sub_eq_zero_of_le (bitLengthAux_le a a 53 ha)
  unfold roundToDouble
  rw [hk]
  simp [Nat.mod_one]

/-- With the weight one the product with a count below `2 ^ 31` is the count. -/
theorem weighted_one (p : Int × Int) (h0 : 0 ≤ p.2) (hb : p.2 < 2147483648) :
    weighted Weight.one p = p.2 := by
  have hweight : ∀ c : Int, 0 ≤ c → c < 2147483648 → productScore Weight.one c = c := by
    intro c hc0 hcb
    have hlt : (c * 1).natAbs < 2 ^ 53 := by
      have : (2 : Nat) ^ 53 = 9007199254740992 := by norm_num
      omega
    have hbit : bitLength (c * 1).natAbs ≤ 53 := bitLengthAux_le _ _ 53 hlt
    unfold productScore Weight.one
    simp only
    rw [roundToDouble_of_lt hlt, if_neg (by omega), if_neg (by omega)]
    simp only [Int.toNat_zero, pow_zero, Nat.mul_one]
    omega
  unfold weighted
  split_ifs
  · exact hweight p.2 h0 hb
  · simp [Weight.one]

theorem totalOverlap_one (h : Histogram) (hpos : ∀ p ∈ h, 0 < p.2)
    (hint : ∀ p ∈ h, p.2 < 2147483648) : totalOverlap Weight.one h = h.total := by
  unfold totalOverlap Histogram.total
  suffices hs : ∀ (l : Histogram), (∀ p ∈ l, 0 < p.2) → (∀ p ∈ l, p.2 < 2147483648) →
      ∀ t : Int, l.foldl (fun t p => t + weighted Weight.one p) t
        = t + (l.map Prod.snd).sum by
    simpa using hs h hpos hint 0
  intro l
  induction l with
  | nil => intro _ _ t; simp
  | cons p l ih =>
    intro hp hi t
    simp only [List.foldl_cons, List.map_cons, List.sum_cons]
    rw [ih (fun q hq => hp q (List.mem_cons_of_mem _ hq))
        (fun q hq => hi q (List.mem_cons_of_mem _ hq)),
      weighted_one p (le_of_lt (hp p (List.mem_cons_self _ _))) (hi p (List.mem_cons_self _ _))]
    ring

theorem Histogram.total_pos {h : Histogram} (hwf : h.WellFormed) (hne : h ≠ []) :
    0 < h.total := by
  obtain ⟨_, hpos, _⟩ := hwf
  cases h with
  | nil => exact absurd rfl hne
  | cons p l =>
    have hp : 0 < p.2 := hpos p (List.mem_cons_self _ _)
    have hl := Histogram.total_nonneg l (fun q hq => hpos q (List.mem_cons_of_mem _ hq))
    unfold Histogram.total at hl ⊢
    simp only [List.map_cons, List.sum_cons]
    omega

theorem majorityStop_one_iff {crag : Crag} {overlaps : CragNode → Histogram}
    {gt : CragNode → Int} {n : CragNode} (hwf : (overlaps n).WellFormed)
    (hne : overlaps n ≠ []) (hat : (overlaps n).at? (gt n) ≠ none) :
    majorityStop Weight.one crag overlaps gt n = true ↔
      crag.isLeafNode n = true ∨ StrictMajority overlaps gt n := by
  have hpos := Histogram.total_pos hwf hne
  unfold majorityStop StrictMajority
  cases hc : (overlaps n).at? (gt n) with
  | none => exact absurd hc hat
  | some c =>
    have hget : (overlaps n).get (gt n) = c := by simp [Histogram.get, hc]
    have hmem := Histogram.mem_of_at? hc
    have hw : weighted Weight.one (gt n, c) = c :=
      weighted_one _ (le_of_lt (hwf.2.1 _ hmem)) (hwf.2.2 _ hmem)
    simp only [majorityTest, Bool.or_eq_true, hw, totalOverlap_one _ hwf.2.1 hwf.2.2, hget,
      exceedsHalf, if_neg (ne_of_gt hpos), if_pos hpos, decide_eq_true_eq]

/-- C4: Strategy A with `fullBestEffort = false` and background weight one, on
a forest of slice nodes with non-empty histograms and the assignments derived
from them, returns a selection in which a candidate `n` is selected if and only
if its assigned label is not background, `n` is a leaf or has a strict majority
overlap, and no proper ancestor of `n` has a strict majority overlap. -/
theorem majority_selected_iff (fuel : Nat) (crag : Crag) (overlaps : CragNode → Histogram)
    (level : CragNode → Nat) (hu : crag.UniqueParent) (hr : crag.Ranked level fuel)
    (hc : crag.ArcsClosed) (hslice : ∀ n ∈ crag.nodes, crag.type n = NodeType.SliceNode)
    (hwf : ∀ n ∈ crag.nodes, (overlaps n).WellFormed ∧ overlaps n ≠ [])
    (sel : Selection) (hsel : ∀ x, sel.node x = false) :
    ∃ sel', findMajorityOverlapCandidates false Weight.one fuel crag overlaps
        (getGroundTruthAssignments Weight.one crag overlaps (fun _ => 0)) sel = .ok sel' ∧
      ∀ n ∈ crag.nodes, (sel'.node n = true ↔
        getGroundTruthAssignments Weight.one crag overlaps (fun _ => 0) n ≠ 0 ∧
        (crag.isLeafNode n = true ∨ StrictMajority overlaps
          (getGroundTruthAssignments Weight.one crag overlaps (fun _ => 0)) n) ∧
        ∀ a, crag.ProperDescendant n a → ¬ StrictMajority overlaps
          (getGroundTruthAssignments Weight.one crag overlaps (fun _ => 0)) a) := by
  generalize hgt : getGroundTruthAssignments Weight.one crag overlaps (fun _ => 0) = gt
  have hat : ∀ x ∈ crag.nodes, (overlaps x).at? (gt x) ≠ none := by
    intro x hx
    have ht : crag.type x ≠ NodeType.NoAssignmentNode := by
      rw [hslice x hx]; decide
    rw [← hgt, getGroundTruthAssignments_eq Weight.one crag overlaps x hx ht]
    exact (bestGtLabel_spec Weight.one (hwf x hx).1 (hwf x hx).2).1
  have hstop : ∀ x ∈ crag.nodes, (majorityStop Weight.one crag overlaps gt x = true ↔
      crag.isLeafNode x = true ∨ StrictMajority overlaps gt x) :=
    fun x hx => majorityStop_one_iff (hwf x hx).1 (hwf x hx).2 (hat x hx)
  obtain ⟨sel', hsel'⟩ := findMajorityOverlapCandidates_total false Weight.one fuel crag
    overlaps gt level hr hc hat sel
  refine ⟨sel', hsel', fun n hn => ?_⟩
  rw [findMajorityOverlapCandidates_selected false Weight.one fuel crag overlaps gt sel sel'
    hsel hsel' n]
  constructor
  · rintro ⟨⟨r, hroot, hv⟩, hs, h0⟩
    refine ⟨h0, (hstop n hn).1 hs, fun a ha hmaj => ?_⟩
    have hhalt := (hv.ancestor_of_root hu hroot.2.2.2 ha).1
    have : majorityStop Weight.one crag overlaps gt a = true :=
      (hstop a (ha.mem_nodes hc)).2 (Or.inr hmaj)
    simp [majorityHalt, this] at hhalt
  · rintro ⟨h0, hs, hanc⟩
    refine ⟨?_, (hstop n hn).2 hs, h0⟩
    obtain ⟨r, hrn, hroot, hv⟩ := Crag.exists_root_visits hr hc
      (majorityHalt false Weight.one crag overlaps gt) fuel n (Nat.le_add_left _ _) hn
      (by
        intro a ha
        cases hsa : majorityStop Weight.one crag overlaps gt a with
        | false => simp [majorityHalt, hsa]
        | true =>
          rcases (hstop a (ha.mem_nodes hc)).1 hsa with h1 | h1
          · rw [ha.not_leaf] at h1; cases h1
          · exact absurd h1 (hanc a ha))
    refine ⟨r, ⟨hrn, ?_, ?_, hroot⟩, hv⟩
    · rw [hslice r hrn]; decide
    · rw [hslice r hrn]; decide

theorem majority_selected_iff_witness :
    (forkCrag.UniqueParent ∧ forkCrag.Ranked rootLevel 2 ∧ forkCrag.ArcsClosed ∧
      (∀ n ∈ forkCrag.nodes, forkCrag.type n = NodeType.SliceNode) ∧
      (∀ n ∈ forkCrag.nodes, (forkOverlaps n).WellFormed ∧ forkOverlaps n ≠ []) ∧
      (∀ x, Selection.none.node x = false)) ∧
    ∃ sel', findMajorityOverlapCandidates false Weight.one 2 forkCrag forkOverlaps
        (getGroundTruthAssignments Weight.one forkCrag forkOverlaps (fun _ => 0))
        Selection.none = .ok sel' ∧
      ∀ n ∈ forkCrag.nodes, (sel'.node n = true ↔
        getGroundTruthAssignments Weight.one forkCrag forkOverlaps (fun _ => 0) n ≠ 0 ∧
        (forkCrag.isLeafNode n = true ∨ StrictMajority forkOverlaps
          (getGroundTruthAssignments Weight.one forkCrag forkOverlaps (fun _ => 0)) n) ∧
        ∀ a, forkCrag.ProperDescendant n a → ¬ StrictMajority forkOverlaps
          (getGroundTruthAssignments Weight.one forkCrag forkOverlaps (fun _ => 0)) a) :=
  ⟨⟨Crag.uniqueParent_of_nodup (by decide), by decide, by decide, by decide, by decide,
      fun _ => rfl⟩,
    majority_selected_iff 2 forkCrag forkOverlaps rootLevel
      (Crag.uniqueParent_of_nodup (by decide)) (by decide) (by decide) (by decide)
      (by decide) Selection.none (fun _ => rfl)⟩

/-! ## Strategy B: the selected candidates -/

theorem Crag.Concordant.of_ancestor {crag : Crag} {gt : CragNode → Int} {a p : CragNode}
    (ha : crag.Concordant gt a) (hp : crag.ProperDescendant p a) : crag.Concordant gt p := by
  have hpa : gt p = gt a := ha.2 p hp
  refine ⟨by rw [hpa]; exact ha.1, fun d hd => ?_⟩
  rw [hpa]
  exact ha.2 d (hd.trans hp)

theorem leafSet_of_mem_nodes {fuel : Nat} {crag : Crag} {gt : CragNode → Int}
    {level : CragNode → Nat} (hr : crag.Ranked level fuel) (hc : crag.ArcsClosed)
    {la : CragNode → List Int} (hla : allLeafAssignments fuel crag gt = .ok la)
    {x : CragNode} (hx : x ∈ crag.nodes) : crag.LeafSet gt x (la x) := by
  obtain ⟨r, hrn, hroot, hv⟩ := Crag.exists_root_visits hr hc (fun _ => false) fuel x
    (Nat.le_add_left _ _) hx (fun _ _ => rfl)
  exact allLeafAssignments_spec fuel crag gt level hr.1 la hla x r ⟨hrn, hroot⟩ hv.descendant

/-- C5: Strategy B with `fullBestEffort = false`, on a forest of slice nodes,
returns a selection in which a candidate `n` is selected if and only if `n` and
all of its descendants are assigned one and the same label other than
background, and `n` is a root or its parent together with the descendants of
the parent is not assigned one such label. -/
theorem concordant_selected_iff (fuel : Nat) (crag : Crag) (gt : CragNode → Int)
    (level : CragNode → Nat) (hu : crag.UniqueParent) (hr : crag.Ranked level fuel)
    (hc : crag.ArcsClosed) (hslice : ∀ n ∈ crag.nodes, crag.type n = NodeType.SliceNode)
    (sel : Selection) (hsel : ∀ x, sel.node x = false) :
    ∃ sel', findConcordantLeafNodeCandidates false fuel crag gt sel = .ok sel' ∧
      ∀ n ∈ crag.nodes, (sel'.node n = true ↔
        crag.Concordant gt n ∧
        (crag.isRootNode n = true ∨ ∀ p, n ∈ crag.inArcs p → ¬ crag.Concordant gt p)) := by
  obtain ⟨sel', hsel'⟩ := findConcordantLeafNodeCandidates_total false fuel crag gt level hr sel
  refine ⟨sel', hsel', fun n hn => ?_⟩
  obtain ⟨la, hla, _, hiff⟩ :=
    findConcordantLeafNodeCandidates_selected false fuel crag gt sel sel' hsel hsel'
  have htest : ∀ x ∈ crag.nodes, (singleTest crag la x = true ↔ crag.Concordant gt x) := by
    intro x hx
    rw [singleTest_iff (leafSet_of_mem_nodes hr hc hla hx), hslice x hx]
    simp
  rw [hiff n]
  constructor
  · rintro ⟨⟨r, hroot, hv⟩, hs⟩
    refine ⟨(htest n hn).1 hs, Or.inr (fun p hp hcp => ?_)⟩
    have hpd : crag.ProperDescendant n p := Crag.ProperDescendant.child hp
    have hhalt := (hv.ancestor_of_root hu hroot.2 hpd).1
    have : singleTest crag la p = true := (htest p (hpd.mem_nodes hc)).2 hcp
    simp [singleHalt, this] at hhalt
  · rintro ⟨hcn, hpar⟩
    refine ⟨?_, (htest n hn).2 hcn⟩
    obtain ⟨r, hrn, hroot, hv⟩ := Crag.exists_root_visits hr hc
      (singleHalt false crag la) fuel n (Nat.le_add_left _ _) hn
      (by
        intro a ha
        cases hsa : singleTest crag la a with
        | false => simp [singleHalt, hsa]
        | true =>
          exfalso
          have hca : crag.Concordant gt a := (htest a (ha.mem_nodes hc)).1 hsa
          rcases hpar with h1 | h1
          · rw [ha.not_root] at h1; cases h1
          · obtain ⟨p, hp, hpa⟩ := ha.parent
            rcases hpa with rfl | hpa
            · exact h1 p hp hca
            · exact h1 p hp (hca.of_ancestor hpa))
    exact ⟨r, ⟨hrn, hroot⟩, hv⟩

theorem concordant_selected_iff_witness :
    (forkCrag.UniqueParent ∧ forkCrag.Ranked rootLevel 2 ∧ forkCrag.ArcsClosed ∧
      (∀ n ∈ forkCrag.nodes, forkCrag.type n = NodeType.SliceNode) ∧
      (∀ x, Selection.none.node x = false)) ∧
    ∃ sel', findConcordantLeafNodeCandidates false 2 forkCrag forkAssignments
        Selection.none = .ok sel' ∧
      ∀ n ∈ forkCrag.nodes, (sel'.node n = true ↔
        forkCrag.Concordant forkAssignments n ∧
        (forkCrag.isRootNode n = true ∨
          ∀ p, n ∈ forkCrag.inArcs p → ¬ forkCrag.Concordant forkAssignments p)) :=
  ⟨⟨Crag.uniqueParent_of_nodup (by decide), by decide, by decide, by decide, fun _ => rfl⟩,
    concordant_selected_iff 2 forkCrag forkAssignments rootLevel
      (Crag.uniqueParent_of_nodup (by decide)) (by decide) (by decide) (by decide)
      Selection.none (fun _ => rfl)⟩

/-! ## Comparison of the two strategies -/

theorem Crag.Visits.mono_on {crag : Crag} (hc : crag.ArcsClosed) {halt halt' : CragNode → Bool}
    {r x : CragNode} (h : crag.Visits halt r x) (hr : r ∈ crag.nodes)
    (hh : ∀ m ∈ crag.nodes, crag.ProperDescendant x m → halt m = false → halt' m = false) :
    crag.Visits halt' r x := by
  induction h with
  | here => exact Crag.Visits.here _
  | down h1 hcr hv ih =>
    rename_i r' c' x'
    have hd : crag.ProperDescendant x' r' := by
      rcases hv.descendant with h2 | h2
      · rw [h2]; exact Crag.ProperDescendant.child hcr
      · exact Crag.ProperDescendant.step hcr h2
    exact Crag.Visits.down (hh _ hr hd h1) hcr (ih (hc _ (Crag.mem_inArcs.1 hcr)).1 hh)

theorem unselectChildren_spec (crag : Crag) :
    ∀ (fuel : Nat) (n : CragNode) (sel sel' : Selection),
      unselectChildren crag fuel n sel = .ok sel' →
      sel'.edge = sel.edge ∧
      (∀ x, crag.ProperDescendant x n → sel'.node x = false) ∧
      (∀ x, ¬ crag.ProperDescendant x n → sel'.node x = sel.node x) := by
  intro fuel
  induction fuel with
  | zero => intro n sel sel' h; simp [unselectChildren] at h
  | succ fuel ih =>
    intro n sel sel' h
    unfold unselectChildren at h
    obtain ⟨he, ha, hb⟩ := forEach_paint _
      (fun c x => x = c ∨ crag.ProperDescendant x c) (fun _ => false) (crag.inArcs n)
      (by
        intro c _ s s' hc
        obtain ⟨he, ha, hb⟩ := ih c _ s' hc
        refine ⟨he, ?_, ?_⟩
        · intro x hx
          by_cases hd : crag.ProperDescendant x c
          · exact ha x hd
          · rw [hb x hd]
            rcases hx with rfl | hx
            · simp [Selection.setNode, setAt]
            · exact absurd hx hd
        · intro x hx
          have hne : x ≠ c := fun h0 => hx (Or.inl h0)
          rw [hb x (fun h0 => hx (Or.inr h0))]
          simp [Selection.setNode, setAt, hne])
      sel sel' h
    refine ⟨he, fun x hx => ha x (Crag.ProperDescendant.iff_child.1 hx), fun x hx => hb x ?_⟩
    exact fun h0 => hx (Crag.ProperDescendant.iff_child.2 h0)

theorem unselectBelowSelected_spec (fuel : Nat) (crag : Crag) :
    ∀ (l : List CragNode) (sel sel' : Selection),
      forEach (fun s n =>
        if crag.type n ≠ NodeType.SliceNode then .ok s
        else if s.node n then unselectChildren crag fuel n s
        else .ok s) l sel = .ok sel' →
      sel'.edge = sel.edge ∧
      (∀ x, sel'.node x = true → sel.node x = true) ∧
      (∀ a ∈ l, crag.type a = NodeType.SliceNode → sel'.node a = true →
        ∀ d, crag.ProperDescendant d a → sel'.node d = false) := by
  intro l
  induction l with
  | nil =>
    intro sel sel' h
    simp only [forEach, Except.ok.injEq] at h
    subst h
    exact ⟨rfl, fun _ hx => hx, fun a ha => absurd ha (List.not_mem_nil _)⟩
  | cons n l ih =>
    intro sel sel' h
    simp only [forEach] at h
    split at h
    · rename_i s1 hb
      obtain ⟨he, hmono, hanti⟩ := ih s1 sel' h
      have hstep : s1.edge = sel.edge ∧ (∀ x, s1.node x = true → sel.node x = true) ∧
          (crag.type n = NodeType.SliceNode → s1.node n = true →
            ∀ d, crag.ProperDescendant d n → s1.node d = false) := by
        split_ifs at hb with h1 h2
        · simp only [Except.ok.injEq] at hb
          subst hb
          exact ⟨rfl, fun _ hx => hx, fun h3 => absurd h3 h1⟩
        · obtain ⟨he1, ha1, hb1⟩ := unselectChildren_spec crag fuel n sel s1 hb
          refine ⟨he1, ?_, fun _ _ d hd => ha1 d hd⟩
          intro x hx
          by_cases hd : crag.ProperDescendant x n
          · rw [ha1 x hd] at hx; cases hx
          · rw [← hb1 x hd]; exact hx
        · simp only [Except.ok.injEq] at hb
          subst hb
          exact ⟨rfl, fun _ hx => hx, fun _ h3 => absurd h3 h2⟩
      obtain ⟨he1, hmono1, hanti1⟩ := hstep
      refine ⟨he.trans he1, fun x hx => hmono1 x (hmono x hx), ?_⟩
      intro a ha hta hsa d hd
      rcases List.mem_cons.1 ha with rfl | ha
      · cases hsd : sel'.node d with
        | false => rfl
        | true =>
          have := hanti1 hta (hmono a hsa) d hd
          rw [hmono d hsd] at this
          cases this
      · exact hanti a ha hta hsa d hd
    · cases h

theorem selectAssignmentNodes_node (crag : Crag) (gt : CragNode → Int)
    (sel sel' : Selection) (h : selectAssignmentNodes crag gt sel = .ok sel') :
    sel'.edge = sel.edge ∧
      ∀ x, crag.type x ≠ NodeType.AssignmentNode → sel'.node x = sel.node x := by
  unfold selectAssignmentNodes at h
  refine forEach_invariant _
    (fun s => s.edge = sel.edge ∧
      ∀ x, crag.type x ≠ NodeType.AssignmentNode → s.node x = sel.node x)
    crag.nodes ?_ sel sel' ⟨rfl, fun _ _ => rfl⟩ h
  intro s n s' _ hP hb
  split_ifs at hb with h1
  · simp only [Except.ok.injEq] at hb
    subst hb
    exact hP
  · split at hb
    · cases hb
    · split_ifs at hb
      · simp only [Except.ok.injEq] at hb
        subst hb
        refine ⟨hP.1, fun x hx => ?_⟩
        have hne : x ≠ n := by
          rintro rfl
          exact hx (not_not.1 h1)
        rw [← hP.2 x hx]
        simp [Selection.setNode, setAt, hne]
      · simp only [Except.ok.injEq] at hb
        subst hb
        exact hP

theorem foldl_setEdge_node {α : Type} (f : Selection → α → Selection)
    (hf : ∀ s a, (f s a).node = s.node) (l : List α) :
    ∀ s : Selection, (l.foldl f s).node = s.node := by
  induction l with
  | nil => intro s; rfl
  | cons a l ih => intro s; simp only [List.foldl_cons]; rw [ih, hf]

theorem selectAssignmentEdges_node (crag : Crag) (gt : CragNode → Int) (sel : Selection) :
    (selectAssignmentEdges crag gt sel).node = sel.node := by
  unfold selectAssignmentEdges
  apply foldl_setEdge_node
  intro s e
  split_ifs <;> rfl

theorem selectAdjacencyEdges_node (crag : Crag) (gt : CragNode → Int) (sel : Selection) :
    (selectAdjacencyEdges crag gt sel).node = sel.node := by
  unfold selectAdjacencyEdges
  apply foldl_setEdge_node
  intro s e
  split_ifs <;> rfl

theorem explanationEdge_shape (crag : Crag) (volumes : CragVolumes) (gt : CragNode → Int)
    (overlaps : CragNode → Histogram) (n : CragNode) (direction : Int)
    (st st' : RepairState) (edge : CragEdge)
    (h : explanationEdge crag volumes gt overlaps n direction st edge = .ok st') :
    st'.sel = st.sel ∨
      ∃ removed, st'.sel = (crag.adjEdges removed).foldl (fun s e => s.setEdge e false)
        (st.sel.setNode removed false) := by
  unfold explanationEdge at h
  by_cases h1 : edge.type ≠ EdgeType.AssignmentEdge
  · rw [if_pos h1] at h
    simp only [Except.ok.injEq] at h
    subst h; exact Or.inl rfl
  rw [if_neg h1] at h
  by_cases h2 : (!st.sel.edge edge.id) = true
  · rw [if_pos h2] at h
    simp only [Except.ok.injEq] at h
    subst h; exact Or.inl rfl
  rw [if_neg h2] at h
  cases ho : Crag.oppositeNode n edge with
  | none =>
    rw [ho] at h
    simp only [Except.ok.injEq] at h
    subst h; exact Or.inl rfl
  | some opposite =>
    rw [ho] at h
    simp only at h
    by_cases h3 : crag.type opposite ≠ NodeType.AssignmentNode
    · rw [if_pos h3] at h; cases h
    rw [if_neg h3] at h
    by_cases h4 : ((volumes opposite).centerZ - (volumes n).centerZ) * direction < 0
    · rw [if_pos h4] at h
      simp only [Except.ok.injEq] at h
      subst h; exact Or.inl rfl
    rw [if_neg h4] at h
    by_cases h5 : st.assignmentSelected + 1 > 1
    · rw [if_pos h5] at h
      cases hp : st.previous with
      | none => rw [hp] at h; cases h
      | some previous =>
        rw [hp] at h
        simp only [Except.ok.injEq] at h
        subst h
        exact Or.inr ⟨_, rfl⟩
    · rw [if_neg h5] at h
      simp only [Except.ok.injEq] at h
      subst h; exact Or.inl rfl

theorem explanationEdge_node (crag : Crag) (volumes : CragVolumes) (gt : CragNode → Int)
    (overlaps : CragNode → Histogram) (n : CragNode) (direction : Int)
    (st st' : RepairState) (edge : CragEdge)
    (h : explanationEdge crag volumes gt overlaps n direction st edge = .ok st') :
    ∀ x, st'.sel.node x = true → st.sel.node x = true := by
  intro x hx
  rcases explanationEdge_shape crag volumes gt overlaps n direction st st' edge h with
    h1 | ⟨removed, h1⟩
  · rw [h1] at hx; exact hx
  · rw [h1, foldl_setEdge_node (fun s (e : CragEdge) => s.setEdge e false)
      (fun _ _ => rfl)] at hx
    simp only [Selection.setNode, setAt] at hx
    split_ifs at hx
    exact hx

theorem explanationConstraint_node (crag : Crag) (volumes : CragVolumes)
    (gt : CragNode → Int) (overlaps : CragNode → Histogram) (sel sel' : Selection)
    (h : explanationConstraint crag volumes gt overlaps sel = .ok sel') :
    ∀ x, sel'.node x = true → sel.node x = true := by
  unfold explanationConstraint at h
  refine forEach_invariant _ (fun s => ∀ x, s.node x = true → sel.node x = true)
    crag.nodes ?_ sel sel' (fun _ hx => hx) h
  intro s n s' _ hP hb
  split_ifs at hb with h1 h2
  · simp only [Except.ok.injEq] at hb; subst hb; exact hP
  · simp only [Except.ok.injEq] at hb; subst hb; exact hP
  · unfold explanationNode at hb
    split at hb
    · rename_i st hst
      simp only [Except.ok.injEq] at hb
      subst hb
      refine forEach_invariant _
        (fun (t : RepairState) => ∀ x, t.sel.node x = true → sel.node x = true)
        [1, -1] ?_ ⟨s, none, 0⟩ st hP hst
      intro t direction t' _ hPt hdir
      refine forEach_invariant _
        (fun (u : RepairState) => ∀ x, u.sel.node x = true → sel.node x = true)
        (crag.adjEdges n) ?_ ⟨t.sel, t.previous, 0⟩ t' hPt hdir
      intro u edge u' _ hPu hedge
      exact fun x hx => hPu x (explanationEdge_node crag volumes gt overlaps n direction
        u u' edge hedge x hx)
    · cases hb

theorem selectNoAssignmentEdges_node (crag : Crag) (volumes : CragVolumes)
    (sel sel' : Selection) (h : selectNoAssignmentEdges crag volumes sel = .ok sel') :
    sel'.node = sel.node := by
  unfold selectNoAssignmentEdges at h
  refine forEach_invariant _ (fun s => s.node = sel.node) crag.nodes ?_ sel sel' rfl h
  intro s n s' _ hP hb
  split_ifs at hb with h1 h2
  · simp only [Except.ok.injEq] at hb; subst hb; exact hP
  · simp only [Except.ok.injEq] at hb; subst hb; exact hP
  · refine forEach_invariant _ (fun (t : Selection) => t.node = sel.node) [1, -1] ?_ s s' hP hb
    intro t direction t' _ hPt hdir
    split at hdir
    · cases hdir
    · split_ifs at hdir
      · simp only [Except.ok.injEq] at hdir; subst hdir; exact hPt
      · unfold selectNoAssignmentEdgesOf at hdir
        refine forEach_invariant _ (fun (u : Selection) => u.node = sel.node)
          (crag.adjEdges n) ?_ t t' hPt hdir
        intro u edge u' _ hPu hedge
        split_ifs at hedge
        · simp only [Except.ok.injEq] at hedge; subst hedge; exact hPu
        · split at hedge
          · simp only [Except.ok.injEq] at hedge; subst hedge; exact hPu
          · split_ifs at hedge
            · simp only [Except.ok.injEq] at hedge; subst hedge; exact hPu
            · simp only [Except.ok.injEq] at hedge; subst hedge; exact hPu

theorem selectAssignments_antichain (fuel : Nat) (crag : Crag) (volumes : CragVolumes)
    (gt : CragNode → Int) (overlaps : CragNode → Histogram) (sel sel' : Selection)
    (h : selectAssignments fuel crag volumes gt overlaps sel = .ok sel')
    (a d : CragNode) (ha : a ∈ crag.nodes) (hta : crag.type a = NodeType.SliceNode)
    (htd : crag.type d = NodeType.SliceNode) (hd : crag.ProperDescendant d a)
    (hsa : sel'.node a = true) : sel'.node d = false := by
  unfold selectAssignments at h
  cases h1 : unselectBelowSelected fuel crag sel with
  | error e => rw [h1] at h; cases h
  | ok s1 =>
    rw [h1] at h
    simp only at h
    cases h2 : selectAssignmentNodes crag gt s1 with
    | error e => rw [h2] at h; cases h
    | ok s2 =>
      rw [h2] at h
      simp only at h
      cases h4 : explanationConstraint crag volumes gt overlaps
          (selectAssignmentEdges crag gt s2) with
      | error e => rw [h4] at h; cases h
      | ok s4 =>
        rw [h4] at h
        simp only at h
        have e5 := selectNoAssignmentEdges_node crag volumes s4 sel' h
        have m4 := explanationConstraint_node crag volumes gt overlaps _ s4 h4
        have e3 := selectAssignmentEdges_node crag gt s2
        have e2 := (selectAssignmentNodes_node crag gt s1 s2 h2).2
        obtain ⟨_, _, hanti⟩ := unselectBelowSelected_spec fuel crag crag.nodes sel s1 h1
        have hna : crag.type a ≠ NodeType.AssignmentNode := by rw [hta]; decide
        have hnd : crag.type d ≠ NodeType.AssignmentNode := by rw [htd]; decide
        have ha1 : s1.node a = true := by
          rw [← e2 a hna, ← e3]
          apply m4
          rw [← e5]
          exact hsa
        have hd1 : s1.node d = false := hanti a ha hta ha1 d hd
        cases hsd : sel'.node d with
        | false => rfl
        | true =>
          have : s1.node d = true := by
            rw [← e2 d hnd, ← e3]
            apply m4
            rw [← e5]
            exact hsd
          rw [hd1] at this
          cases this

/-- C1: in the selection state that the ground-truth constructor produces (the
candidate selector followed by `selectAssignments`), for either strategy and
either value of `fullBestEffort`, no selected slice node of the CRAG has a
proper descendant that is a selected slice node; hence no selected slice node
has a selected slice node among its proper ancestors in the CRAG or among its
proper descendants. -/
theorem bestEffort_antichain (opts : Options) (fuel : Nat) (crag : Crag)
    (volumes : CragVolumes) (groundTruth : GroundTruth) (sel : Selection)
    (h : bestEffort opts fuel crag volumes groundTruth = .ok sel)
    (a d : CragNode) (ha : a ∈ crag.nodes) (hta : crag.type a = NodeType.SliceNode)
    (htd : crag.type d = NodeType.SliceNode) (hd : crag.ProperDescendant d a)
    (hsa : sel.node a = true) : sel.node d = false := by
  unfold bestEffort at h
  simp only at h
  split at h
  · cases h
  · exact selectAssignments_antichain fuel crag volumes _ _ _ sel h a d ha hta htd hd hsa

theorem bestEffort_antichain_witness :
    (0 ∈ forkCrag.nodes ∧ forkCrag.type 0 = NodeType.SliceNode ∧
      forkCrag.type 1 = NodeType.SliceNode ∧ forkCrag.ProperDescendant 1 0 ∧
      (selectionOf (bestEffort ⟨true, Weight.one, false⟩ 2 forkCrag (fun _ => unitVolume)
        sevenTruth)).node 0 = true) ∧
    (selectionOf (bestEffort ⟨true, Weight.one, false⟩ 2 forkCrag (fun _ => unitVolume)
      sevenTruth)).node 1 = false :=
  ⟨⟨by decide, rfl, rfl, Crag.ProperDescendant.child (by decide), by decide⟩,
    bestEffort_antichain ⟨true, Weight.one, false⟩ 2 forkCrag (fun _ => unitVolume)
      sevenTruth _ rfl 0 1 (by decide) rfl rfl (Crag.ProperDescendant.child (by decide))
      (by decide)⟩

/-- C10 at a failing input: the assignment node `0` has the selected slice
nodes `1` and `2` as its only neighbours, assigned the labels `-1` and `5`; the
activation loop of `selectAssignments` selects it although the labels differ,
and so does the constructor on a ground truth with the labels `-1` and `5`. -/
theorem selectAssignmentNodes_sentinel :
    slicesSelected.node 0 = false ∧
    (∀ e ∈ linkCrag.adjEdges 0, ∃ o, Crag.oppositeNode 0 e = some o ∧
      linkCrag.type o = NodeType.SliceNode ∧ slicesSelected.node o = true) ∧
    sentinelAssignments 1 ≠ sentinelAssignments 2 ∧
    (∃ s, selectAssignmentNodes linkCrag sentinelAssignments slicesSelected = .ok s ∧
      s.node 0 = true) ∧
    bestEffortAssignments ⟨false, Weight.one, true⟩ linkCrag sentinelVolumes sentinelTruth 1
      ≠ bestEffortAssignments ⟨false, Weight.one, true⟩ linkCrag sentinelVolumes
        sentinelTruth 2 ∧
    (∃ s, bestEffort ⟨false, Weight.one, true⟩ 1 linkCrag sentinelVolumes sentinelTruth
      = .ok s ∧ s.node 0 = true) :=
  ⟨by decide, by decide, by decide, ⟨_, rfl, by decide⟩, by decide, ⟨_, rfl, by decide⟩⟩

/-! ## Activation of assignment nodes -/

theorem Crag.oppositeNode_of_mem_adjEdges {crag : Crag} {n : CragNode} {e : CragEdge}
    (he : e ∈ crag.adjEdges n) : ∃ o, Crag.oppositeNode n e = some o := by
  unfold Crag.adjEdges at he
  have h := (List.mem_filter.1 he).2
  simp only [decide_eq_true_eq] at h
  unfold Crag.oppositeNode
  rcases h with h | h
  · exact ⟨e.v, by rw [if_pos h.symm]⟩
  · by_cases hu : n = e.u
    · exact ⟨e.v, by rw [if_pos hu]⟩
    · exact ⟨e.u, by rw [if_neg hu, if_pos h.symm]⟩

theorem linksSelectedSlices_spec (crag : Crag) (gt : CragNode → Int) (sel : Selection)
    (n : CragNode) :
    ∀ (es : List CragEdge),
      (∀ e ∈ es, ∃ o, Crag.oppositeNode n e = some o ∧
        crag.type o = NodeType.SliceNode ∧ gt o ≠ -1) →
      ∀ sliceLabel : Int, ∃ b, linksSelectedSlices crag gt sel n es sliceLabel = .ok b ∧
        (b = true ↔
          (∀ e ∈ es, ∀ o, Crag.oppositeNode n e = some o →
            sel.node o = true ∧ (sliceLabel ≠ -1 → gt o = sliceLabel)) ∧
          (∀ e ∈ es, ∀ e' ∈ es, ∀ o o', Crag.oppositeNode n e = some o →
            Crag.oppositeNode n e' = some o' → gt o = gt o')) := by
  intro es
  induction es with
  | nil =>
    intro _ sliceLabel
    exact ⟨true, rfl, by simp⟩
  | cons e es ih =>
    intro hes sliceLabel
    obtain ⟨o, ho, hto, hgo⟩ := hes e (List.mem_cons_self _ _)
    have hes' : ∀ e' ∈ es, ∃ o, Crag.oppositeNode n e' = some o ∧
        crag.type o = NodeType.SliceNode ∧ gt o ≠ -1 :=
      fun e' he' => hes e' (List.mem_cons_of_mem _ he')
    unfold linksSelectedSlices
    rw [ho]
    simp only [hto, ne_eq, not_true_eq_false, if_false]
    cases hso : sel.node o with
    | false =>
      refine ⟨false, by simp, ?_⟩
      simp only [Bool.false_eq_true, false_iff, not_and]
      intro hall
      have := (hall e (List.mem_cons_self _ _) o ho).1
      rw [hso] at this
      cases this
    | true =>
      simp only [Bool.not_true, Bool.false_eq_true, if_false]
      by_cases hs : sliceLabel = -1
      · rw [if_pos hs]
        obtain ⟨b, hb, hiff⟩ := ih hes' (gt o)
        refine ⟨b, hb, ?_⟩
        rw [hiff]
        constructor
        · rintro ⟨h1, h2⟩
          have hlab : ∀ e' ∈ e :: es, ∀ o', Crag.oppositeNode n e' = some o' →
              gt o' = gt o := by
            intro e' he' o' ho'
            rcases List.mem_cons.1 he' with rfl | he'
            · rw [ho] at ho'
              simp only [Option.some.injEq] at ho'
              rw [ho']
            · exact (h1 e' he' o' ho').2 hgo
          refine ⟨?_, ?_⟩
          · intro e' he' o' ho'
            refine ⟨?_, fun hne => absurd hs hne⟩
            rcases List.mem_cons.1 he' with rfl | he'
            · rw [ho] at ho'
              simp only [Option.some.injEq] at ho'
              rw [← ho']; exact hso
            · exact (h1 e' he' o' ho').1
          · intro e1 he1 e2 he2 o1 o2 ho1 ho2
            rw [hlab e1 he1 o1 ho1, hlab e2 he2 o2 ho2]
        · rintro ⟨h1, h2⟩
          refine ⟨?_, ?_⟩
          · intro e' he' o' ho'
            exact ⟨(h1 e' (List.mem_cons_of_mem _ he') o' ho').1, fun _ =>
              h2 e' (List.mem_cons_of_mem _ he') e (List.mem_cons_self _ _) o' o ho' ho⟩
          · intro e1 he1 e2 he2 o1 o2 ho1 ho2
            exact h2 e1 (List.mem_cons_of_mem _ he1) e2 (List.mem_cons_of_mem _ he2) o1 o2
              ho1 ho2
      · rw [if_neg hs]
        by_cases hl : sliceLabel = gt o
        · rw [if_neg (not_not.2 hl)]
          obtain ⟨b, hb, hiff⟩ := ih hes' sliceLabel
          refine ⟨b, hb, ?_⟩
          rw [hiff]
          constructor
          · rintro ⟨h1, h2⟩
            have hall : ∀ e' ∈ e :: es, ∀ o', Crag.oppositeNode n e' = some o' →
                sel.node o' = true ∧ (sliceLabel ≠ -1 → gt o' = sliceLabel) := by
              intro e' he' o' ho'
              rcases List.mem_cons.1 he' with rfl | he'
              · rw [ho] at ho'
                simp only [Option.some.injEq] at ho'
                rw [← ho']
                exact ⟨hso, fun _ => hl.symm⟩
              · exact h1 e' he' o' ho'
            refine ⟨hall, ?_⟩
            intro e1 he1 e2 he2 o1 o2 ho1 ho2
            rw [(hall e1 he1 o1 ho1).2 hs, (hall e2 he2 o2 ho2).2 hs]
          · rintro ⟨h1, h2⟩
            exact ⟨fun e' he' o' ho' => h1 e' (List.mem_cons_of_mem _ he') o' ho',
              fun e1 he1 e2 he2 o1 o2 ho1 ho2 =>
                h2 e1 (List.mem_cons_of_mem _ he1) e2 (List.mem_cons_of_mem _ he2) o1 o2
                  ho1 ho2⟩
        · rw [if_pos hl]
          refine ⟨false, rfl, ?_⟩
          simp only [Bool.false_eq_true, false_iff, not_and]
          intro hall
          exact absurd ((hall e (List.mem_cons_self _ _) o ho).2 hs).symm hl

/-- When no neighbour of an assignment node carries the label `-1`, with which
the loop marks that it has not seen a neighbour yet, the activation loop of
`selectAssignments` selects a so far unselected assignment node if and only if
all its neighbours are selected and carry the same label. -/
theorem selectAssignmentNodes_spec (crag : Crag) (gt : CragNode → Int) (sel : Selection)
    (hnd : crag.nodes.Nodup)
    (hnb : ∀ n ∈ crag.nodes, crag.type n = NodeType.AssignmentNode →
      ∀ e ∈ crag.adjEdges n, ∀ o, Crag.oppositeNode n e = some o →
        crag.type o = NodeType.SliceNode ∧ gt o ≠ -1) :
    ∃ sel', selectAssignmentNodes crag gt sel = .ok sel' ∧
      ∀ n ∈ crag.nodes, crag.type n = NodeType.AssignmentNode → sel.node n = false →
        (sel'.node n = true ↔ crag.LinksSelected gt sel n) := by
  unfold selectAssignmentNodes
  suffices hloop : ∀ (l : List CragNode), l.Nodup → (∀ n ∈ l, n ∈ crag.nodes) →
      ∀ s : Selection, (∀ x, crag.type x ≠ NodeType.AssignmentNode → s.node x = sel.node x) →
      ∃ s', forEach (fun s n =>
          if crag.type n ≠ NodeType.AssignmentNode then .ok s
          else
            match linksSelectedSlices crag gt s n (crag.adjEdges n) (-1) with
            | .error e => .error e
            | .ok selectAssignmentNode =>
              if selectAssignmentNode then .ok (s.setNode n true) else .ok s) l s = .ok s' ∧
        (∀ x, crag.type x ≠ NodeType.AssignmentNode → s'.node x = sel.node x) ∧
        (∀ x, x ∉ l → s'.node x = s.node x) ∧
        (∀ n ∈ l, crag.type n = NodeType.AssignmentNode →
          (s'.node n = true ↔ s.node n = true ∨ crag.LinksSelected gt sel n)) by
    obtain ⟨s', h1, _, _, h4⟩ := hloop crag.nodes hnd (fun _ h => h) sel (fun _ _ => rfl)
    refine ⟨s', h1, fun n hn ht hs => ?_⟩
    rw [h4 n hn ht, hs]
    simp
  intro l
  induction l with
  | nil =>
    intro _ _ s hI
    exact ⟨s, rfl, hI, fun _ _ => rfl, fun n hn => absurd hn (List.not_mem_nil _)⟩
  | cons n l ih =>
    intro hnd hmem s hI
    rw [List.nodup_cons] at hnd
    have hstep : ∃ s1, (if crag.type n ≠ NodeType.AssignmentNode then Except.ok s
          else
            match linksSelectedSlices crag gt s n (crag.adjEdges n) (-1) with
            | .error e => .error e
            | .ok selectAssignmentNode =>
              if selectAssignmentNode then .ok (s.setNode n true) else .ok s) = .ok s1 ∧
        (∀ x, x ≠ n → s1.node x = s.node x) ∧
        (crag.type n ≠ NodeType.AssignmentNode → s1.node n = s.node n) ∧
        (crag.type n = NodeType.AssignmentNode →
          (s1.node n = true ↔ s.node n = true ∨ crag.LinksSelected gt sel n)) := by
      by_cases ht : crag.type n ≠ NodeType.AssignmentNode
      · rw [if_pos ht]
        exact ⟨s, rfl, fun _ _ => rfl, fun _ => rfl, fun h => absurd h ht⟩
      · rw [if_neg ht]
        have ht' : crag.type n = NodeType.AssignmentNode := not_not.1 ht
        have hnn := hnb n (hmem n (List.mem_cons_self _ _)) ht'
        obtain ⟨b, hb, hiff⟩ := linksSelectedSlices_spec crag gt s n (crag.adjEdges n)
          (by
            intro e he
            obtain ⟨o, ho⟩ := Crag.oppositeNode_of_mem_adjEdges he
            exact ⟨o, ho, hnn e he o ho⟩)
          (-1)
        have hlinks : b = true ↔ crag.LinksSelected gt sel n := by
          rw [hiff]
          unfold Crag.LinksSelected
          constructor
          · rintro ⟨h1, h2⟩
            refine ⟨fun e he o ho => ?_, h2⟩
            rw [← hI o (by rw [(hnn e he o ho).1]; decide)]
            exact (h1 e he o ho).1
          · rintro ⟨h1, h2⟩
            refine ⟨fun e he o ho => ⟨?_, fun hne => absurd rfl hne⟩, h2⟩
            rw [hI o (by rw [(hnn e he o ho).1]; decide)]
            exact h1 e he o ho
        rw [hb]
        simp only
        cases b with
        | true =>
          refine ⟨s.setNode n true, rfl, ?_, fun h => absurd ht' h, fun _ => ?_⟩
          · intro x hx
            simp [Selection.setNode, setAt, hx]
          · simp only [Selection.setNode, setAt, if_true, true_iff]
            exact Or.inr (hlinks.1 rfl)
        | false =>
          refine ⟨s, by simp, fun _ _ => rfl, fun _ => rfl, fun _ => ?_⟩
          rw [← hlinks]
          simp
    obtain ⟨s1, hs1, hne1, hty1, hiff1⟩ := hstep
    have hI1 : ∀ x, crag.type x ≠ NodeType.AssignmentNode → s1.node x = sel.node x := by
      intro x hx
      by_cases hxn : x = n
      · subst hxn
        rw [hty1 hx]; exact hI x hx
      · rw [hne1 x hxn]; exact hI x hx
    obtain ⟨s', hs', hI', hout, hin⟩ :=
      ih hnd.2 (fun m hm => hmem m (List.mem_cons_of_mem _ hm)) s1 hI1
    refine ⟨s', ?_, hI', ?_, ?_⟩
    · simp only [forEach]
      rw [hs1]
      exact hs'
    · intro x hx
      have hxn : x ≠ n := fun h => hx (h ▸ List.mem_cons_self _ _)
      rw [hout x (fun h => hx (List.mem_cons_of_mem _ h)), hne1 x hxn]
    · intro m hm ht
      rcases List.mem_cons.1 hm with rfl | hm
      · rw [hout m hnd.1]
        exact hiff1 ht
      · have hmn : m ≠ n := fun h => hnd.1 (h ▸ hm)
        rw [hin m hm ht, hne1 m hmn]

/-! ## The initial state of the constructor -/

theorem clearSelection_node (crag : Crag) (x : CragNode) :
    (clearSelection crag).node x = false := by
  unfold clearSelection
  rw [foldl_setEdge_node (fun s (e : CragEdge) => s.setEdge e false) (fun _ _ => rfl)]
  suffices h : ∀ (l : List CragNode) (s : Selection), s.node x = false →
      (l.foldl (fun s n => s.setNode n false) s).node x = false from h _ _ rfl
  intro l
  induction l with
  | nil => intro s hs; exact hs
  | cons n l ih =>
    intro s hs
    simp only [List.foldl_cons]
    apply ih
    simp only [Selection.setNode, setAt]
    split_ifs
    · rfl
    · exact hs

theorem clearSelection_edge (crag : Crag) (i : Nat) :
    (clearSelection crag).edge i = false := by
  unfold clearSelection
  suffices h : ∀ (l : List CragEdge) (s : Selection), s.edge i = false →
      (l.foldl (fun s e => s.setEdge e false) s).edge i = false by
    apply h
    suffices h2 : ∀ (l : List CragNode) (s : Selection),
        (l.foldl (fun s n => s.setNode n false) s).edge = s.edge by
      rw [h2]
    intro l
    induction l with
    | nil => intro s; rfl
    | cons n l ih => intro s; simp only [List.foldl_cons]; rw [ih]; rfl
  intro l
  induction l with
  | nil => intro s hs; exact hs
  | cons e l ih =>
    intro s hs
    simp only [List.foldl_cons]
    apply ih
    simp only [Selection.setEdge, setAt]
    split_ifs
    · rfl
    · exact hs

/-! ## Loops that select edges -/

theorem Crag.eq_of_id_eq {crag : Crag} (hid : crag.EdgeIdsDistinct) {e e' : CragEdge}
    (he : e ∈ crag.edges) (he' : e' ∈ crag.edges) (h : e.id = e'.id) : e = e' :=
  List.inj_on_of_nodup_map hid he he' h

theorem selectAdjacencyEdges_spec (crag : Crag) (gt : CragNode → Int) (sel : Selection) :
    (selectAdjacencyEdges crag gt sel).node = sel.node ∧
    ∀ i, (selectAdjacencyEdges crag gt sel).edge i = true ↔
      sel.edge i = true ∨ ∃ e ∈ crag.edges, e.id = i ∧
        (e.type ≠ EdgeType.AssignmentEdge ∧ sel.node e.u = true ∧ sel.node e.v = true ∧
          gt e.u ≠ 0 ∧ gt e.u = gt e.v) := by
  unfold selectAdjacencyEdges
  suffices h : ∀ (l : List CragEdge) (s : Selection), s.node = sel.node →
      (l.foldl (fun s e =>
        if e.type = EdgeType.AssignmentEdge then s
        else if !s.node e.u || !s.node e.v then s
        else if gt e.u ≠ 0 ∧ gt e.u = gt e.v then s.setEdge e true
        else s) s).node = sel.node ∧
      ∀ i, (l.foldl (fun s e =>
        if e.type = EdgeType.AssignmentEdge then s
        else if !s.node e.u || !s.node e.v then s
        else if gt e.u ≠ 0 ∧ gt e.u = gt e.v then s.setEdge e true
        else s) s).edge i = true ↔
        s.edge i = true ∨ ∃ e ∈ l, e.id = i ∧
          (e.type ≠ EdgeType.AssignmentEdge ∧ sel.node e.u = true ∧ sel.node e.v = true ∧
            gt e.u ≠ 0 ∧ gt e.u = gt e.v) from h _ _ rfl
  intro l
  induction l with
  | nil => intro s hs; exact ⟨hs, fun i => by simp⟩
  | cons a l ih =>
    intro s hs
    simp only [List.foldl_cons]
    by_cases hP : a.type ≠ EdgeType.AssignmentEdge ∧ sel.node a.u = true ∧
        sel.node a.v = true ∧ gt a.u ≠ 0 ∧ gt a.u = gt a.v
    · have hstep : (if a.type = EdgeType.AssignmentEdge then s
          else if (!s.node a.u || !s.node a.v) = true then s
          else if gt a.u ≠ 0 ∧ gt a.u = gt a.v then s.setEdge a true else s)
          = s.setEdge a true := by
        rw [if_neg hP.1, hs]
        simp [hP.2.1, hP.2.2.1, hP.2.2.2.1, hP.2.2.2.2.symm]
      rw [hstep]
      obtain ⟨h1, h2⟩ := ih (s.setEdge a true) hs
      refine ⟨h1, fun i => ?_⟩
      rw [h2 i]
      simp only [Selection.setEdge, setAt, List.mem_cons, exists_eq_or_imp]
      by_cases hi : i = a.id
      · subst hi
        simp only [if_true, true_or, true_iff]
        exact Or.inr (Or.inl ⟨trivial, hP⟩)
      · have hi' : ¬ a.id = i := fun h => hi h.symm
        simp only [if_neg hi, hi', false_and, false_or]
    · have hstep : (if a.type = EdgeType.AssignmentEdge then s
          else if (!s.node a.u || !s.node a.v) = true then s
          else if gt a.u ≠ 0 ∧ gt a.u = gt a.v then s.setEdge a true else s) = s := by
        split_ifs with h1 h2 h3
        · rfl
        · rfl
        · exfalso
          rw [hs] at h2
          simp only [Bool.or_eq_true, Bool.not_eq_true', not_or, Bool.not_eq_false] at h2
          exact hP ⟨h1, h2.1, h2.2, h3⟩
        · rfl
      rw [hstep]
      obtain ⟨h1, h2⟩ := ih s hs
      refine ⟨h1, fun i => ?_⟩
      rw [h2 i]
      simp only [List.mem_cons, exists_eq_or_imp, hP, and_false, false_or]

theorem selectAssignmentEdges_spec (crag : Crag) (gt : CragNode → Int) (sel : Selection) :
    (selectAssignmentEdges crag gt sel).node = sel.node ∧
    ∀ i, (selectAssignmentEdges crag gt sel).edge i = true ↔
      sel.edge i = true ∨ ∃ e ∈ crag.edges, e.id = i ∧
        (e.type = EdgeType.AssignmentEdge ∧ sel.node e.u = true ∧ sel.node e.v = true ∧
          gt e.u ≠ 0 ∧ gt e.u = gt e.v) := by
  unfold selectAssignmentEdges
  suffices h : ∀ (l : List CragEdge) (s : Selection), s.node = sel.node →
      (l.foldl (fun s e =>
        if e.type ≠ EdgeType.AssignmentEdge then s
        else if !s.node e.u || !s.node e.v then s
        else if gt e.u ≠ 0 ∧ gt e.u = gt e.v then s.setEdge e true
        else s) s).node = sel.node ∧
      ∀ i, (l.foldl (fun s e =>
        if e.type ≠ EdgeType.AssignmentEdge then s
        else if !s.node e.u || !s.node e.v then s
        else if gt e.u ≠ 0 ∧ gt e.u = gt e.v then s.setEdge e true
        else s) s).edge i = true ↔
        s.edge i = true ∨ ∃ e ∈ l, e.id = i ∧
          (e.type = EdgeType.AssignmentEdge ∧ sel.node e.u = true ∧ sel.node e.v = true ∧
            gt e.u ≠ 0 ∧ gt e.u = gt e.v) from h _ _ rfl
  intro l
  induction l with
  | nil => intro s hs; exact ⟨hs, fun i => by simp⟩
  | cons a l ih =>
    intro s hs
    simp only [List.foldl_cons]
    by_cases hP : a.type = EdgeType.AssignmentEdge ∧ sel.node a.u = true ∧
        sel.node a.v = true ∧ gt a.u ≠ 0 ∧ gt a.u = gt a.v
    · have hstep : (if a.type ≠ EdgeType.AssignmentEdge then s
          else if (!s.node a.u || !s.node a.v) = true then s
          else if gt a.u ≠ 0 ∧ gt a.u = gt a.v then s.setEdge a true else s)
          = s.setEdge a true := by
        rw [if_neg (not_not.2 hP.1), hs]
        simp [hP.2.1, hP.2.2.1, hP.2.2.2.1, hP.2.2.2.2.symm]
      rw [hstep]
      obtain ⟨h1, h2⟩ := ih (s.setEdge a true) hs
      refine ⟨h1, fun i => ?_⟩
      rw [h2 i]
      simp only [Selection.setEdge, setAt, List.mem_cons, exists_eq_or_imp]
      by_cases hi : i = a.id
      · subst hi
        simp only [if_true, true_or, true_iff]
        exact Or.inr (Or.inl ⟨trivial, hP⟩)
      · have hi' : ¬ a.id = i := fun h => hi h.symm
        simp only [if_neg hi, hi', false_and, false_or]
    · have hstep : (if a.type ≠ EdgeType.AssignmentEdge then s
          else if (!s.node a.u || !s.node a.v) = true then s
          else if gt a.u ≠ 0 ∧ gt a.u = gt a.v then s.setEdge a true else s) = s := by
        split_ifs with h1 h2 h3
        · rfl
        · rfl
        · exfalso
          rw [hs] at h2
          simp only [Bool.or_eq_true, Bool.not_eq_true', not_or, Bool.not_eq_false] at h2
          exact hP ⟨not_not.1 h1, h2.1, h2.2, h3⟩
        · rfl
      rw [hstep]
      obtain ⟨h1, h2⟩ := ih s hs
      refine ⟨h1, fun i => ?_⟩
      rw [h2 i]
      simp only [List.mem_cons, exists_eq_or_imp, hP, and_false, false_or]

theorem selectCandidates_edge (opts : Options) (fuel : Nat) (crag : Crag)
    (overlaps : CragNode → Histogram) (gt : CragNode → Int) (sel sel' : Selection)
    (hsel : ∀ x, sel.node x = false)
    (h : selectCandidates opts fuel crag overlaps gt sel = .ok sel') :
    sel'.edge = sel.edge := by
  unfold selectCandidates at h
  split_ifs at h
  · exact (findMajorityOverlapCandidates_spec _ _ fuel crag overlaps gt sel sel' h).1
  · obtain ⟨_, _, he, _⟩ :=
      findConcordantLeafNodeCandidates_selected _ fuel crag gt sel sel' hsel h
    exact he

/-! ## The stages of the constructor -/

theorem bestEffort_stages (opts : Options) (fuel : Nat) (crag : Crag)
    (volumes : CragVolumes) (groundTruth : GroundTruth) (sel : Selection)
    (h : bestEffort opts fuel crag volumes groundTruth = .ok sel) :
    ∃ s s1 s2 s4,
      selectCandidates opts fuel crag (bestEffortOverlaps crag volumes groundTruth)
        (bestEffortAssignments opts crag volumes groundTruth) (clearSelection crag) = .ok s ∧
      unselectBelowSelected fuel crag
        (selectAdjacencyEdges crag (bestEffortAssignments opts crag volumes groundTruth) s)
        = .ok s1 ∧
      selectAssignmentNodes crag (bestEffortAssignments opts crag volumes groundTruth) s1
        = .ok s2 ∧
      explanationConstraint crag volumes (bestEffortAssignments opts crag volumes groundTruth)
        (bestEffortOverlaps crag volumes groundTruth)
        (selectAssignmentEdges crag (bestEffortAssignments opts crag volumes groundTruth) s2)
        = .ok s4 ∧
      selectNoAssignmentEdges crag volumes s4 = .ok sel := by
  unfold bestEffort at h
  simp only at h
  cases h0 : selectCandidates opts fuel crag (bestEffortOverlaps crag volumes groundTruth)
      (bestEffortAssignments opts crag volumes groundTruth) (clearSelection crag) with
  | error e => rw [h0] at h; cases h
  | ok s =>
    rw [h0] at h
    simp only at h
    unfold selectAssignments at h
    cases h1 : unselectBelowSelected fuel crag
        (selectAdjacencyEdges crag (bestEffortAssignments opts crag volumes groundTruth) s) with
    | error e => rw [h1] at h; cases h
    | ok s1 =>
      rw [h1] at h
      simp only at h
      cases h2 : selectAssignmentNodes crag
          (bestEffortAssignments opts crag volumes groundTruth) s1 with
      | error e => rw [h2] at h; cases h
      | ok s2 =>
        rw [h2] at h
        simp only at h
        cases h4 : explanationConstraint crag volumes
            (bestEffortAssignments opts crag volumes groundTruth)
            (bestEffortOverlaps crag volumes groundTruth)
            (selectAssignmentEdges crag
              (bestEffortAssignments opts crag volumes groundTruth) s2) with
        | error e => rw [h4] at h; cases h
        | ok s4 =>
          rw [h4] at h
          simp only at h
          exact ⟨s, s1, s2, s4, rfl, h1, h2, h4, h⟩

/-- C20: in the constructor, right after the edge loop that follows the
candidate selector, every lateral edge `e = (u, v)` that is not an assignment
edge is selected if and only if the selector has selected both `u` and `v`,
`gtAssignments[u] != 0` and `gtAssignments[u] == gtAssignments[v]`. -/
theorem adjacency_edge_selected_iff (opts : Options) (fuel : Nat) (crag : Crag)
    (overlaps : CragNode → Histogram) (gt : CragNode → Int) (hid : crag.EdgeIdsDistinct)
    (s : Selection)
    (h : selectCandidates opts fuel crag overlaps gt (clearSelection crag) = .ok s)
    (e : CragEdge) (he : e ∈ crag.edges) (ht : e.type ≠ EdgeType.AssignmentEdge) :
    (selectAdjacencyEdges crag gt s).edge e.id = true ↔
      s.node e.u = true ∧ s.node e.v = true ∧ gt e.u ≠ 0 ∧ gt e.u = gt e.v := by
  have hedge : s.edge e.id = false := by
    rw [selectCandidates_edge opts fuel crag overlaps gt _ s (clearSelection_node crag) h]
    exact clearSelection_edge crag e.id
  rw [(selectAdjacencyEdges_spec crag gt s).2 e.id, hedge]
  constructor
  · rintro (h0 | ⟨e', he', hid', hP⟩)
    · cases h0
    · rw [Crag.eq_of_id_eq hid he he' hid'.symm]
      exact hP.2
  · intro hP
    exact Or.inr ⟨e, he, rfl, ht, hP⟩

theorem adjacency_edge_selected_iff_witness :
    (pairCrag.EdgeIdsDistinct ∧
      (⟨0, 0, 1, EdgeType.AdjacencyEdge⟩ : CragEdge) ∈ pairCrag.edges ∧
      (⟨0, 0, 1, EdgeType.AdjacencyEdge⟩ : CragEdge).type ≠ EdgeType.AssignmentEdge) ∧
    ((selectAdjacencyEdges pairCrag (fun _ => 7)
        (selectionOf (selectCandidates plainOptions 1 pairCrag (fun _ => [(7, 1)])
          (fun _ => 7) (clearSelection pairCrag)))).edge 0 = true ↔
      (selectionOf (selectCandidates plainOptions 1 pairCrag (fun _ => [(7, 1)])
          (fun _ => 7) (clearSelection pairCrag))).node 0 = true ∧
      (selectionOf (selectCandidates plainOptions 1 pairCrag (fun _ => [(7, 1)])
          (fun _ => 7) (clearSelection pairCrag))).node 1 = true ∧
      (7 : Int) ≠ 0 ∧ (7 : Int) = 7) :=
  ⟨by decide, adjacency_edge_selected_iff plainOptions 1 pairCrag (fun _ => [(7, 1)])
    (fun _ => 7) (by decide) _ rfl ⟨0, 0, 1, EdgeType.AdjacencyEdge⟩ (by decide) (by decide)⟩

/-- C11: in the constructor, right after the loop of `selectAssignments` over
the assignment edges and before the conflict repair, every assignment edge
`e = (u, v)` is selected if and only if `u` and `v` are both selected at that
point, `gtAssignments[u] != 0` and `gtAssignments[u] == gtAssignments[v]`. -/
theorem assignment_edge_selected_iff (opts : Options) (fuel : Nat) (crag : Crag)
    (overlaps : CragNode → Histogram) (gt : CragNode → Int) (hid : crag.EdgeIdsDistinct)
    (s s1 s2 : Selection)
    (h0 : selectCandidates opts fuel crag overlaps gt (clearSelection crag) = .ok s)
    (h1 : unselectBelowSelected fuel crag (selectAdjacencyEdges crag gt s) = .ok s1)
    (h2 : selectAssignmentNodes crag gt s1 = .ok s2)
    (e : CragEdge) (he : e ∈ crag.edges) (ht : e.type = EdgeType.AssignmentEdge) :
    (selectAssignmentEdges crag gt s2).edge e.id = true ↔
      (selectAssignmentEdges crag gt s2).node e.u = true ∧
      (selectAssignmentEdges crag gt s2).node e.v = true ∧
      gt e.u ≠ 0 ∧ gt e.u = gt e.v := by
  have hedge0 : s.edge e.id = false := by
    rw [selectCandidates_edge opts fuel crag overlaps gt _ s (clearSelection_node crag) h0]
    exact clearSelection_edge crag e.id
  have hedge2 : s2.edge e.id = false := by
    rw [(selectAssignmentNodes_node crag gt s1 s2 h2).1,
      (unselectBelowSelected_spec fuel crag crag.nodes _ s1 h1).1]
    cases hc : (selectAdjacencyEdges crag gt s).edge e.id with
    | false => rfl
    | true =>
      rcases ((selectAdjacencyEdges_spec crag gt s).2 e.id).1 hc with h3 | ⟨e', he', hid', hP⟩
      · rw [hedge0] at h3; cases h3
      · rw [← Crag.eq_of_id_eq hid he he' hid'.symm] at hP
        exact absurd ht hP.1
  obtain ⟨hnode, hspec⟩ := selectAssignmentEdges_spec crag gt s2
  rw [hspec e.id, hedge2, hnode]
  constructor
  · rintro (h3 | ⟨e', he', hid', hP⟩)
    · cases h3
    · rw [Crag.eq_of_id_eq hid he he' hid'.symm]
      exact hP.2
  · intro hP
    exact Or.inr ⟨e, he, rfl, ht, hP⟩

theorem assignment_edge_selected_iff_witness :
    (linkCrag.EdgeIdsDistinct ∧
      (⟨0, 0, 1, EdgeType.AssignmentEdge⟩ : CragEdge) ∈ linkCrag.edges ∧
      (⟨0, 0, 1, EdgeType.AssignmentEdge⟩ : CragEdge).type = EdgeType.AssignmentEdge) ∧
    ((selectAssignmentEdges linkCrag (fun _ => 5) linkStage2).edge 0 = true ↔
      (selectAssignmentEdges linkCrag (fun _ => 5) linkStage2).node 0 = true ∧
      (selectAssignmentEdges linkCrag (fun _ => 5) linkStage2).node 1 = true ∧
      (5 : Int) ≠ 0 ∧ (5 : Int) = 5) :=
  ⟨by decide, assignment_edge_selected_iff plainOptions 1 linkCrag (fun _ => [(5, 1)])
    (fun _ => 5) (by decide) linkStage0 linkStage1 linkStage2 rfl rfl rfl
    ⟨0, 0, 1, EdgeType.AssignmentEdge⟩ (by decide) rfl⟩

/-! ## Lookups of missing labels -/

theorem Histogram.get_of_not_mem_keys {h : Histogram} {k : Int} (hk : k ∉ h.keys) :
    h.get k = 0 := by
  unfold Histogram.get
  cases hc : h.at? k with
  | none => rfl
  | some c => exact absurd (Histogram.mem_keys_of_at? (by rw [hc]; simp)) hk

/-- C15 at a failing input: a single slice node whose mask holds no voxel has
an empty histogram and is assigned background; the read `overlaps[n][l]` of
`explanationConstraint` yields zero for the missing label, but Strategy A looks
the label up with `at`, and the constructor ends with the failure of that
lookup instead of a selection. -/
theorem majority_lookup_fails :
    bestEffortOverlaps singleCrag (fun _ => emptyVolume) sevenTruth 0 = [] ∧
    bestEffortAssignments majorityOptions singleCrag (fun _ => emptyVolume) sevenTruth 0 = 0 ∧
    (bestEffortOverlaps singleCrag (fun _ => emptyVolume) sevenTruth 0).get 0 = 0 ∧
    labelMajorityOverlapCandidate false Weight.one singleCrag
      (bestEffortOverlaps singleCrag (fun _ => emptyVolume) sevenTruth)
      (bestEffortAssignments majorityOptions singleCrag (fun _ => emptyVolume) sevenTruth)
      1 0 (clearSelection singleCrag) = .error Failure.outOfRange ∧
    bestEffort majorityOptions 1 singleCrag (fun _ => emptyVolume) sevenTruth
      = .error Failure.outOfRange :=
  ⟨by decide, by decide, by decide, rfl, rfl⟩

/-! ## Regions inside a single ground-truth label -/

theorem constHistogram_increment (l k : Int) (hk : 0 ≤ k) (hb : k < 2147483647) :
    (constHistogram l k).increment l = constHistogram l (k + 1) := by
  unfold constHistogram
  have h1 : k + 1 ≠ 0 := by omega
  have hw : wrapInt (k + 1) = k + 1 := wrapInt_of_lt (by omega) (by omega)
  by_cases h0 : k = 0
  · simp [h0, Histogram.increment]
  · simp [h0, h1, Histogram.increment, hw]

theorem constHistogram_foldl {α : Type} (l : Int) (f : Histogram → α → Histogram)
    (c : α → Int) (hc : ∀ a, 0 ≤ c a)
    (hf : ∀ k a, 0 ≤ k → k + c a < 2147483648 →
      f (constHistogram l k) a = constHistogram l (k + c a))
    (as : List α) :
    ∀ k, 0 ≤ k → k + (as.map c).sum < 2147483648 →
      as.foldl f (constHistogram l k) = constHistogram l (k + (as.map c).sum) := by
  induction as with
  | nil => intro k _ _; simp
  | cons a as ih =>
    intro k hk hb
    simp only [List.foldl_cons, List.map_cons, List.sum_cons] at hb ⊢
    have hrest := sum_map_nonneg c hc as
    have hca := hc a
    rw [hf k a hk (by omega), ih (k + c a) (by omega) (by omega)]
    congr 1
    ring

theorem regionOverlaps_const (region : CragVolume) (groundTruth : GroundTruth) (l : Int)
    (hgt : ∀ x y z, groundTruth x y z = l) (hb : voxelCount region < 2147483648) :
    regionOverlaps region groundTruth [] = constHistogram l (voxelCount region) := by
  have h0 : ([] : Histogram) = constHistogram l 0 := by simp [constHistogram]
  have hx : ∀ (z y x : Nat), 0 ≤ (if region.data x y z then (1 : Int) else 0) := by
    intro z y x
    split_ifs <;> decide
  have hy : ∀ (z y : Nat), 0 ≤ ((List.range region.width).map (fun x =>
      if region.data x y z then (1 : Int) else 0)).sum :=
    fun z y => sum_map_nonneg _ (hx z y) _
  unfold regionOverlaps voxelCount at *
  rw [h0, constHistogram_foldl l _ (fun z =>
    ((List.range region.height).map (fun y =>
      ((List.range region.width).map (fun x =>
        if region.data x y z then (1 : Int) else 0)).sum)).sum)
    (fun z => sum_map_nonneg _ (hy z) _) ?_ _ 0 (le_refl _) (by simpa using hb)]
  · simp
  · intro k z hk hb
    apply constHistogram_foldl l _ (fun y =>
      ((List.range region.width).map (fun x =>
        if region.data x y z then (1 : Int) else 0)).sum) (hy z) ?_ _ k hk hb
    intro k y hk hb
    apply constHistogram_foldl l _ (fun x => if region.data x y z then (1 : Int) else 0)
      (hx z y) ?_ _ k hk hb
    intro k x hk hb
    rw [hgt]
    by_cases hd : region.data x y z = true
    · simp only [hd, if_true] at hb ⊢
      exact constHistogram_increment l k hk (by omega)
    · simp [hd]

theorem voxelCount_rowVolume (n : Nat) : voxelCount (rowVolume n) = n := by
  simp [voxelCount, rowVolume]

theorem regionOverlaps_rowVolume_succ (n : Nat) (groundTruth : GroundTruth) (l : Int)
    (hgt : ∀ x y z, groundTruth x y z = l) :
    regionOverlaps (rowVolume (n + 1)) groundTruth []
      = (regionOverlaps (rowVolume n) groundTruth []).increment l := by
  simp [regionOverlaps, rowVolume, List.range_succ, List.foldl_append, hgt]

/-- The count of a label wraps around at `2 ^ 31` voxels: the candidate whose
region is a row of `2 ^ 31` voxels inside the ground-truth region `7` gets a
histogram whose only count is `-2 ^ 31`, which is not its number of voxels. -/
theorem overlaps_total_overflow :
    0 ∈ singleCrag.nodes ∧ singleCrag.type 0 ≠ NodeType.NoAssignmentNode ∧
    bestEffortOverlaps singleCrag (fun _ => rowVolume 2147483648) sevenTruth 0
      = [(7, -2147483648)] ∧
    voxelCount (rowVolume 2147483648) = 2147483648 := by
  refine ⟨by decide, by decide, ?_, ?_⟩
  · unfold bestEffortOverlaps
    rw [getGroundTruthOverlaps_eq singleCrag _ sevenTruth _ 0 (by decide) (by decide)
      (by decide)]
    show regionOverlaps (rowVolume (2147483647 + 1)) sevenTruth [] = _
    rw [regionOverlaps_rowVolume_succ 2147483647 sevenTruth 7 (fun _ _ _ => rfl),
      regionOverlaps_const (rowVolume 2147483647) sevenTruth 7 (fun _ _ _ => rfl)
        (by rw [voxelCount_rowVolume]; decide),
      voxelCount_rowVolume]
    decide
  · rw [voxelCount_rowVolume]; rfl

/-! ## A single candidate inside one ground-truth region -/

theorem bestGtLabel_single (w : Weight) (l c : Int) (hl : l ≠ 0) (hc : 0 < c) :
    bestGtLabel w [(l, c)] = l := by
  have hpos : (0 : Int) < c * ((2 ^ (-w.exp).toNat : Nat) : Int) :=
    mul_pos hc (by positivity)
  simp only [bestGtLabel, List.foldl_cons, List.foldl_nil, bestStep, weighted, if_neg hl]
  rw [if_pos hpos]

/-- C17: for a CRAG that consists of one slice node without children and
without edges, whose mask holds exactly one voxel, and a ground truth that is
label `7` everywhere, the constructor (either strategy, any options, fuel for
one level) assigns the candidate label `7` and returns a selection in which the
candidate is selected. -/
theorem single_candidate_selected (opts : Options) (fuel : Nat) (crag : Crag)
    (volumes : CragVolumes) (groundTruth : GroundTruth) (n : CragNode)
    (hnodes : crag.nodes = [n]) (htype : crag.type n = NodeType.SliceNode)
    (harcs : crag.arcs = []) (hedges : crag.edges = [])
    (hvoxel : voxelCount (volumes n) = 1) (hgt : ∀ x y z, groundTruth x y z = 7) :
    bestEffortAssignments opts crag volumes groundTruth n = 7 ∧
    ∃ sel, bestEffort opts (fuel + 1) crag volumes groundTruth = .ok sel ∧
      sel.node n = true := by
  have hov : bestEffortOverlaps crag volumes groundTruth n = [(7, 1)] := by
    unfold bestEffortOverlaps
    rw [getGroundTruthOverlaps_eq crag volumes groundTruth _ n (by simp [hnodes])
      (by simp [hnodes]) (by rw [htype]; decide),
      regionOverlaps_const _ _ 7 hgt (by rw [hvoxel]; decide), hvoxel]
    rfl
  have hass : bestEffortAssignments opts crag volumes groundTruth n = 7 := by
    unfold bestEffortAssignments
    rw [getGroundTruthAssignments_eq _ crag _ n (by simp [hnodes]) (by rw [htype]; decide),
      hov]
    exact bestGtLabel_single _ 7 1 (by decide) (by decide)
  refine ⟨hass, ?_⟩
  have hin : crag.inArcs n = [] := by simp [Crag.inArcs, harcs]
  have hroot : crag.isRootNode n = true := by simp [Crag.isRootNode, harcs]
  have hleaf : crag.isLeafNode n = true := by simp [Crag.isLeafNode, hin]
  have hadj : crag.adjEdges n = [] := by simp [Crag.adjEdges, hedges]
  have hsel : selectCandidates opts (fuel + 1) crag
      (bestEffortOverlaps crag volumes groundTruth)
      (bestEffortAssignments opts crag volumes groundTruth) (clearSelection crag)
      = .ok ((clearSelection crag).setNode n true) := by
    unfold selectCandidates
    split_ifs
    · simp [findMajorityOverlapCandidates, hnodes, forEach, htype, hroot,
        labelMajorityOverlapCandidate, hov, hass, Histogram.at?, majorityTest, hleaf, hin]
    · have hla : allLeafAssignments (fuel + 1) crag
          (bestEffortAssignments opts crag volumes groundTruth)
          = .ok (setAt (setAt (fun _ => []) n []) n [7]) := by
        simp [allLeafAssignments, hnodes, forEach, hroot, getLeafAssignments, hin, hass,
          setInsert, setAt]
      simp [findConcordantLeafNodeCandidates, hla, hnodes, forEach, hroot,
        labelSingleAssignmentCandidate, singleTest, setAt, htype, hin]
  refine ⟨(clearSelection crag).setNode n true, ?_, by simp [Selection.setNode, setAt]⟩
  have hnode : ((clearSelection crag).setNode n true).node n = true := by
    simp [Selection.setNode, setAt]
  unfold bestEffort
  simp only [hsel]
  have hadjE : selectAdjacencyEdges crag (bestEffortAssignments opts crag volumes groundTruth)
      ((clearSelection crag).setNode n true) = (clearSelection crag).setNode n true := by
    simp [selectAdjacencyEdges, hedges]
  rw [hadjE]
  unfold selectAssignments
  have h1 : unselectBelowSelected (fuel + 1) crag ((clearSelection crag).setNode n true)
      = .ok ((clearSelection crag).setNode n true) := by
    simp [unselectBelowSelected, hnodes, forEach, htype, hnode, unselectChildren, hin]
  have h2 : selectAssignmentNodes crag (bestEffortAssignments opts crag volumes groundTruth)
      ((clearSelection crag).setNode n true) = .ok ((clearSelection crag).setNode n true) := by
    simp [selectAssignmentNodes, hnodes, forEach, htype]
  have h3 : selectAssignmentEdges crag (bestEffortAssignments opts crag volumes groundTruth)
      ((clearSelection crag).setNode n true) = (clearSelection crag).setNode n true := by
    simp [selectAssignmentEdges, hedges]
  have h4 : explanationConstraint crag volumes
      (bestEffortAssignments opts crag volumes groundTruth)
      (bestEffortOverlaps crag volumes groundTruth) ((clearSelection crag).setNode n true)
      = .ok ((clearSelection crag).setNode n true) := by
    simp [explanationConstraint, hnodes, forEach, htype, hnode, explanationNode, hadj]
  have h5 : selectNoAssignmentEdges crag volumes ((clearSelection crag).setNode n true)
      = .ok ((clearSelection crag).setNode n true) := by
    simp [selectNoAssignmentEdges, hnodes, forEach, htype, hnode, needNoAssignmentNode,
      selectNoAssignmentEdgesOf, hadj]
  simp only [h1, h2, h3, h4, h5]

theorem single_candidate_selected_witness :
    (singleCrag.nodes = [0] ∧ singleCrag.type 0 = NodeType.SliceNode ∧
      singleCrag.arcs = [] ∧ singleCrag.edges = [] ∧ voxelCount unitVolume = 1 ∧
      (∀ x y z, sevenTruth x y z = 7)) ∧
    (bestEffortAssignments majorityOptions singleCrag (fun _ => unitVolume) sevenTruth 0 = 7 ∧
      ∃ sel, bestEffort majorityOptions (0 + 1) singleCrag (fun _ => unitVolume) sevenTruth
        = .ok sel ∧ sel.node 0 = true) :=
  ⟨⟨rfl, rfl, rfl, rfl, by decide, fun _ _ _ => rfl⟩,
    single_candidate_selected majorityOptions 0 singleCrag (fun _ => unitVolume) sevenTruth 0
      rfl rfl rfl rfl (by decide) (fun _ _ _ => rfl)⟩

/-! ## Strategy A: leaves below candidates without majority -/

theorem labelMajorityOverlapCandidate_missing (full : Bool) (w : Weight) (crag : Crag)
    (overlaps : CragNode → Histogram) (gt : CragNode → Int) (fuel : Nat) (n : CragNode)
    (sel : Selection) (h : (overlaps n).at? (gt n) = none) :
    labelMajorityOverlapCandidate full w crag overlaps gt (fuel + 1) n sel
      = .error Failure.outOfRange := by
  unfold labelMajorityOverlapCandidate
  rw [h]

theorem majorityStop_eq {w : Weight} {crag : Crag} {overlaps : CragNode → Histogram}
    {gt : CragNode → Int} {n : CragNode} (hat : (overlaps n).at? (gt n) ≠ none) :
    majorityStop w crag overlaps gt n =
      (crag.isLeafNode n ||
        exceedsHalf (weighted w (gt n, (overlaps n).get (gt n)))
          (totalOverlap w (overlaps n))) := by
  unfold majorityStop
  cases hc : (overlaps n).at? (gt n) with
  | none => exact absurd hc hat
  | some c =>
    have hget : (overlaps n).get (gt n) = c := by simp [Histogram.get, hc]
    simp only [majorityTest, hget]

/-- Strategy A with `fullBestEffort = false`, on a forest of slice nodes with
non-empty histograms and the assignments derived from them: for every leaf none
of whose proper ancestors passes the majority test of the embedding, the
selector returns a selection in which the leaf is selected if and only if its
assigned label is not background. -/
theorem leaf_selected_iff_weighted (w : Weight) (fuel : Nat) (crag : Crag)
    (overlaps : CragNode → Histogram) (level : CragNode → Nat)
    (hr : crag.Ranked level fuel) (hc : crag.ArcsClosed)
    (hslice : ∀ n ∈ crag.nodes, crag.type n = NodeType.SliceNode)
    (hwf : ∀ n ∈ crag.nodes, (overlaps n).WellFormed ∧ overlaps n ≠ [])
    (leaf : CragNode) (hmem : leaf ∈ crag.nodes) (hleaf : crag.isLeafNode leaf = true)
    (hpath : ∀ a, crag.ProperDescendant leaf a →
      ¬ HasMajority w overlaps (getGroundTruthAssignments w crag overlaps (fun _ => 0)) a)
    (sel : Selection) (hsel : ∀ x, sel.node x = false) :
    ∃ sel', findMajorityOverlapCandidates false w fuel crag overlaps
        (getGroundTruthAssignments w crag overlaps (fun _ => 0)) sel = .ok sel' ∧
      (sel'.node leaf = true ↔
        getGroundTruthAssignments w crag overlaps (fun _ => 0) leaf ≠ 0) ∧
      IsWeightedArgmax w (overlaps leaf)
        (getGroundTruthAssignments w crag overlaps (fun _ => 0) leaf) := by
  have harg : IsWeightedArgmax w (overlaps leaf)
      (getGroundTruthAssignments w crag overlaps (fun _ => 0) leaf) := by
    rw [getGroundTruthAssignments_eq w crag overlaps leaf hmem
      (by rw [hslice leaf hmem]; decide)]
    exact bestGtLabel_isWeightedArgmax w (hwf leaf hmem).1
  generalize hgt : getGroundTruthAssignments w crag overlaps (fun _ => 0) = gt at hpath harg ⊢
  have hat : ∀ x ∈ crag.nodes, (overlaps x).at? (gt x) ≠ none := by
    intro x hx
    have ht : crag.type x ≠ NodeType.NoAssignmentNode := by
      rw [hslice x hx]; decide
    rw [← hgt, getGroundTruthAssignments_eq w crag overlaps x hx ht]
    exact (bestGtLabel_spec w (hwf x hx).1 (hwf x hx).2).1
  obtain ⟨sel', hsel'⟩ := findMajorityOverlapCandidates_total false w fuel crag
    overlaps gt level hr hc hat sel
  refine ⟨sel', hsel', ?_, harg⟩
  rw [findMajorityOverlapCandidates_selected false w fuel crag overlaps gt sel sel'
    hsel hsel' leaf]
  have hstop : majorityStop w crag overlaps gt leaf = true := by
    rw [majorityStop_eq (hat leaf hmem), hleaf]
    rfl
  constructor
  · exact fun h => h.2.2
  · intro h0
    refine ⟨?_, hstop, h0⟩
    obtain ⟨r, hrn, hroot, hv⟩ := Crag.exists_root_visits hr hc
      (majorityHalt false w crag overlaps gt) fuel leaf (Nat.le_add_left _ _) hmem
      (by
        intro a ha
        have hna : ¬ HasMajority w overlaps gt a := hpath a ha
        unfold HasMajority at hna
        simp only [majorityHalt, Bool.not_false, Bool.true_and]
        rw [majorityStop_eq (hat a (ha.mem_nodes hc)), ha.not_leaf]
        simpa using hna)
    refine ⟨r, ⟨hrn, ?_, ?_, hroot⟩, hv⟩
    · rw [hslice r hrn]; decide
    · rw [hslice r hrn]; decide

theorem hasMajority_one_iff {overlaps : CragNode → Histogram} {gt : CragNode → Int}
    {n : CragNode} (hwf : (overlaps n).WellFormed) (hne : overlaps n ≠ [])
    (hat : (overlaps n).at? (gt n) ≠ none) :
    HasMajority Weight.one overlaps gt n ↔ StrictMajority overlaps gt n := by
  have hpos := Histogram.total_pos hwf hne
  unfold HasMajority StrictMajority
  cases hc : (overlaps n).at? (gt n) with
  | none => exact absurd hc hat
  | some c =>
    have hget : (overlaps n).get (gt n) = c := by simp [Histogram.get, hc]
    have hmem := Histogram.mem_of_at? hc
    have hw : weighted Weight.one (gt n, c) = c :=
      weighted_one _ (le_of_lt (hwf.2.1 _ hmem)) (hwf.2.2 _ hmem)
    simp only [hget, hw, totalOverlap_one _ hwf.2.1 hwf.2.2, exceedsHalf,
      if_neg (ne_of_gt hpos), if_pos hpos, decide_eq_true_eq]

/-- C18 (amended): Strategy A with `fullBestEffort = false` and background
weight one, on a forest of slice nodes with non-empty histograms and the
assignments derived from them: for every leaf none of whose proper ancestors has
a strict majority overlap, the selector returns a selection in which the leaf
is selected if and only if its assigned label is not background, and the label
assigned to the leaf is a key of its histogram with maximal overlap. -/
theorem leaf_selected_iff (fuel : Nat) (crag : Crag)
    (overlaps : CragNode → Histogram) (level : CragNode → Nat)
    (hr : crag.Ranked level fuel) (hc : crag.ArcsClosed)
    (hslice : ∀ n ∈ crag.nodes, crag.type n = NodeType.SliceNode)
    (hwf : ∀ n ∈ crag.nodes, (overlaps n).WellFormed ∧ overlaps n ≠ [])
    (leaf : CragNode) (hmem : leaf ∈ crag.nodes) (hleaf : crag.isLeafNode leaf = true)
    (hpath : ∀ a, crag.ProperDescendant leaf a →
      ¬ StrictMajority overlaps
        (getGroundTruthAssignments Weight.one crag overlaps (fun _ => 0)) a)
    (sel : Selection) (hsel : ∀ x, sel.node x = false) :
    ∃ sel', findMajorityOverlapCandidates false Weight.one fuel crag overlaps
        (getGroundTruthAssignments Weight.one crag overlaps (fun _ => 0)) sel = .ok sel' ∧
      (sel'.node leaf = true ↔
        getGroundTruthAssignments Weight.one crag overlaps (fun _ => 0) leaf ≠ 0) ∧
      getGroundTruthAssignments Weight.one crag overlaps (fun _ => 0) leaf
        ∈ (overlaps leaf).keys ∧
      ∀ p ∈ overlaps leaf, p.2 ≤ (overlaps leaf).get
        (getGroundTruthAssignments Weight.one crag overlaps (fun _ => 0) leaf) := by
  have hat : ∀ x ∈ crag.nodes, (overlaps x).at?
      (getGroundTruthAssignments Weight.one crag overlaps (fun _ => 0) x) ≠ none := by
    intro x hx
    rw [getGroundTruthAssignments_eq Weight.one crag overlaps x hx
      (by rw [hslice x hx]; decide)]
    exact (bestGtLabel_spec Weight.one (hwf x hx).1 (hwf x hx).2).1
  obtain ⟨sel', hsel', hiff, harg⟩ := leaf_selected_iff_weighted Weight.one fuel crag overlaps
    level hr hc hslice hwf leaf hmem hleaf
    (fun a ha hm => hpath a ha
      ((hasMajority_one_iff (hwf a (ha.mem_nodes hc)).1 (hwf a (ha.mem_nodes hc)).2
        (hat a (ha.mem_nodes hc))).1 hm))
    sel hsel
  obtain ⟨hkey, hmax⟩ := harg.2 (hwf leaf hmem).2
  refine ⟨sel', hsel', hiff, hkey, fun p hp => ?_⟩
  have hwfl := (hwf leaf hmem).1
  cases hc' : (overlaps leaf).at?
      (getGroundTruthAssignments Weight.one crag overlaps (fun _ => 0) leaf) with
  | none => exact absurd hc' (hat leaf hmem)
  | some c =>
    have hget : (overlaps leaf).get
        (getGroundTruthAssignments Weight.one crag overlaps (fun _ => 0) leaf) = c := by
      simp [Histogram.get, hc']
    have hmemc := Histogram.mem_of_at? hc'
    have h1 := hmax p hp
    rw [hget, weighted_one p (le_of_lt (hwfl.2.1 p hp)) (hwfl.2.2 p hp),
      weighted_one _ (le_of_lt (hwfl.2.1 _ hmemc)) (hwfl.2.2 _ hmemc)] at h1
    rw [hget]
    exact h1

theorem leaf_selected_iff_witness :
    (forkCrag.Ranked rootLevel 2 ∧ forkCrag.ArcsClosed ∧
      (∀ n ∈ forkCrag.nodes, forkCrag.type n = NodeType.SliceNode) ∧
      (∀ n ∈ forkCrag.nodes, (forkOverlaps n).WellFormed ∧ forkOverlaps n ≠ []) ∧
      1 ∈ forkCrag.nodes ∧ forkCrag.isLeafNode 1 = true ∧
      (∀ a, forkCrag.ProperDescendant 1 a → ¬ StrictMajority forkOverlaps
        (getGroundTruthAssignments Weight.one forkCrag forkOverlaps (fun _ => 0)) a) ∧
      (∀ x, Selection.none.node x = false)) ∧
    ∃ sel', findMajorityOverlapCandidates false Weight.one 2 forkCrag forkOverlaps
        (getGroundTruthAssignments Weight.one forkCrag forkOverlaps (fun _ => 0))
        Selection.none = .ok sel' ∧
      (sel'.node 1 = true ↔
        getGroundTruthAssignments Weight.one forkCrag forkOverlaps (fun _ => 0) 1 ≠ 0) ∧
      getGroundTruthAssignments Weight.one forkCrag forkOverlaps (fun _ => 0) 1
        ∈ (forkOverlaps 1).keys ∧
      ∀ p ∈ forkOverlaps 1, p.2 ≤ (forkOverlaps 1).get
        (getGroundTruthAssignments Weight.one forkCrag forkOverlaps (fun _ => 0) 1) :=
  have hpath : ∀ a, forkCrag.ProperDescendant 1 a → ¬ StrictMajority forkOverlaps
      (getGroundTruthAssignments Weight.one forkCrag forkOverlaps (fun _ => 0)) a := by
    intro a ha
    obtain ⟨p, hp, hpa⟩ := ha.parent
    have hp0 : p = 0 := by
      have := Crag.mem_inArcs.1 hp
      simp [forkCrag] at this
      exact this
    subst hp0
    rcases hpa with rfl | hpa
    · unfold StrictMajority
      decide
    · exact absurd hpa.not_root (by decide)
  ⟨⟨by decide, by decide, by decide, by decide, by decide, by decide, hpath, fun _ => rfl⟩,
    leaf_selected_iff 2 forkCrag forkOverlaps rootLevel (by decide) (by decide)
      (by decide) (by decide) 1 (by decide) (by decide) hpath Selection.none (fun _ => rfl)⟩

/-- C18 as stated fails for a leaf whose maximal overlap is with the
background: the single candidate with five voxels in the background and five in
region `1` has no strict majority, is assigned label `0` and is not selected.
With a background weight other than one the assigned label need not have the
maximal overlap: the single candidate with the histogram `{0: 60, 1: 40}` is
assigned label `1` for the weight one half. -/
theorem leaf_background_counterexample :
    singleCrag.isLeafNode 0 = true ∧ singleCrag.isRootNode 0 = true ∧
    ¬ HasMajority Weight.one (fun _ => tiedHistogram)
      (getGroundTruthAssignments Weight.one singleCrag (fun _ => tiedHistogram) (fun _ => 0)) 0 ∧
    getGroundTruthAssignments Weight.one singleCrag (fun _ => tiedHistogram) (fun _ => 0) 0 = 0 ∧
    (∃ sel', findMajorityOverlapCandidates false Weight.one 1 singleCrag
        (fun _ => tiedHistogram)
        (getGroundTruthAssignments Weight.one singleCrag (fun _ => tiedHistogram) (fun _ => 0))
        Selection.none = .ok sel' ∧ sel'.node 0 = false) ∧
    getGroundTruthAssignments Weight.half singleCrag (fun _ => [(0, 60), (1, 40)])
      (fun _ => 0) 0 = 1 :=
  ⟨by decide, by decide, by decide, by decide, ⟨_, rfl, by decide⟩, by decide⟩

/-! ## The full best-effort -/

/-- C19 (amended): with `fullBestEffort` enabled and Strategy B, on a hierarchy
without cycles, when the candidate selector returns, every child of a selected
candidate is selected as well, unless the child is an assignment node or a
no-assignment node. -/
theorem concordant_full_children (fuel : Nat) (crag : Crag) (gt : CragNode → Int)
    (level : CragNode → Nat) (hl : ∀ a ∈ crag.arcs, level a.source < level a.target)
    (sel sel' : Selection) (hsel : ∀ x, sel.node x = false)
    (h : findConcordantLeafNodeCandidates true fuel crag gt sel = .ok sel')
    (n c : CragNode) (hc : c ∈ crag.inArcs n)
    (htc : crag.type c ≠ NodeType.AssignmentNode ∧ crag.type c ≠ NodeType.NoAssignmentNode)
    (hn : sel'.node n = true) : sel'.node c = true := by
  obtain ⟨la, hla, _, hiff⟩ :=
    findConcordantLeafNodeCandidates_selected true fuel crag gt sel sel' hsel h
  obtain ⟨⟨r, hr, hv⟩, ht⟩ := (hiff n).1 hn
  have hvc : crag.Visits (singleHalt true crag la) r c :=
    hv.snoc (by simp [singleHalt]) hc
  have hsetn := allLeafAssignments_spec fuel crag gt level hl la hla n r hr hv.descendant
  have hsetc := allLeafAssignments_spec fuel crag gt level hl la hla c r hr hvc.descendant
  have hconc : crag.Concordant gt n := ((singleTest_iff hsetn).1 ht).1
  exact (hiff c).2 ⟨⟨r, hr, hvc⟩,
    (singleTest_iff hsetc).2 ⟨hconc.of_ancestor (Crag.ProperDescendant.child hc), htc⟩⟩

theorem concordant_full_children_witness :
    ((∀ a ∈ forkCrag.arcs, rootLevel a.source < rootLevel a.target) ∧
      (∀ x, Selection.none.node x = false) ∧ 1 ∈ forkCrag.inArcs 0 ∧
      (forkCrag.type 1 ≠ NodeType.AssignmentNode ∧
        forkCrag.type 1 ≠ NodeType.NoAssignmentNode) ∧
      (selectionOf (findConcordantLeafNodeCandidates true 2 forkCrag (fun _ => 7)
        Selection.none)).node 0 = true) ∧
    (selectionOf (findConcordantLeafNodeCandidates true 2 forkCrag (fun _ => 7)
      Selection.none)).node 1 = true :=
  ⟨⟨by decide, fun _ => rfl, by decide, by decide, by decide⟩,
    concordant_full_children 2 forkCrag (fun _ => 7) rootLevel (by decide) Selection.none _
      (fun _ => rfl) rfl 0 1 (by decide) (by decide) (by decide)⟩

/-- C19 as stated fails: with `fullBestEffort` enabled the constructor returns,
on a root with two children inside one ground-truth region, a selection in
which the root is selected and its children are not, because the first loop of
`selectAssignments` unselects them; and Strategy A leaves a child in the
background unselected already when the selector returns. -/
theorem full_children_counterexample :
    1 ∈ forkCrag.inArcs 0 ∧
    (∃ sel, bestEffort fullOptions 2 forkCrag (fun _ => unitVolume) sevenTruth = .ok sel ∧
      sel.node 0 = true ∧ sel.node 1 = false) ∧
    1 ∈ chainCrag.inArcs 0 ∧
    (∃ sel, findMajorityOverlapCandidates true Weight.one 2 chainCrag backgroundChildOverlaps
        (getGroundTruthAssignments Weight.one chainCrag backgroundChildOverlaps (fun _ => 0))
        Selection.none = .ok sel ∧
      sel.node 0 = true ∧ sel.node 1 = false) :=
  ⟨by decide, ⟨_, rfl, by decide, by decide⟩, by decide, ⟨_, rfl, by decide, by decide⟩⟩

/-! ## The assertion on the neighbours of an assignment node -/

theorem linksSelectedSlices_error (crag : Crag) (gt : CragNode → Int) (sel : Selection)
    (n : CragNode) :
    ∀ (es : List CragEdge), (∀ e ∈ es, ∃ o, Crag.oppositeNode n e = some o) →
      ∀ (sliceLabel : Int) (err : Failure),
        linksSelectedSlices crag gt sel n es sliceLabel = .error err →
        err = Failure.assertion := by
  intro es
  induction es with
  | nil => intro _ sliceLabel err h; simp [linksSelectedSlices] at h
  | cons e es ih =>
    intro hes sliceLabel err h
    obtain ⟨o, ho⟩ := hes e (List.mem_cons_self _ _)
    have hes' : ∀ e' ∈ es, ∃ o, Crag.oppositeNode n e' = some o :=
      fun e' he' => hes e' (List.mem_cons_of_mem _ he')
    unfold linksSelectedSlices at h
    rw [ho] at h
    simp only at h
    split_ifs at h with h1 h2 h3 h4
    · simp only [Except.error.injEq] at h
      exact h.symm
    · exact ih hes' _ err h
    · exact ih hes' _ err h

theorem linksSelectedSlices_reaches (crag : Crag) (gt : CragNode → Int) (sel : Selection)
    (n : CragNode) (label : Int) (e : CragEdge) (post : List CragEdge) (o : CragNode)
    (ho : Crag.oppositeNode n e = some o) (hto : crag.type o ≠ NodeType.SliceNode) :
    ∀ (pre : List CragEdge),
      (∀ e' ∈ pre, ∃ o', Crag.oppositeNode n e' = some o' ∧
        crag.type o' = NodeType.SliceNode ∧ sel.node o' = true ∧ gt o' = label) →
      ∀ sliceLabel : Int, (sliceLabel = -1 ∨ sliceLabel = label) →
        linksSelectedSlices crag gt sel n (pre ++ e :: post) sliceLabel
          = .error Failure.assertion := by
  intro pre
  induction pre with
  | nil =>
    intro _ sliceLabel _
    simp only [List.nil_append]
    unfold linksSelectedSlices
    rw [ho]
    simp only [hto, ne_eq, not_false_eq_true, if_true]
  | cons e' pre ih =>
    intro hpre sliceLabel hs
    obtain ⟨o', ho', hto', hso', hgo'⟩ := hpre e' (List.mem_cons_self _ _)
    have hpre' : ∀ e'' ∈ pre, ∃ o', Crag.oppositeNode n e'' = some o' ∧
        crag.type o' = NodeType.SliceNode ∧ sel.node o' = true ∧ gt o' = label :=
      fun e'' he'' => hpre e'' (List.mem_cons_of_mem _ he'')
    simp only [List.cons_append]
    unfold linksSelectedSlices
    rw [ho']
    simp only [hto', ne_eq, not_true_eq_false, if_false, hso', Bool.not_true,
      Bool.false_eq_true]
    by_cases h1 : sliceLabel = -1
    · rw [if_pos h1]
      exact ih hpre' (gt o') (Or.inr hgo')
    · rw [if_neg h1]
      have h2 : sliceLabel = label := hs.resolve_left h1
      rw [if_neg (by rw [h2, hgo']; exact not_not.2 rfl)]
      exact ih hpre' sliceLabel (Or.inr h2)

theorem selectAssignmentNodes_assertion (crag : Crag) (gt : CragNode → Int)
    (sel : Selection) (n : CragNode) (hn : n ∈ crag.nodes)
    (ht : crag.type n = NodeType.AssignmentNode) (label : Int)
    (pre post : List CragEdge) (e : CragEdge) (o : CragNode)
    (hadj : crag.adjEdges n = pre ++ e :: post)
    (hpre : ∀ e' ∈ pre, ∃ o', Crag.oppositeNode n e' = some o' ∧
      crag.type o' = NodeType.SliceNode ∧ sel.node o' = true ∧ gt o' = label)
    (ho : Crag.oppositeNode n e = some o) (hto : crag.type o ≠ NodeType.SliceNode) :
    selectAssignmentNodes crag gt sel = .error Failure.assertion := by
  unfold selectAssignmentNodes
  suffices hloop : ∀ (l : List CragNode), n ∈ l → ∀ s : Selection,
      (∀ x, crag.type x ≠ NodeType.AssignmentNode → s.node x = sel.node x) →
      forEach (fun s n =>
          if crag.type n ≠ NodeType.AssignmentNode then .ok s
          else
            match linksSelectedSlices crag gt s n (crag.adjEdges n) (-1) with
            | .error e => .error e
            | .ok selectAssignmentNode =>
              if selectAssignmentNode then .ok (s.setNode n true) else .ok s) l s
        = .error Failure.assertion from hloop crag.nodes hn sel (fun _ _ => rfl)
  intro l
  induction l with
  | nil => intro h; cases h
  | cons m l ih =>
    intro hm s hI
    simp only [forEach]
    by_cases hmn : m = n
    · subst hmn
      rw [if_neg (not_not.2 ht), hadj,
        linksSelectedSlices_reaches crag gt s m label e post o ho hto pre
          (by
            intro e' he'
            obtain ⟨o', h1, h2, h3, h4⟩ := hpre e' he'
            exact ⟨o', h1, h2, by rw [hI o' (by rw [h2]; decide)]; exact h3, h4⟩)
          (-1) (Or.inl rfl)]
    · have hnl : n ∈ l := by
        rcases List.mem_cons.1 hm with h | h
        · exact absurd h.symm hmn
        · exact h
      by_cases htm : crag.type m ≠ NodeType.AssignmentNode
      · rw [if_pos htm]
        exact ih hnl s hI
      · rw [if_neg htm]
        cases hl : linksSelectedSlices crag gt s m (crag.adjEdges m) (-1) with
        | error err =>
          simp only
          rw [linksSelectedSlices_error crag gt s m (crag.adjEdges m)
            (fun e' he' => Crag.oppositeNode_of_mem_adjEdges he') (-1) err hl]
        | ok b =>
          simp only
          cases b with
          | true =>
            simp only [if_true]
            apply ih hnl
            intro x hx
            have hxm : x ≠ m := by
              rintro rfl
              exact hx (not_not.1 htm)
            rw [← hI x hx]
            simp [Selection.setNode, setAt, hxm]
          | false =>
            simp only [Bool.false_eq_true, if_false]
            exact ih hnl s hI

/-- C16 (amended): when some assignment node of the CRAG has an incident edge
whose opposite endpoint is not a slice node, and every edge visited before it
at that node leads to a slice node that is selected after the first loop, all
of them with one label, then `selectAssignments` fails with the assertion and
returns no selection state. -/
theorem selectAssignments_assertion (fuel : Nat) (crag : Crag) (volumes : CragVolumes)
    (gt : CragNode → Int) (overlaps : CragNode → Histogram) (sel s1 : Selection)
    (h1 : unselectBelowSelected fuel crag sel = .ok s1)
    (n : CragNode) (hn : n ∈ crag.nodes) (ht : crag.type n = NodeType.AssignmentNode)
    (label : Int) (pre post : List CragEdge) (e : CragEdge) (o : CragNode)
    (hadj : crag.adjEdges n = pre ++ e :: post)
    (hpre : ∀ e' ∈ pre, ∃ o', Crag.oppositeNode n e' = some o' ∧
      crag.type o' = NodeType.SliceNode ∧ s1.node o' = true ∧ gt o' = label)
    (ho : Crag.oppositeNode n e = some o) (hto : crag.type o ≠ NodeType.SliceNode) :
    selectAssignments fuel crag volumes gt overlaps sel = .error Failure.assertion := by
  unfold selectAssignments
  rw [h1]
  simp only
  rw [selectAssignmentNodes_assertion crag gt s1 n hn ht label pre post e o hadj hpre ho hto]

theorem selectAssignments_assertion_witness :
    (unselectBelowSelected 1 mistypedCrag oneSelected
        = .ok (selectionOf (unselectBelowSelected 1 mistypedCrag oneSelected)) ∧
      0 ∈ mistypedCrag.nodes ∧ mistypedCrag.type 0 = NodeType.AssignmentNode ∧
      mistypedCrag.adjEdges 0 = [⟨0, 0, 1, EdgeType.AssignmentEdge⟩] ++
        ⟨1, 0, 2, EdgeType.AssignmentEdge⟩ :: [] ∧
      (∀ e' ∈ [(⟨0, 0, 1, EdgeType.AssignmentEdge⟩ : CragEdge)],
        ∃ o', Crag.oppositeNode 0 e' = some o' ∧
          mistypedCrag.type o' = NodeType.SliceNode ∧
          (selectionOf (unselectBelowSelected 1 mistypedCrag oneSelected)).node o' = true ∧
          (fun _ => (7 : Int)) o' = 7) ∧
      Crag.oppositeNode 0 ⟨1, 0, 2, EdgeType.AssignmentEdge⟩ = some 2 ∧
      mistypedCrag.type 2 ≠ NodeType.SliceNode) ∧
    selectAssignments 1 mistypedCrag (fun _ => unitVolume) (fun _ => 7) (fun _ => [(7, 1)])
      oneSelected = .error Failure.assertion :=
  ⟨⟨rfl, by decide, by decide, by decide, by decide, by decide, by decide⟩,
    selectAssignments_assertion 1 mistypedCrag (fun _ => unitVolume) (fun _ => 7)
      (fun _ => [(7, 1)]) oneSelected _ rfl 0 (by decide) (by decide) 7
      [⟨0, 0, 1, EdgeType.AssignmentEdge⟩] [] ⟨1, 0, 2, EdgeType.AssignmentEdge⟩ 2
      (by decide) (by decide) (by decide) (by decide)⟩

/-- C16 as stated fails: the assignment node `0` of `mistypedCrag` has an edge
to a candidate that is not a slice node, but the edge visited first leads to an
unselected slice node, the loop is left before the assertion is reached, and
`selectAssignments`, also inside the constructor, returns a selection. -/
theorem selectAssignments_no_assertion_counterexample :
    mistypedCrag.type 0 = NodeType.AssignmentNode ∧
    (∃ e ∈ mistypedCrag.adjEdges 0, ∃ o, Crag.oppositeNode 0 e = some o ∧
      mistypedCrag.type o ≠ NodeType.SliceNode) ∧
    (∃ sel, selectAssignments 1 mistypedCrag (fun _ => unitVolume) (fun _ => 0)
      (fun _ => [(0, 1)]) Selection.none = .ok sel) ∧
    (∃ sel, bestEffort plainOptions 1 mistypedCrag (fun _ => unitVolume) backgroundTruth
      = .ok sel) :=
  ⟨by decide, ⟨⟨1, 0, 2, EdgeType.AssignmentEdge⟩, by decide, 2, by decide, by decide⟩,
    ⟨_, rfl⟩, ⟨_, rfl⟩⟩

/-! ## The no-assignment edges -/

theorem Crag.mem_edges_of_mem_adjEdges {crag : Crag} {n : CragNode} {e : CragEdge}
    (he : e ∈ crag.adjEdges n) : e ∈ crag.edges :=
  (List.mem_filter.1 he).1

theorem Crag.oppositeNode_of_two_ends {crag : Crag} {n m : CragNode} {e : CragEdge}
    (hn : e ∈ crag.adjEdges n) (hm : e ∈ crag.adjEdges m) (hne : m ≠ n) :
    Crag.oppositeNode m e = some n := by
  have h1 := (List.mem_filter.1 hn).2
  have h2 := (List.mem_filter.1 hm).2
  simp only [decide_eq_true_eq] at h1 h2
  unfold Crag.oppositeNode
  rcases h2 with h2 | h2
  · rw [if_pos h2.symm]
    rcases h1 with h1 | h1
    · exact absurd (h2.symm.trans h1) hne
    · rw [h1]
  · rcases h1 with h1 | h1
    · have hmu : ¬ m = e.u := fun h => hne (h.trans h1)
      rw [if_neg hmu, if_pos h2.symm, h1]
    · exact absurd (h2.symm.trans h1) hne

theorem needNoAssignmentNode_spec (crag : Crag) (volumes : CragVolumes) (sel : Selection)
    (n : CragNode) (d : Int) (b : Bool)
    (h : needNoAssignmentNode crag volumes sel n d = .ok b) :
    b = true ↔ crag.NeedsNoLink volumes sel n d := by
  unfold needNoAssignmentNode at h
  unfold Crag.NeedsNoLink
  suffices hloop : ∀ (l : List CragEdge) (b0 b : Bool),
      forEach (fun (need : Bool) (edge : CragEdge) =>
        if edge.type ≠ EdgeType.AssignmentEdge then .ok need
        else
          match Crag.oppositeNode n edge with
          | none => .ok need
          | some opposite =>
            if crag.type opposite ≠ NodeType.AssignmentNode then
              .error Failure.assertion
            else if ((volumes opposite).centerZ - (volumes n).centerZ) * d < 0 then
              .ok need
            else if sel.edge edge.id then .ok false
            else .ok need) l b0 = .ok b →
      (b = true ↔ b0 = true ∧ ¬ ∃ e ∈ l, e.type = EdgeType.AssignmentEdge ∧
        Passes volumes n d e ∧ sel.edge e.id = true) by
    rw [hloop _ true b h]
    simp
  intro l
  induction l with
  | nil =>
    intro b0 b h
    simp only [forEach, Except.ok.injEq] at h
    subst h
    simp
  | cons e l ih =>
    intro b0 b h
    simp only [forEach] at h
    by_cases h1 : e.type ≠ EdgeType.AssignmentEdge
    · rw [if_pos h1] at h
      rw [ih b0 b h]
      simp only [List.mem_cons, exists_eq_or_imp]
      have : ¬ (e.type = EdgeType.AssignmentEdge ∧ Passes volumes n d e ∧
          sel.edge e.id = true) := fun h2 => h1 h2.1
      simp only [this, false_or]
    · rw [if_neg h1] at h
      cases ho : Crag.oppositeNode n e with
      | none =>
        rw [ho] at h
        simp only at h
        rw [ih b0 b h]
        simp only [List.mem_cons, exists_eq_or_imp]
        have : ¬ (e.type = EdgeType.AssignmentEdge ∧ Passes volumes n d e ∧
            sel.edge e.id = true) := by
          rintro ⟨_, ⟨o, ho', _⟩, _⟩
          rw [ho] at ho'
          cases ho'
        simp only [this, false_or]
      | some o =>
        rw [ho] at h
        simp only at h
        by_cases h3 : crag.type o ≠ NodeType.AssignmentNode
        · rw [if_pos h3] at h; cases h
        rw [if_neg h3] at h
        by_cases h4 : ((volumes o).centerZ - (volumes n).centerZ) * d < 0
        · rw [if_pos h4] at h
          rw [ih b0 b h]
          simp only [List.mem_cons, exists_eq_or_imp]
          have : ¬ (e.type = EdgeType.AssignmentEdge ∧ Passes volumes n d e ∧
              sel.edge e.id = true) := by
            rintro ⟨_, ⟨o', ho', hz⟩, _⟩
            rw [ho] at ho'
            simp only [Option.some.injEq] at ho'
            subst ho'
            exact hz h4
          simp only [this, false_or]
        rw [if_neg h4] at h
        by_cases h5 : sel.edge e.id = true
        · rw [if_pos h5] at h
          rw [ih false b h]
          simp only [Bool.false_eq_true, false_and, false_iff, not_and, not_not]
          intro _
          exact ⟨e, List.mem_cons_self _ _, not_not.1 h1, ⟨o, ho, h4⟩, h5⟩
        · rw [if_neg h5] at h
          rw [ih b0 b h]
          simp only [List.mem_cons, exists_eq_or_imp]
          have : ¬ (e.type = EdgeType.AssignmentEdge ∧ Passes volumes n d e ∧
              sel.edge e.id = true) := fun h6 => h5 h6.2.2
          simp only [this, false_or]

theorem selectNoAssignmentEdgesOf_spec (crag : Crag) (volumes : CragVolumes)
    (n : CragNode) (d : Int) (sel sel' : Selection)
    (h : selectNoAssignmentEdgesOf crag volumes n d sel = .ok sel') :
    sel'.node = sel.node ∧
    (∀ i, sel'.edge i = true ↔ sel.edge i = true ∨ ∃ e ∈ crag.adjEdges n, e.id = i ∧
      e.type = EdgeType.NoAssignmentEdge ∧ Passes volumes n d e) ∧
    (∀ e ∈ crag.adjEdges n, e.type = EdgeType.NoAssignmentEdge →
      ∀ o, Crag.oppositeNode n e = some o → crag.type o = NodeType.NoAssignmentNode) := by
  unfold selectNoAssignmentEdgesOf at h
  suffices hloop : ∀ (l : List CragEdge) (s s' : Selection),
      forEach (fun (s : Selection) (edge : CragEdge) =>
        if edge.type ≠ EdgeType.NoAssignmentEdge then .ok s
        else
          match Crag.oppositeNode n edge with
          | none => .ok s
          | some opposite =>
            if crag.type opposite ≠ NodeType.NoAssignmentNode then
              .error Failure.assertion
            else if ((volumes opposite).centerZ - (volumes n).centerZ) * d < 0 then
              .ok s
            else .ok (s.setEdge edge true)) l s = .ok s' →
      s'.node = s.node ∧
      (∀ i, s'.edge i = true ↔ s.edge i = true ∨ ∃ e ∈ l, e.id = i ∧
        e.type = EdgeType.NoAssignmentEdge ∧ Passes volumes n d e) ∧
      (∀ e ∈ l, e.type = EdgeType.NoAssignmentEdge →
        ∀ o, Crag.oppositeNode n e = some o → crag.type o = NodeType.NoAssignmentNode) from
    hloop _ sel sel' h
  intro l
  induction l with
  | nil =>
    intro s s' h
    simp only [forEach, Except.ok.injEq] at h
    subst h
    exact ⟨rfl, fun i => by simp, fun e he => absurd he (List.not_mem_nil _)⟩
  | cons e l ih =>
    intro s s' h
    simp only [forEach] at h
    by_cases h1 : e.type ≠ EdgeType.NoAssignmentEdge
    · rw [if_pos h1] at h
      obtain ⟨hn, he, hty⟩ := ih s s' h
      refine ⟨hn, fun i => ?_, ?_⟩
      · rw [he i]
        simp only [List.mem_cons, exists_eq_or_imp]
        have : ¬ (e.id = i ∧ e.type = EdgeType.NoAssignmentEdge ∧
            Passes volumes n d e) := fun h2 => h1 h2.2.1
        simp only [this, false_or]
      · intro e' he' ht'
        rcases List.mem_cons.1 he' with rfl | he'
        · exact absurd ht' h1
        · exact hty e' he' ht'
    · rw [if_neg h1] at h
      cases ho : Crag.oppositeNode n e with
      | none =>
        rw [ho] at h
        simp only at h
        obtain ⟨hn, he, hty⟩ := ih s s' h
        refine ⟨hn, fun i => ?_, ?_⟩
        · rw [he i]
          simp only [List.mem_cons, exists_eq_or_imp]
          have : ¬ (e.id = i ∧ e.type = EdgeType.NoAssignmentEdge ∧
              Passes volumes n d e) := by
            rintro ⟨_, _, ⟨o, ho', _⟩⟩
            rw [ho] at ho'
            cases ho'
          simp only [this, false_or]
        · intro e' he' ht' o' ho'
          rcases List.mem_cons.1 he' with rfl | he'
          · rw [ho] at ho'; cases ho'
          · exact hty e' he' ht' o' ho'
      | some o =>
        rw [ho] at h
        simp only at h
        by_cases h3 : crag.type o ≠ NodeType.NoAssignmentNode
        · rw [if_pos h3] at h; cases h
        rw [if_neg h3] at h
        have hto : crag.type o = NodeType.NoAssignmentNode := not_not.1 h3
        have htyE : ∀ e' ∈ e :: l, e'.type = EdgeType.NoAssignmentEdge →
            (∀ e'' ∈ l, e''.type = EdgeType.NoAssignmentEdge →
              ∀ o, Crag.oppositeNode n e'' = some o →
                crag.type o = NodeType.NoAssignmentNode) →
            ∀ o', Crag.oppositeNode n e' = some o' →
              crag.type o' = NodeType.NoAssignmentNode := by
          intro e' he' ht' hty o' ho'
          rcases List.mem_cons.1 he' with rfl | he'
          · rw [ho] at ho'
            simp only [Option.some.injEq] at ho'
            rw [← ho']; exact hto
          · exact hty e' he' ht' o' ho'
        by_cases h4 : ((volumes o).centerZ - (volumes n).centerZ) * d < 0
        · rw [if_pos h4] at h
          obtain ⟨hn, he, hty⟩ := ih s s' h
          refine ⟨hn, fun i => ?_, fun e' he' ht' => htyE e' he' ht' hty⟩
          rw [he i]
          simp only [List.mem_cons, exists_eq_or_imp]
          have : ¬ (e.id = i ∧ e.type = EdgeType.NoAssignmentEdge ∧
              Passes volumes n d e) := by
            rintro ⟨_, _, ⟨o', ho', hz⟩⟩
            rw [ho] at ho'
            simp only [Option.some.injEq] at ho'
            subst ho'
            exact hz h4
          simp only [this, false_or]
        · rw [if_neg h4] at h
          obtain ⟨hn, he, hty⟩ := ih _ s' h
          refine ⟨hn, fun i => ?_, fun e' he' ht' => htyE e' he' ht' hty⟩
          rw [he i]
          simp only [Selection.setEdge, setAt, List.mem_cons, exists_eq_or_imp]
          have hpass : Passes volumes n d e := ⟨o, ho, h4⟩
          by_cases hi : i = e.id
          · subst hi
            simp only [if_true, true_or, true_iff]
            exact Or.inr (Or.inl ⟨trivial, not_not.1 h1, hpass⟩)
          · have hi' : ¬ e.id = i := fun h => hi h.symm
            simp only [if_neg hi, hi', false_and, false_or]

theorem forEach_accumulate {α : Type} (body : Selection → α → Except Failure Selection)
    (Inv : Selection → Prop) (R : α → Nat → Prop) (T : α → Prop) (l : List α)
    (hbody : ∀ a ∈ l, ∀ s s', Inv s → body s a = .ok s' →
      Inv s' ∧ (∀ i, s'.edge i = true ↔ s.edge i = true ∨ R a i) ∧ T a) :
    ∀ s s', Inv s → forEach body l s = .ok s' →
      Inv s' ∧ (∀ i, s'.edge i = true ↔ s.edge i = true ∨ ∃ a ∈ l, R a i) ∧
        ∀ a ∈ l, T a := by
  induction l with
  | nil =>
    intro s s' hI h
    simp only [forEach, Except.ok.injEq] at h
    subst h
    exact ⟨hI, fun i => by simp, fun a ha => absurd ha (List.not_mem_nil _)⟩
  | cons a l ih =>
    intro s s' hI h
    simp only [forEach] at h
    cases hb : body s a with
    | error e => rw [hb] at h; cases h
    | ok s1 =>
      rw [hb] at h
      obtain ⟨hI1, he1, hT1⟩ := hbody a (List.mem_cons_self _ _) s s1 hI hb
      obtain ⟨hI2, he2, hT2⟩ :=
        ih (fun a' ha' => hbody a' (List.mem_cons_of_mem _ ha')) s1 s' hI1 h
      refine ⟨hI2, fun i => ?_, ?_⟩
      · rw [he2 i, he1 i]
        simp only [List.mem_cons, exists_eq_or_imp]
        tauto
      · intro a' ha'
        rcases List.mem_cons.1 ha' with rfl | ha'
        · exact hT1
        · exact hT2 a' ha'

/-- The state kept by `selectNoAssignmentEdges`: the candidates and the
assignment edges stay as they are. -/
theorem selectNoAssignmentEdges_spec (crag : Crag) (volumes : CragVolumes)
    (hid : crag.EdgeIdsDistinct) (sel sel' : Selection)
    (h : selectNoAssignmentEdges crag volumes sel = .ok sel') :
    (sel'.node = sel.node ∧
      ∀ e ∈ crag.edges, e.type = EdgeType.AssignmentEdge → sel'.edge e.id = sel.edge e.id) ∧
    (∀ i, sel'.edge i = true ↔ sel.edge i = true ∨ ∃ m ∈ crag.nodes,
      crag.type m = NodeType.SliceNode ∧ sel.node m = true ∧ ∃ d ∈ [(1 : Int), -1],
        crag.NeedsNoLink volumes sel m d ∧ ∃ e ∈ crag.adjEdges m, e.id = i ∧
          e.type = EdgeType.NoAssignmentEdge ∧ Passes volumes m d e) ∧
    (∀ m ∈ crag.nodes, crag.type m = NodeType.SliceNode → sel.node m = true →
      ∀ d ∈ [(1 : Int), -1], crag.NeedsNoLink volumes sel m d →
        ∀ e ∈ crag.adjEdges m, e.type = EdgeType.NoAssignmentEdge →
          ∀ o, Crag.oppositeNode m e = some o → crag.type o = NodeType.NoAssignmentNode) := by
  unfold selectNoAssignmentEdges at h
  have hneed : ∀ (s : Selection) (m : CragNode) (d : Int),
      (∀ e ∈ crag.edges, e.type = EdgeType.AssignmentEdge → s.edge e.id = sel.edge e.id) →
      (crag.NeedsNoLink volumes s m d ↔ crag.NeedsNoLink volumes sel m d) := by
    intro s m d hs
    unfold Crag.NeedsNoLink
    constructor
    · rintro h1 ⟨e, he, ht, hp, hse⟩
      exact h1 ⟨e, he, ht, hp, by rw [hs e (Crag.mem_edges_of_mem_adjEdges he) ht]; exact hse⟩
    · rintro h1 ⟨e, he, ht, hp, hse⟩
      exact h1 ⟨e, he, ht, hp, by rw [← hs e (Crag.mem_edges_of_mem_adjEdges he) ht]; exact hse⟩
  refine forEach_accumulate _
    (fun s => s.node = sel.node ∧
      ∀ e ∈ crag.edges, e.type = EdgeType.AssignmentEdge → s.edge e.id = sel.edge e.id)
    (fun m i => crag.type m = NodeType.SliceNode ∧ sel.node m = true ∧ ∃ d ∈ [(1 : Int), -1],
      crag.NeedsNoLink volumes sel m d ∧ ∃ e ∈ crag.adjEdges m, e.id = i ∧
        e.type = EdgeType.NoAssignmentEdge ∧ Passes volumes m d e)
    (fun m => crag.type m = NodeType.SliceNode → sel.node m = true →
      ∀ d ∈ [(1 : Int), -1], crag.NeedsNoLink volumes sel m d →
        ∀ e ∈ crag.adjEdges m, e.type = EdgeType.NoAssignmentEdge →
          ∀ o, Crag.oppositeNode m e = some o → crag.type o = NodeType.NoAssignmentNode)
    crag.nodes ?_ sel sel' ⟨rfl, fun _ _ _ => rfl⟩ h
  intro m _ s s' hI hb
  by_cases h1 : crag.type m ≠ NodeType.SliceNode
  · rw [if_pos h1] at hb
    simp only [Except.ok.injEq] at hb
    subst hb
    exact ⟨hI, fun i => by simp [h1], fun h2 => absurd h2 h1⟩
  rw [if_neg h1] at hb
  by_cases h2 : (!s.node m) = true
  · rw [if_pos h2] at hb
    simp only [Except.ok.injEq] at hb
    subst hb
    have hsm : sel.node m = false := by
      rw [← hI.1]; simpa using h2
    exact ⟨hI, fun i => by simp [hsm], fun _ h3 => by rw [hsm] at h3; cases h3⟩
  rw [if_neg h2] at hb
  have hsm : sel.node m = true := by
    rw [← hI.1]; simpa using h2
  obtain ⟨hI', he', hT'⟩ := forEach_accumulate _
    (fun s => s.node = sel.node ∧
      ∀ e ∈ crag.edges, e.type = EdgeType.AssignmentEdge → s.edge e.id = sel.edge e.id)
    (fun (d : Int) i => crag.NeedsNoLink volumes sel m d ∧ ∃ e ∈ crag.adjEdges m, e.id = i ∧
      e.type = EdgeType.NoAssignmentEdge ∧ Passes volumes m d e)
    (fun (d : Int) => crag.NeedsNoLink volumes sel m d →
      ∀ e ∈ crag.adjEdges m, e.type = EdgeType.NoAssignmentEdge →
        ∀ o, Crag.oppositeNode m e = some o → crag.type o = NodeType.NoAssignmentNode)
    [(1 : Int), -1]
    (by
      intro d _ t t' hIt hd
      cases hn : needNoAssignmentNode crag volumes t m d with
      | error e => rw [hn] at hd; cases hd
      | ok need =>
        rw [hn] at hd
        simp only at hd
        have hneedIff := (needNoAssignmentNode_spec crag volumes t m d need hn).trans
          (hneed t m d hIt.2)
        cases need with
        | false =>
          simp only [Bool.not_false, if_true, Except.ok.injEq] at hd
          subst hd
          have hnot : ¬ crag.NeedsNoLink volumes sel m d := fun h3 => by
            have := hneedIff.2 h3
            cases this
          exact ⟨hIt, fun i => by simp [hnot], fun h3 => absurd h3 hnot⟩
        | true =>
          simp only [Bool.not_true, Bool.false_eq_true, if_false] at hd
          have hyes : crag.NeedsNoLink volumes sel m d := hneedIff.1 rfl
          obtain ⟨hn', he', hty'⟩ := selectNoAssignmentEdgesOf_spec crag volumes m d t t' hd
          refine ⟨⟨hn'.trans hIt.1, ?_⟩, fun i => ?_, fun _ => hty'⟩
          · intro e he ht
            rw [← hIt.2 e he ht]
            cases hc : t'.edge e.id with
            | false =>
              cases hc2 : t.edge e.id with
              | false => rfl
              | true =>
                have := (he' e.id).2 (Or.inl hc2)
                rw [hc] at this
                cases this
            | true =>
              rcases (he' e.id).1 hc with h3 | ⟨e2, he2, hid2, ht2, _⟩
              · exact h3.symm
              · rw [Crag.eq_of_id_eq hid (Crag.mem_edges_of_mem_adjEdges he2) he hid2,
                  ht] at ht2
                cases ht2
          · rw [he' i]
            simp only [hyes, true_and])
    s s' hI hb
  refine ⟨hI', fun i => ?_, fun _ _ => hT'⟩
  rw [he' i]
  simp only [not_not.1 h1, hsm, true_and]

theorem InDirection.passes {volumes : CragVolumes} {n : CragNode} {d : Int} {e : CragEdge}
    (h : InDirection volumes n d e) : Passes volumes n d e := by
  obtain ⟨o, ho, hz⟩ := h
  exact ⟨o, ho, by omega⟩

theorem Passes.inDirection {volumes : CragVolumes} {n : CragNode} {d : Int} {e : CragEdge}
    (h : Passes volumes n d e) (hd : d = 1 ∨ d = -1)
    (hz : ∀ o, Crag.oppositeNode n e = some o → zOffset volumes n o ≠ 0) :
    InDirection volumes n d e := by
  obtain ⟨o, ho, hp⟩ := h
  refine ⟨o, ho, ?_⟩
  have := hz o ho
  rcases hd with rfl | rfl <;> omega

theorem direction_unique {volumes : CragVolumes} {n : CragNode} {d d' : Int} {e : CragEdge}
    (h : InDirection volumes n d e) (h' : Passes volumes n d' e)
    (hd : d = 1 ∨ d = -1) (hd' : d' = 1 ∨ d' = -1) : d' = d := by
  obtain ⟨o, ho, hz⟩ := h
  obtain ⟨o', ho', hz'⟩ := h'
  rw [ho] at ho'
  simp only [Option.some.injEq] at ho'
  subst ho'
  rcases hd with rfl | rfl <;> rcases hd' with rfl | rfl <;> first | rfl | omega

/-- C14: when no no-assignment edge is selected beforehand, edge ids are distinct
and every cross-section neighbour of a slice node has a non-zero z offset, then
after `selectNoAssignmentEdges` has returned, for a selected slice node `n`, a
direction `d` and a no-assignment edge `e` of `n` lying in direction `d`: `e` is
selected exactly when no selected assignment edge of `n` lies in direction `d`,
and in either case some selected assignment or no-assignment edge of `n` lies in
direction `d`. -/
theorem noLink_selected_iff (crag : Crag) (volumes : CragVolumes) (sel sel' : Selection)
    (hid : crag.EdgeIdsDistinct)
    (hpre : ∀ e ∈ crag.edges, e.type = EdgeType.NoAssignmentEdge → sel.edge e.id = false)
    (hz : crag.OffsetsNonzero volumes)
    (h : selectNoAssignmentEdges crag volumes sel = .ok sel')
    (n : CragNode) (hn : n ∈ crag.nodes) (hts : crag.type n = NodeType.SliceNode)
    (hsn : sel'.node n = true) (d : Int) (hd : d = 1 ∨ d = -1)
    (e : CragEdge) (he : e ∈ crag.adjEdges n) (hte : e.type = EdgeType.NoAssignmentEdge)
    (hdir : InDirection volumes n d e) :
    (sel'.edge e.id = true ↔
      ¬ ∃ e' ∈ crag.adjEdges n, e'.type = EdgeType.AssignmentEdge ∧
        InDirection volumes n d e' ∧ sel'.edge e'.id = true) ∧
    ∃ e' ∈ crag.adjEdges n,
      (e'.type = EdgeType.AssignmentEdge ∨ e'.type = EdgeType.NoAssignmentEdge) ∧
        InDirection volumes n d e' ∧ sel'.edge e'.id = true := by
  obtain ⟨⟨hnode, hkeep⟩, hedge, htyped⟩ := selectNoAssignmentEdges_spec crag volumes hid sel sel' h
  have hsn0 : sel.node n = true := by rw [← hnode]; exact hsn
  have hdl : d ∈ [(1 : Int), -1] := by
    rcases hd with rfl | rfl <;> simp
  have hiff : sel'.edge e.id = true ↔
      ¬ ∃ e' ∈ crag.adjEdges n, e'.type = EdgeType.AssignmentEdge ∧
        InDirection volumes n d e' ∧ sel'.edge e'.id = true := by
    constructor
    · intro hse
      rcases (hedge e.id).1 hse with h0 | ⟨m, hm, htm, hsm, d', hd', hneed, e2, he2, hid2, ht2, hp2⟩
      · rw [hpre e (Crag.mem_edges_of_mem_adjEdges he) hte] at h0
        cases h0
      · have hee : e2 = e := Crag.eq_of_id_eq hid (Crag.mem_edges_of_mem_adjEdges he2)
          (Crag.mem_edges_of_mem_adjEdges he) hid2
        subst hee
        have hmn : m = n := by
          by_contra hne
          have hopp := Crag.oppositeNode_of_two_ends he he2 hne
          have := htyped m hm htm hsm d' hd' hneed e2 he2 hte n hopp
          rw [hts] at this
          cases this
        subst hmn
        have hd'' : d' = 1 ∨ d' = -1 := by simpa using hd'
        have hdd := direction_unique hdir hp2 hd hd''
        subst hdd
        rintro ⟨e', he', hte', hdir', hse'⟩
        exact hneed ⟨e', he', hte', hdir'.passes,
          by rw [← hkeep e' (Crag.mem_edges_of_mem_adjEdges he') hte']; exact hse'⟩
    · intro hno
      refine (hedge e.id).2 (Or.inr ⟨n, hn, hts, hsn0, d, hdl, ?_, e, he, rfl, hte, hdir.passes⟩)
      rintro ⟨e', he', hte', hp', hse'⟩
      exact hno ⟨e', he', hte',
        hp'.inDirection hd (hz n hn hts e' he' (Or.inl hte')),
        by rw [hkeep e' (Crag.mem_edges_of_mem_adjEdges he') hte']; exact hse'⟩
  refine ⟨hiff, ?_⟩
  by_cases hex : ∃ e' ∈ crag.adjEdges n, e'.type = EdgeType.AssignmentEdge ∧
      InDirection volumes n d e' ∧ sel'.edge e'.id = true
  · obtain ⟨e', he', hte', hdir', hse'⟩ := hex
    exact ⟨e', he', Or.inl hte', hdir', hse'⟩
  · exact ⟨e, he, Or.inr hte, hdir, hiff.2 hex⟩

/-- In `fallbackCrag` the slice node `1` has its assignment edge above and none
below: the no-assignment edge below it is selected. -/
theorem noLink_selected_iff_witness :
    ((selectionOf (selectNoAssignmentEdges fallbackCrag fallbackVolumes fallbackSelected)).edge 2
        = true ↔
      ¬ ∃ e' ∈ fallbackCrag.adjEdges 1, e'.type = EdgeType.AssignmentEdge ∧
        InDirection fallbackVolumes 1 (-1) e' ∧
        (selectionOf (selectNoAssignmentEdges fallbackCrag fallbackVolumes
          fallbackSelected)).edge e'.id = true) ∧
    ∃ e' ∈ fallbackCrag.adjEdges 1,
      (e'.type = EdgeType.AssignmentEdge ∨ e'.type = EdgeType.NoAssignmentEdge) ∧
        InDirection fallbackVolumes 1 (-1) e' ∧
        (selectionOf (selectNoAssignmentEdges fallbackCrag fallbackVolumes
          fallbackSelected)).edge e'.id = true :=
  noLink_selected_iff fallbackCrag fallbackVolumes fallbackSelected
    (selectionOf (selectNoAssignmentEdges fallbackCrag fallbackVolumes fallbackSelected))
    (by decide) (by decide) (by decide) rfl 1 (by decide) (by decide) rfl (-1) (by decide)
    ⟨2, 1, 20, EdgeType.NoAssignmentEdge⟩ (by decide) rfl (by decide)

theorem forEach_prefix {α σ : Type} (body : σ → α → Except Failure σ)
    (J : List α → σ → Prop) (l : List α)
    (hstep : ∀ P a s s', a ∈ l → J P s → body s a = .ok s' → J (P ++ [a]) s') :
    ∀ P s s', J P s → forEach body l s = .ok s' → J (P ++ l) s' := by
  induction l with
  | nil =>
    intro P s s' hJ h
    simp only [forEach, Except.ok.injEq] at h
    subst h
    simpa using hJ
  | cons a l ih =>
    intro P s s' hJ h
    simp only [forEach] at h
    cases hb : body s a with
    | error e => rw [hb] at h; cases h
    | ok s1 =>
      rw [hb] at h
      have h1 := hstep P a s s1 (List.mem_cons_self _ _) hJ hb
      have h2 := ih (fun P a s s' ha => hstep P a s s' (List.mem_cons_of_mem _ ha))
        (P ++ [a]) s1 s' h1 h
      simpa using h2

theorem forEach_append {α σ : Type} (body : σ → α → Except Failure σ) (l1 l2 : List α) :
    ∀ s s', forEach body (l1 ++ l2) s = .ok s' →
      ∃ s1, forEach body l1 s = .ok s1 ∧ forEach body l2 s1 = .ok s' := by
  induction l1 with
  | nil =>
    intro s s' h
    exact ⟨s, rfl, h⟩
  | cons a l ih =>
    intro s s' h
    simp only [List.cons_append, forEach] at h ⊢
    cases hb : body s a with
    | error e => rw [hb] at h; cases h
    | ok s1 =>
      rw [hb] at h
      exact ih s1 s' h

theorem unselectNode_node (crag : Crag) (r : CragNode) (s : Selection) (x : CragNode) :
    (unselectNode crag r s).node x = true ↔ s.node x = true ∧ x ≠ r := by
  unfold unselectNode
  rw [foldl_setEdge_node (fun s e => s.setEdge e false) (fun _ _ => rfl)]
  simp only [Selection.setNode, setAt]
  by_cases hx : x = r
  · simp [hx]
  · simp [hx]

theorem foldl_unselect_edge (l : List CragEdge) :
    ∀ (s : Selection) (i : Nat),
      (l.foldl (fun s e => s.setEdge e false) s).edge i = true ↔
        s.edge i = true ∧ ∀ e ∈ l, e.id ≠ i := by
  induction l with
  | nil => intro s i; simp
  | cons a l ih =>
    intro s i
    simp only [List.foldl_cons]
    rw [ih]
    simp only [Selection.setEdge, setAt, List.mem_cons, forall_eq_or_imp]
    by_cases hi : i = a.id
    · simp [hi]
    · have : a.id ≠ i := fun h => hi h.symm
      simp [hi, this]

theorem unselectNode_edge (crag : Crag) (r : CragNode) (s : Selection) (i : Nat) :
    (unselectNode crag r s).edge i = true ↔
      s.edge i = true ∧ ∀ e ∈ crag.adjEdges r, e.id ≠ i := by
  unfold unselectNode
  rw [foldl_unselect_edge]
  rfl

theorem Crag.mem_adjEdges_opposite {crag : Crag} {n o : CragNode} {e : CragEdge}
    (he : e ∈ crag.adjEdges n) (ho : Crag.oppositeNode n e = some o) :
    e ∈ crag.adjEdges o := by
  refine List.mem_filter.2 ⟨Crag.mem_edges_of_mem_adjEdges he, ?_⟩
  unfold Crag.oppositeNode at ho
  simp only [decide_eq_true_eq]
  by_cases h1 : n = e.u
  · rw [if_pos h1] at ho
    simp only [Option.some.injEq] at ho
    exact Or.inr ho
  · rw [if_neg h1] at ho
    by_cases h2 : n = e.v
    · rw [if_pos h2] at ho
      simp only [Option.some.injEq] at ho
      exact Or.inl ho
    · rw [if_neg h2] at ho
      cases ho

theorem Crag.Removed.refl (crag : Crag) (s : Selection) : crag.Removed [] s s :=
  ⟨fun x => by simp, fun i => by simp⟩

theorem Crag.Removed.cons {crag : Crag} {R : List CragNode} {s0 s : Selection}
    (h : crag.Removed R s0 s) (r : CragNode) :
    crag.Removed (r :: R) s0 (unselectNode crag r s) := by
  refine ⟨fun x => ?_, fun i => ?_⟩
  · rw [unselectNode_node, h.1 x]
    simp only [List.mem_cons, not_or]
    tauto
  · rw [unselectNode_edge, h.2 i]
    simp only [List.mem_cons, forall_eq_or_imp]
    tauto

theorem Crag.Removed.linked {crag : Crag} {R : List CragNode} {s0 s : Selection}
    (h : crag.Removed R s0 s) {n : CragNode} (hl : crag.Linked s0 n) : crag.Linked s n := by
  intro e he ht hs o ho
  have h1 := (h.2 e.id).1 hs
  refine (h.1 o).2 ⟨hl e he ht h1.1 o ho, fun hR => ?_⟩
  exact h1.2 o hR e (Crag.mem_adjEdges_opposite he ho) rfl

theorem Live.weaken {volumes : CragVolumes} {s0 s : Selection} {n : CragNode} {d : Int}
    {e : CragEdge} (hm : ∀ i, s.edge i = true → s0.edge i = true)
    (h : Live volumes s n d e) : Live volumes s0 n d e :=
  ⟨h.1, hm _ h.2.1, h.2.2⟩

/-- The three ways in which the body of the innermost loop of
`explanationConstraint` returns: the edge is skipped, it is the first one
counted, or it is counted after another one and a node is removed. -/
theorem explanationEdge_cases (crag : Crag) (volumes : CragVolumes) (gt : CragNode → Int)
    (overlaps : CragNode → Histogram) (n : CragNode) (d : Int)
    (st st' : RepairState) (edge : CragEdge)
    (h : explanationEdge crag volumes gt overlaps n d st edge = .ok st') :
    (st' = st ∧ ¬ Live volumes st.sel n d edge) ∨
    (Live volumes st.sel n d edge ∧ ∃ o, Crag.oppositeNode n edge = some o ∧
      crag.type o = NodeType.AssignmentNode ∧
      ((st.assignmentSelected = 0 ∧
          st' = ⟨st.sel, if st.sel.node o then some o else st.previous, 1⟩) ∨
        (1 ≤ st.assignmentSelected ∧ ∃ p, st.previous = some p ∧
          st' = ⟨unselectNode crag
              (if (overlaps p).get (gt p) > (overlaps o).get (gt p) then o else p) st.sel,
            if (unselectNode crag
              (if (overlaps p).get (gt p) > (overlaps o).get (gt p) then o else p)
                st.sel).node o then some o else st.previous,
            st.assignmentSelected⟩))) := by
  unfold explanationEdge at h
  by_cases h1 : edge.type ≠ EdgeType.AssignmentEdge
  · rw [if_pos h1] at h
    simp only [Except.ok.injEq] at h
    exact Or.inl ⟨h.symm, fun hl => h1 hl.1⟩
  rw [if_neg h1] at h
  by_cases h2 : (!st.sel.edge edge.id) = true
  · rw [if_pos h2] at h
    simp only [Except.ok.injEq] at h
    refine Or.inl ⟨h.symm, fun hl => ?_⟩
    rw [hl.2.1] at h2
    cases h2
  rw [if_neg h2] at h
  have hsel : st.sel.edge edge.id = true := by simpa using h2
  cases ho : Crag.oppositeNode n edge with
  | none =>
    rw [ho] at h
    simp only [Except.ok.injEq] at h
    refine Or.inl ⟨h.symm, fun hl => ?_⟩
    obtain ⟨o, ho', _⟩ := hl.2.2
    rw [ho] at ho'
    cases ho'
  | some o =>
    rw [ho] at h
    simp only at h
    by_cases h3 : crag.type o ≠ NodeType.AssignmentNode
    · rw [if_pos h3] at h
      cases h
    rw [if_neg h3] at h
    by_cases h4 : ((volumes o).centerZ - (volumes n).centerZ) * d < 0
    · rw [if_pos h4] at h
      simp only [Except.ok.injEq] at h
      refine Or.inl ⟨h.symm, fun hl => ?_⟩
      obtain ⟨o', ho', hz⟩ := hl.2.2
      rw [ho] at ho'
      simp only [Option.some.injEq] at ho'
      subst ho'
      exact hz h4
    rw [if_neg h4] at h
    refine Or.inr ⟨⟨not_not.1 h1, hsel, o, ho, h4⟩, o, rfl, not_not.1 h3, ?_⟩
    by_cases h5 : st.assignmentSelected + 1 > 1
    · rw [if_pos h5] at h
      cases hp : st.previous with
      | none =>
        rw [hp] at h
        cases h
      | some p =>
        rw [hp] at h
        simp only [Except.ok.injEq] at h
        refine Or.inr ⟨by omega, p, rfl, ?_⟩
        rw [← h]
        rfl
    · rw [if_neg h5] at h
      simp only [Except.ok.injEq] at h
      refine Or.inl ⟨by omega, ?_⟩
      rw [← h]
      have : st.assignmentSelected = 0 := by omega
      rw [this]

/-- Edges that are not counted leave the state of the repair as it is. -/
theorem explanationEdges_skip (crag : Crag) (volumes : CragVolumes) (gt : CragNode → Int)
    (overlaps : CragNode → Histogram) (n : CragNode) (d : Int) (l : List CragEdge)
    (st st' : RepairState)
    (hl : ∀ e ∈ l, ¬ Live volumes st.sel n d e)
    (h : forEach (explanationEdge crag volumes gt overlaps n d) l st = .ok st') :
    st' = st := by
  refine forEach_invariant _ (fun t => t = st) l ?_ st st' rfl h
  intro s a s' ha hs hb
  subst hs
  rcases explanationEdge_cases crag volumes gt overlaps n d s s' a hb with h1 | h1
  · exact h1.1
  · exact absurd h1.1 (hl a ha)

/-- One direction of the repair at the slice node `n`: the nodes removed were
reached by counted edges, and at most one counted edge is left. -/
theorem explanationDirection_spec (crag : Crag) (volumes : CragVolumes) (gt : CragNode → Int)
    (overlaps : CragNode → Histogram) (n : CragNode) (d : Int) (s0 : Selection)
    (prev0 : Option CragNode) (st' : RepairState) (hl : crag.Linked s0 n)
    (h : forEach (explanationEdge crag volumes gt overlaps n d) (crag.adjEdges n)
      ⟨s0, prev0, 0⟩ = .ok st') :
    ∃ R, (∀ x ∈ R, crag.Competitor volumes s0 n d x) ∧ crag.Removed R s0 st'.sel ∧
      ∀ e ∈ crag.adjEdges n, ∀ e' ∈ crag.adjEdges n,
        Live volumes st'.sel n d e → Live volumes st'.sel n d e' → e = e' := by
  have key := forEach_prefix (explanationEdge crag volumes gt overlaps n d)
    (fun P st => (∀ e ∈ P, e ∈ crag.adjEdges n) ∧
      ∃ R, (∀ x ∈ R, crag.Competitor volumes s0 n d x) ∧
      crag.Removed R s0 st.sel ∧
      (st.assignmentSelected = 0 → ∀ e ∈ P, ¬ Live volumes st.sel n d e) ∧
      (∀ e ∈ P, ∀ e' ∈ P, Live volumes st.sel n d e → Live volumes st.sel n d e' → e = e') ∧
      (1 ≤ st.assignmentSelected → ∃ p, st.previous = some p ∧
        crag.Competitor volumes s0 n d p ∧
        ∀ e ∈ P, Live volumes st.sel n d e → Crag.oppositeNode n e = some p))
    (crag.adjEdges n) ?_ [] ⟨s0, prev0, 0⟩ st'
    ⟨fun e he => absurd he (List.not_mem_nil _),
      [], fun x hx => absurd hx (List.not_mem_nil _), Crag.Removed.refl crag s0,
      fun _ e he => absurd he (List.not_mem_nil _),
      fun e he => absurd he (List.not_mem_nil _),
      fun h0 => (Nat.not_succ_le_zero 0 h0).elim⟩ h
  · obtain ⟨_, R, hR, hrem, _, huniq, _⟩ := key
    exact ⟨R, hR, hrem, fun e he e' he' => huniq e (by simpa using he) e' (by simpa using he')⟩
  intro P a st st1 ha ⟨hP, R, hR, hrem, hzero, huniq, hprev⟩ hb
  have hlinked : crag.Linked st.sel n := hrem.linked hl
  have hmono : ∀ i, st.sel.edge i = true → s0.edge i = true := fun i hi => ((hrem.2 i).1 hi).1
  have hP' : ∀ e ∈ P ++ [a], e ∈ crag.adjEdges n := by
    intro e he
    rcases List.mem_append.1 he with he | he
    · exact hP e he
    · rw [List.mem_singleton.1 he]; exact ha
  refine ⟨hP', ?_⟩
  rcases explanationEdge_cases crag volumes gt overlaps n d st st1 a hb with
    ⟨rfl, hnl⟩ | ⟨hlive, o, ho, hto, hcase⟩
  · refine ⟨R, hR, hrem, fun h0 e he => ?_, fun e he e' he' h1 h2 => ?_, fun h1 => ?_⟩
    · rcases List.mem_append.1 he with he | he
      · exact hzero h0 e he
      · rw [List.mem_singleton.1 he]; exact hnl
    · rcases List.mem_append.1 he with he | he
      · rcases List.mem_append.1 he' with he' | he'
        · exact huniq e he e' he' h1 h2
        · rw [List.mem_singleton.1 he'] at h2; exact absurd h2 hnl
      · rw [List.mem_singleton.1 he] at h1; exact absurd h1 hnl
    · obtain ⟨p, hp, hcp, hop⟩ := hprev h1
      refine ⟨p, hp, hcp, fun e he h2 => ?_⟩
      rcases List.mem_append.1 he with he | he
      · exact hop e he h2
      · rw [List.mem_singleton.1 he] at h2; exact absurd h2 hnl
  have hco : crag.Competitor volumes s0 n d o := ⟨hto, a, ha, hlive.weaken hmono, ho⟩
  have hso : st.sel.node o = true := hlinked a ha hlive.1 hlive.2.1 o ho
  rcases hcase with ⟨h0, rfl⟩ | ⟨h1, p, hp, rfl⟩
  · refine ⟨R, hR, hrem, fun h0' => absurd h0' Nat.one_ne_zero, fun e he e' he' h1 h2 => ?_,
      fun _ => ⟨o, by simp only [hso, if_true], hco, fun e he h2 => ?_⟩⟩
    · have e1 : e = a := by
        rcases List.mem_append.1 he with he | he
        · exact absurd h1 (hzero h0 e he)
        · exact List.mem_singleton.1 he
      have e2 : e' = a := by
        rcases List.mem_append.1 he' with he' | he'
        · exact absurd h2 (hzero h0 e' he')
        · exact List.mem_singleton.1 he'
      rw [e1, e2]
    · rcases List.mem_append.1 he with he | he
      · exact absurd h2 (hzero h0 e he)
      · rw [List.mem_singleton.1 he]; exact ho
  · obtain ⟨p', hp', hcp, hop⟩ := hprev h1
    rw [hp] at hp'
    simp only [Option.some.injEq] at hp'
    subst hp'
    generalize hr : (if (overlaps p).get (gt p) > (overlaps o).get (gt p) then o else p) = r
    have hrcases : r = o ∨ r = p := by
      rw [← hr]
      split_ifs
      · exact Or.inl rfl
      · exact Or.inr rfl
    have hcr : crag.Competitor volumes s0 n d r := by
      rcases hrcases with rfl | rfl
      · exact hco
      · exact hcp
    have hmono2 : ∀ i, (unselectNode crag r st.sel).edge i = true → st.sel.edge i = true :=
      fun i hi => ((unselectNode_edge crag r st.sel i).1 hi).1
    refine ⟨r :: R, fun x hx => ?_, hrem.cons r,
      fun h0 => absurd h1 (by rw [show st.assignmentSelected = 0 from h0]; decide), ?_⟩
    · rcases List.mem_cons.1 hx with rfl | hx
      · exact hcr
      · exact hR x hx
    by_cases hor : o = r
    · -- the edge just counted is unselected together with its node
      have hna : ¬ Live volumes (unselectNode crag r st.sel) n d a := fun hl2 =>
        ((unselectNode_edge crag r st.sel a.id).1 hl2.2.1).2 a
          (hor ▸ Crag.mem_adjEdges_opposite ha ho) rfl
      have hold : ∀ e ∈ P ++ [a], Live volumes (unselectNode crag r st.sel) n d e →
          e ∈ P ∧ Live volumes st.sel n d e := by
        intro e he h2
        rcases List.mem_append.1 he with he | he
        · exact ⟨he, h2.weaken hmono2⟩
        · rw [List.mem_singleton.1 he] at h2; exact absurd h2 hna
      refine ⟨fun e he e' he' h2 h3 => ?_, fun _ => ⟨p, ?_, hcp, fun e he h2 => ?_⟩⟩
      · exact huniq e (hold e he h2).1 e' (hold e' he' h3).1 (hold e he h2).2 (hold e' he' h3).2
      · have hn : (unselectNode crag r st.sel).node o = false := by
          cases hc : (unselectNode crag r st.sel).node o with
          | false => rfl
          | true => exact absurd hor ((unselectNode_node crag r st.sel o).1 hc).2
        simp only [hn, Bool.false_eq_true, if_false]
        exact hp
      · exact hop e (hold e he h2).1 (hold e he h2).2
    · have hrp : r = p := by
        rcases hrcases with h | h
        · exact absurd h.symm hor
        · exact h
      have hnone : ∀ e ∈ P, ¬ Live volumes (unselectNode crag r st.sel) n d e := by
        intro e he hl2
        have hpe := hop e he (hl2.weaken hmono2)
        exact ((unselectNode_edge crag r st.sel e.id).1 hl2.2.1).2 e
          (hrp ▸ Crag.mem_adjEdges_opposite (hP e he) hpe) rfl
      have hnew : ∀ e ∈ P ++ [a], Live volumes (unselectNode crag r st.sel) n d e → e = a := by
        intro e he h2
        rcases List.mem_append.1 he with he | he
        · exact absurd h2 (hnone e he)
        · exact List.mem_singleton.1 he
      refine ⟨fun e he e' he' h2 h3 => ?_, fun _ => ⟨o, ?_, hco, fun e he h2 => ?_⟩⟩
      · rw [hnew e he h2, hnew e' he' h3]
      · have hn : (unselectNode crag r st.sel).node o = true :=
          (unselectNode_node crag r st.sel o).2 ⟨hso, hor⟩
        simp only [hn, if_true]
      · rw [hnew e he h2]; exact ho

/-- One direction of the repair when exactly the two edges `eA` and `eB` are
counted, `eA` first: the node kept is the one with the larger overlap with the
label of `A`. -/
theorem explanationDirection_two (crag : Crag) (volumes : CragVolumes) (gt : CragNode → Int)
    (overlaps : CragNode → Histogram) (n : CragNode) (d : Int) (s0 : Selection)
    (prev0 : Option CragNode) (st' : RepairState)
    (l1 l2 l3 : List CragEdge) (eA eB : CragEdge) (A B : CragNode)
    (hA : Live volumes s0 n d eA) (hoA : Crag.oppositeNode n eA = some A)
    (hsA : s0.node A = true)
    (hB : Live volumes s0 n d eB) (hoB : Crag.oppositeNode n eB = some B)
    (hrest : ∀ e ∈ l1 ++ l2 ++ l3, ¬ Live volumes s0 n d e)
    (h : forEach (explanationEdge crag volumes gt overlaps n d)
      (l1 ++ eA :: (l2 ++ eB :: l3)) ⟨s0, prev0, 0⟩ = .ok st') :
    st'.sel = unselectNode crag
      (if (overlaps A).get (gt A) > (overlaps B).get (gt A) then B else A) s0 := by
  obtain ⟨t1, h1, h⟩ := forEach_append _ l1 _ _ _ h
  have e1 := explanationEdges_skip crag volumes gt overlaps n d l1 _ t1
    (fun e he => hrest e (by simp [he])) h1
  subst e1
  simp only [forEach] at h
  cases hb : explanationEdge crag volumes gt overlaps n d ⟨s0, prev0, 0⟩ eA with
  | error e => rw [hb] at h; cases h
  | ok t2 =>
    rw [hb] at h
    simp only at h
    rcases explanationEdge_cases crag volumes gt overlaps n d _ t2 eA hb with
      ⟨_, hnl⟩ | ⟨_, o, ho, _, hcase⟩
    · exact absurd hA hnl
    rw [hoA] at ho
    simp only [Option.some.injEq] at ho
    subst ho
    rcases hcase with ⟨_, ht2⟩ | ⟨h1', _⟩
    swap
    · exact absurd h1' (Nat.not_succ_le_zero 0)
    simp only [hsA, if_true] at ht2
    subst ht2
    obtain ⟨t3, h3, h⟩ := forEach_append _ l2 _ _ _ h
    have e3 := explanationEdges_skip crag volumes gt overlaps n d l2 _ t3
      (fun e he => hrest e (by simp [he])) h3
    subst e3
    simp only [forEach] at h
    cases hb2 : explanationEdge crag volumes gt overlaps n d ⟨s0, some A, 1⟩ eB with
    | error e => rw [hb2] at h; cases h
    | ok t4 =>
      rw [hb2] at h
      simp only at h
      rcases explanationEdge_cases crag volumes gt overlaps n d _ t4 eB hb2 with
        ⟨_, hnl⟩ | ⟨_, o, ho, _, hcase⟩
      · exact absurd hB hnl
      rw [hoB] at ho
      simp only [Option.some.injEq] at ho
      subst ho
      rcases hcase with ⟨h0, _⟩ | ⟨_, p, hp, ht4⟩
      · exact absurd h0 Nat.one_ne_zero
      simp only [Option.some.injEq] at hp
      subst hp
      have e5 := explanationEdges_skip crag volumes gt overlaps n d l3 t4 st'
        (fun e he hl => hrest e (by simp [he]) (hl.weaken (fun i hi => by
          rw [ht4] at hi
          exact ((unselectNode_edge crag _ s0 i).1 hi).1))) h
      rw [e5, ht4]

/-- The two direction loops of `explanationConstraint` for one slice node. -/
theorem explanationNode_stages (crag : Crag) (volumes : CragVolumes) (gt : CragNode → Int)
    (overlaps : CragNode → Histogram) (n : CragNode) (s s' : Selection)
    (h : explanationNode crag volumes gt overlaps n s = .ok s') :
    ∃ st1 st2,
      forEach (explanationEdge crag volumes gt overlaps n 1) (crag.adjEdges n)
        ⟨s, none, 0⟩ = .ok st1 ∧
      forEach (explanationEdge crag volumes gt overlaps n (-1)) (crag.adjEdges n)
        ⟨st1.sel, st1.previous, 0⟩ = .ok st2 ∧ s' = st2.sel := by
  unfold explanationNode at h
  simp only [forEach] at h
  cases h1 : forEach (explanationEdge crag volumes gt overlaps n 1) (crag.adjEdges n)
      ⟨s, none, 0⟩ with
  | error e => rw [h1] at h; cases h
  | ok st1 =>
    rw [h1] at h
    simp only at h
    cases h2 : forEach (explanationEdge crag volumes gt overlaps n (-1)) (crag.adjEdges n)
        ⟨st1.sel, st1.previous, 0⟩ with
    | error e => rw [h2] at h; cases h
    | ok st2 =>
      rw [h2] at h
      simp only [Except.ok.injEq] at h
      exact ⟨st1, st2, rfl, h2, h.symm⟩

theorem Live.not_against {volumes : CragVolumes} {s : Selection} {n o : CragNode} {d : Int}
    {e : CragEdge} (h : Live volumes s n d e) (ho : Crag.oppositeNode n e = some o) :
    ¬ zOffset volumes n o * d < 0 := by
  obtain ⟨o', ho', hz⟩ := h.2.2
  rw [ho] at ho'
  simp only [Option.some.injEq] at ho'
  subst ho'
  exact hz

theorem Crag.Competitor.offset {crag : Crag} {volumes : CragVolumes} {s : Selection}
    {n x : CragNode} {d : Int} (h : crag.Competitor volumes s n d x) :
    ¬ zOffset volumes n x * d < 0 := by
  obtain ⟨_, e, _, hl, ho⟩ := h
  exact hl.not_against ho

theorem Crag.endpoint_of_opposite {crag : Crag} {n x o : CragNode} {e : CragEdge}
    (he : e ∈ crag.adjEdges x) (ho : Crag.oppositeNode n e = some o) : x = n ∨ x = o := by
  have h1 := (List.mem_filter.1 he).2
  simp only [decide_eq_true_eq] at h1
  unfold Crag.oppositeNode at ho
  by_cases h2 : n = e.u
  · rw [if_pos h2] at ho
    simp only [Option.some.injEq] at ho
    rcases h1 with h1 | h1
    · exact Or.inl (h1.symm.trans h2.symm)
    · exact Or.inr (h1.symm.trans ho)
  · rw [if_neg h2] at ho
    by_cases h3 : n = e.v
    · rw [if_pos h3] at ho
      simp only [Option.some.injEq] at ho
      rcases h1 with h1 | h1
      · exact Or.inr (h1.symm.trans ho)
      · exact Or.inl (h1.symm.trans h3.symm)
    · rw [if_neg h3] at ho
      cases ho

/-- An edge at the slice node `n` counted in one direction is not touched when
nodes reached in the opposite direction are removed. -/
theorem Live.of_removed_against {crag : Crag} {volumes : CragVolumes} {s s1 : Selection}
    {n o : CragNode} {d : Int} {e : CragEdge} {R : List CragNode}
    (hid : crag.EdgeIdsDistinct) (hts : crag.type n = NodeType.SliceNode)
    (he : e ∈ crag.adjEdges n) (hl : Live volumes s n d e)
    (ho : Crag.oppositeNode n e = some o) (hpos : 0 < zOffset volumes n o * d)
    (hR : ∀ x ∈ R, crag.Competitor volumes s n (-d) x) (hrem : crag.Removed R s s1) :
    Live volumes s1 n d e ∧ o ∉ R := by
  have hnot : o ∉ R := fun hoR => by
    have := (hR o hoR).offset
    rw [mul_neg] at this
    omega
  refine ⟨⟨hl.1, (hrem.2 e.id).2 ⟨hl.2.1, fun x hx e' he' hid' => ?_⟩, hl.2.2⟩, hnot⟩
  have hee : e' = e := Crag.eq_of_id_eq hid (Crag.mem_edges_of_mem_adjEdges he')
    (Crag.mem_edges_of_mem_adjEdges he) hid'
  subst hee
  rcases Crag.endpoint_of_opposite he' ho with rfl | rfl
  · have := (hR x hx).1
    rw [hts] at this
    cases this
  · exact hnot hx

/-- C12: let `n` be a slice node of a CRAG with distinct edge ids, in a state
where every selected assignment edge at `n` leads to a selected node with a
non-zero z offset, and let exactly two selected assignment edges at `n` be
counted in the direction `d`: `eA` (visited first, leading to `A`) and `eB`
(leading to `B`), the overlaps of `A` and `B` with the label of `A` being
different. When the repair of `explanationConstraint` for `n` has returned, the
node with the larger overlap is selected, the node with the smaller overlap is
unselected, and so is every edge at the node with the smaller overlap. -/
theorem repair_keeps_larger_overlap (crag : Crag) (volumes : CragVolumes)
    (gt : CragNode → Int) (overlaps : CragNode → Histogram) (n : CragNode)
    (s s' : Selection) (hid : crag.EdgeIdsDistinct)
    (hts : crag.type n = NodeType.SliceNode) (hlink : crag.Linked s n)
    (hz : ∀ e ∈ crag.adjEdges n, e.type = EdgeType.AssignmentEdge → s.edge e.id = true →
      ∀ o, Crag.oppositeNode n e = some o → zOffset volumes n o ≠ 0)
    (d : Int) (hd : d = 1 ∨ d = -1)
    (l1 l2 l3 : List CragEdge) (eA eB : CragEdge) (A B : CragNode)
    (hl : crag.adjEdges n = l1 ++ eA :: (l2 ++ eB :: l3))
    (hA : Live volumes s n d eA) (hoA : Crag.oppositeNode n eA = some A)
    (hB : Live volumes s n d eB) (hoB : Crag.oppositeNode n eB = some B)
    (hrest : ∀ e ∈ l1 ++ l2 ++ l3, ¬ Live volumes s n d e)
    (hne : (overlaps A).get (gt A) ≠ (overlaps B).get (gt A))
    (h : explanationNode crag volumes gt overlaps n s = .ok s') :
    s'.node (if (overlaps A).get (gt A) > (overlaps B).get (gt A) then A else B) = true ∧
    s'.node (if (overlaps A).get (gt A) > (overlaps B).get (gt A) then B else A) = false ∧
    ∀ e ∈ crag.adjEdges (if (overlaps A).get (gt A) > (overlaps B).get (gt A) then B else A),
      s'.edge e.id = false := by
  have heA : eA ∈ crag.adjEdges n := by rw [hl]; simp
  have heB : eB ∈ crag.adjEdges n := by rw [hl]; simp
  have hAB : A ≠ B := fun hab => hne (by rw [hab])
  have hsA : s.node A = true := hlink eA heA hA.1 hA.2.1 A hoA
  have hsB : s.node B = true := hlink eB heB hB.1 hB.2.1 B hoB
  have hpA : 0 < zOffset volumes n A * d := by
    have h1 := hA.not_against hoA
    have h2 := hz eA heA hA.1 hA.2.1 A hoA
    rcases hd with rfl | rfl <;> omega
  have hpB : 0 < zOffset volumes n B * d := by
    have h1 := hB.not_against hoB
    have h2 := hz eB heB hB.1 hB.2.1 B hoB
    rcases hd with rfl | rfl <;> omega
  -- it suffices to follow the node `L` that is removed
  suffices hmain : ∀ L, L = (if (overlaps A).get (gt A) > (overlaps B).get (gt A) then B else A) →
      (∀ X, (X = A ∨ X = B) → X ≠ L → s'.node X = true) ∧ s'.node L = false ∧
        ∀ e ∈ crag.adjEdges L, s'.edge e.id = false by
    obtain ⟨h1, h2, h3⟩ := hmain _ rfl
    refine ⟨?_, h2, h3⟩
    by_cases hgt : (overlaps A).get (gt A) > (overlaps B).get (gt A)
    · simp only [hgt, if_true] at h1 ⊢
      exact h1 A (Or.inl rfl) hAB
    · simp only [hgt, if_false] at h1 ⊢
      exact h1 B (Or.inr rfl) (fun hba => hAB hba.symm)
  intro L hL
  obtain ⟨st1, st2, h1, h2, rfl⟩ := explanationNode_stages crag volumes gt overlaps n s s' h
  have hfalse : ∀ (t : Selection) (b : Bool), (b = true → False) → b = false := by
    intro _ b hb
    cases b with
    | false => rfl
    | true => exact (hb rfl).elim
  rcases hd with rfl | rfl
  · -- the two edges are counted in the first direction
    rw [hl] at h1
    have e1 := explanationDirection_two crag volumes gt overlaps n 1 s none st1 l1 l2 l3
      eA eB A B hA hoA hsA hB hoB hrest h1
    rw [← hL] at e1
    have hrem1 : crag.Removed [L] s st1.sel := by
      rw [e1]
      exact (Crag.Removed.refl crag s).cons L
    obtain ⟨R, hR, hrem, _⟩ := explanationDirection_spec crag volumes gt overlaps n (-1)
      st1.sel st1.previous st2 (hrem1.linked hlink) h2
    have hRs : ∀ x ∈ R, crag.Competitor volumes s n (-1) x := fun x hx => by
      obtain ⟨ht, e, he, hle, hoe⟩ := hR x hx
      exact ⟨ht, e, he, hle.weaken (fun i hi => ((hrem1.2 i).1 hi).1), hoe⟩
    refine ⟨fun X hX hXL => ?_, ?_, fun e he => ?_⟩
    · refine (hrem.1 X).2 ⟨(hrem1.1 X).2 ⟨?_, by simpa using hXL⟩, fun hXR => ?_⟩
      · rcases hX with rfl | rfl
        · exact hsA
        · exact hsB
      · have := (hRs X hXR).offset
        rcases hX with rfl | rfl <;> omega
    · exact hfalse s _ (fun hc => ((hrem1.1 L).1 ((hrem.1 L).1 hc).1).2 (by simp))
    · exact hfalse s _ (fun hc => ((hrem1.2 e.id).1 ((hrem.2 e.id).1 hc).1).2 L (by simp) e he rfl)
  · -- the two edges are counted in the second direction
    obtain ⟨R, hR, hrem, _⟩ := explanationDirection_spec crag volumes gt overlaps n 1
      s none st1 hlink h1
    have hR' : ∀ x ∈ R, crag.Competitor volumes s n (-(-1)) x := by
      simpa using hR
    have hA1 := Live.of_removed_against hid hts heA hA hoA hpA hR' hrem
    have hB1 := Live.of_removed_against hid hts heB hB hoB hpB hR' hrem
    rw [hl] at h2
    have e2 := explanationDirection_two crag volumes gt overlaps n (-1) st1.sel st1.previous
      st2 l1 l2 l3 eA eB A B hA1.1 hoA ((hrem.1 A).2 ⟨hsA, hA1.2⟩) hB1.1 hoB
      (fun e he hle => hrest e he (hle.weaken (fun i hi => ((hrem.2 i).1 hi).1))) h2
    rw [← hL] at e2
    refine ⟨fun X hX hXL => ?_, ?_, fun e he => ?_⟩
    · rw [e2]
      refine (unselectNode_node crag L st1.sel X).2 ⟨(hrem.1 X).2 ?_, hXL⟩
      rcases hX with rfl | rfl
      · exact ⟨hsA, hA1.2⟩
      · exact ⟨hsB, hB1.2⟩
    · rw [e2]
      exact hfalse s _ (fun hc => ((unselectNode_node crag L st1.sel L).1 hc).2 rfl)
    · rw [e2]
      exact hfalse s _ (fun hc => ((unselectNode_edge crag L st1.sel e.id).1 hc).2 e he rfl)

/-- In `repairCrag` with the nodes `10` and `11` above the slice node and `12`
below it, the node `11` with overlap `10` is kept and the node `10` with
overlap `5` is removed. -/
theorem repair_keeps_larger_overlap_witness :
    (selectionOf (explanationNode repairCrag
        (volumesAt (fun n => if n = 1 then 0 else if n = 12 then -1 else 1))
        (fun _ => 7) repairOverlaps 1 allSelected)).node
      (if (repairOverlaps 10).get 7 > (repairOverlaps 11).get 7 then 10 else 11) = true ∧
    (selectionOf (explanationNode repairCrag
        (volumesAt (fun n => if n = 1 then 0 else if n = 12 then -1 else 1))
        (fun _ => 7) repairOverlaps 1 allSelected)).node
      (if (repairOverlaps 10).get 7 > (repairOverlaps 11).get 7 then 11 else 10) = false ∧
    ∀ e ∈ repairCrag.adjEdges
        (if (repairOverlaps 10).get 7 > (repairOverlaps 11).get 7 then 11 else 10),
      (selectionOf (explanationNode repairCrag
        (volumesAt (fun n => if n = 1 then 0 else if n = 12 then -1 else 1))
        (fun _ => 7) repairOverlaps 1 allSelected)).edge e.id = false :=
  repair_keeps_larger_overlap repairCrag
    (volumesAt (fun n => if n = 1 then 0 else if n = 12 then -1 else 1))
    (fun _ => 7) repairOverlaps 1 allSelected
    (selectionOf (explanationNode repairCrag
      (volumesAt (fun n => if n = 1 then 0 else if n = 12 then -1 else 1))
      (fun _ => 7) repairOverlaps 1 allSelected))
    (by decide) (by decide) (by decide) (by decide) 1 (by decide)
    [] [] [⟨2, 1, 12, EdgeType.AssignmentEdge⟩]
    ⟨0, 1, 10, EdgeType.AssignmentEdge⟩ ⟨1, 1, 11, EdgeType.AssignmentEdge⟩ 10 11
    rfl (by decide) rfl (by decide) rfl (by decide) (by decide) rfl

/-- Counterexample to C12 as stated, for a neighbour with z offset zero. With
the node `10` in the section of the slice node `1`, `11` above and `12` below,
the edges to `10` and `12` are the two selected assignment edges that pass the
test for the direction `-1`, and the node `10` has the larger overlap; but `10`
is removed in the direction `+1` and `12` stays selected. With `10` in the
section of the slice node and `11` and `12` above it, the edges to `11` and `12`
are the two selected assignment edges that lie above, and both nodes are
removed. -/
theorem repair_zero_offset_counterexample :
    (repairCrag.EdgeIdsDistinct ∧ repairCrag.Linked allSelected 1 ∧
      repairCrag.adjEdges 1 = [] ++ ⟨0, 1, 10, EdgeType.AssignmentEdge⟩ ::
        ([⟨1, 1, 11, EdgeType.AssignmentEdge⟩] ++ ⟨2, 1, 12, EdgeType.AssignmentEdge⟩ :: []) ∧
      Live (volumesAt (fun n => if n = 11 then 1 else if n = 12 then -1 else 0))
        allSelected 1 (-1) ⟨0, 1, 10, EdgeType.AssignmentEdge⟩ ∧
      Live (volumesAt (fun n => if n = 11 then 1 else if n = 12 then -1 else 0))
        allSelected 1 (-1) ⟨2, 1, 12, EdgeType.AssignmentEdge⟩ ∧
      ¬ Live (volumesAt (fun n => if n = 11 then 1 else if n = 12 then -1 else 0))
        allSelected 1 (-1) ⟨1, 1, 11, EdgeType.AssignmentEdge⟩ ∧
      (repairOverlaps 10).get 7 > (repairOverlaps 12).get 7 ∧
      ∃ s', explanationNode repairCrag
          (volumesAt (fun n => if n = 11 then 1 else if n = 12 then -1 else 0))
          (fun _ => 7) repairOverlaps 1 allSelected = .ok s' ∧
        s'.node 10 = false ∧ s'.node 12 = true) ∧
    (InDirection (volumesAt (fun n => if n = 11 ∨ n = 12 then 1 else 0)) 1 1
        ⟨1, 1, 11, EdgeType.AssignmentEdge⟩ ∧
      InDirection (volumesAt (fun n => if n = 11 ∨ n = 12 then 1 else 0)) 1 1
        ⟨2, 1, 12, EdgeType.AssignmentEdge⟩ ∧
      ¬ InDirection (volumesAt (fun n => if n = 11 ∨ n = 12 then 1 else 0)) 1 1
        ⟨0, 1, 10, EdgeType.AssignmentEdge⟩ ∧
      (fallingOverlaps 11).get 7 > (fallingOverlaps 12).get 7 ∧
      ∃ s', explanationNode repairCrag
          (volumesAt (fun n => if n = 11 ∨ n = 12 then 1 else 0))
          (fun _ => 7) fallingOverlaps 1 allSelected = .ok s' ∧
        s'.node 11 = false ∧ s'.node 12 = false) :=
  ⟨⟨by decide, by decide, rfl, by decide, by decide, by decide, by decide,
      _, rfl, by decide, by decide⟩,
    ⟨by decide, by decide, by decide, by decide, _, rfl, by decide, by decide⟩⟩

theorem Crag.Removed.append {crag : Crag} {R1 R2 : List CragNode} {s0 s1 s2 : Selection}
    (h1 : crag.Removed R1 s0 s1) (h2 : crag.Removed R2 s1 s2) :
    crag.Removed (R2 ++ R1) s0 s2 := by
  refine ⟨fun x => ?_, fun i => ?_⟩
  · rw [h2.1 x, h1.1 x]
    simp only [List.mem_append, not_or]
    tauto
  · rw [h2.2 i, h1.2 i]
    simp only [List.mem_append]
    constructor
    · rintro ⟨⟨ha, hb⟩, hc⟩
      exact ⟨ha, fun x hx => hx.elim (hc x) (hb x)⟩
    · rintro ⟨ha, hb⟩
      exact ⟨⟨ha, fun x hx => hb x (Or.inr hx)⟩, fun x hx => hb x (Or.inl hx)⟩

theorem Crag.Resolved.shrink {crag : Crag} {volumes : CragVolumes} {s s' : Selection}
    {n : CragNode} {d : Int} (h : crag.Resolved volumes s n d)
    (hm : ∀ i, s'.edge i = true → s.edge i = true) : crag.Resolved volumes s' n d :=
  fun e he e' he' h1 h2 => h e he e' he' (h1.weaken hm) (h2.weaken hm)

/-- The repair of `explanationConstraint` at one slice node removes assignment
nodes only and leaves at most one counted edge in each direction. -/
theorem explanationNode_spec (crag : Crag) (volumes : CragVolumes) (gt : CragNode → Int)
    (overlaps : CragNode → Histogram) (n : CragNode) (s s' : Selection)
    (hl : crag.Linked s n)
    (h : explanationNode crag volumes gt overlaps n s = .ok s') :
    ∃ R, (∀ x ∈ R, crag.type x = NodeType.AssignmentNode) ∧ crag.Removed R s s' ∧
      ∀ d, d = 1 ∨ d = -1 → crag.Resolved volumes s' n d := by
  obtain ⟨st1, st2, h1, h2, rfl⟩ := explanationNode_stages crag volumes gt overlaps n s s' h
  obtain ⟨R1, hR1, hrem1, hres1⟩ := explanationDirection_spec crag volumes gt overlaps n 1
    s none st1 hl h1
  obtain ⟨R2, hR2, hrem2, hres2⟩ := explanationDirection_spec crag volumes gt overlaps n (-1)
    st1.sel st1.previous st2 (hrem1.linked hl) h2
  refine ⟨R2 ++ R1, fun x hx => ?_, hrem1.append hrem2, fun d hd => ?_⟩
  · rcases List.mem_append.1 hx with hx | hx
    · exact (hR2 x hx).1
    · exact (hR1 x hx).1
  · rcases hd with rfl | rfl
    · exact Crag.Resolved.shrink hres1 (fun i hi => ((hrem2.2 i).1 hi).1)
    · exact hres2

/-- The function `explanationConstraint` removes assignment nodes only, and
every selected slice node is left with at most one counted edge in each
direction. -/
theorem explanationConstraint_spec (crag : Crag) (volumes : CragVolumes)
    (gt : CragNode → Int) (overlaps : CragNode → Histogram) (sel sel' : Selection)
    (hl : ∀ m, crag.Linked sel m)
    (h : explanationConstraint crag volumes gt overlaps sel = .ok sel') :
    ∃ R, (∀ x ∈ R, crag.type x = NodeType.AssignmentNode) ∧ crag.Removed R sel sel' ∧
      ∀ n ∈ crag.nodes, crag.type n = NodeType.SliceNode → sel'.node n = true →
        ∀ d, d = 1 ∨ d = -1 → crag.Resolved volumes sel' n d := by
  unfold explanationConstraint at h
  have key := forEach_prefix _
    (fun P s => ∃ R, (∀ x ∈ R, crag.type x = NodeType.AssignmentNode) ∧
      crag.Removed R sel s ∧
      ∀ n ∈ P, crag.type n = NodeType.SliceNode → s.node n = true →
        ∀ d, d = 1 ∨ d = -1 → crag.Resolved volumes s n d)
    crag.nodes ?_ [] sel sel'
    ⟨[], fun x hx => absurd hx (List.not_mem_nil _), Crag.Removed.refl crag sel,
      fun n hn => absurd hn (List.not_mem_nil _)⟩ h
  · simpa using key
  intro P a s s1 _ ⟨R, hR, hrem, hres⟩ hb
  by_cases h1 : crag.type a ≠ NodeType.SliceNode
  · rw [if_pos h1] at hb
    simp only [Except.ok.injEq] at hb
    subst hb
    refine ⟨R, hR, hrem, fun n hn hts hsn => ?_⟩
    rcases List.mem_append.1 hn with hn | hn
    · exact hres n hn hts hsn
    · rw [List.mem_singleton.1 hn] at hts; exact absurd hts h1
  rw [if_neg h1] at hb
  by_cases h2 : (!s.node a) = true
  · rw [if_pos h2] at hb
    simp only [Except.ok.injEq] at hb
    subst hb
    refine ⟨R, hR, hrem, fun n hn hts hsn => ?_⟩
    rcases List.mem_append.1 hn with hn | hn
    · exact hres n hn hts hsn
    · rw [List.mem_singleton.1 hn] at hsn
      rw [hsn] at h2
      cases h2
  rw [if_neg h2] at hb
  obtain ⟨R', hR', hrem', hres'⟩ := explanationNode_spec crag volumes gt overlaps a s s1
    (hrem.linked (hl a)) hb
  refine ⟨R' ++ R, fun x hx => ?_, hrem.append hrem', fun n hn hts hsn d hd => ?_⟩
  · rcases List.mem_append.1 hx with hx | hx
    · exact hR' x hx
    · exact hR x hx
  · rcases List.mem_append.1 hn with hn | hn
    · exact Crag.Resolved.shrink (hres n hn hts (((hrem'.1 n).1 hsn).1) d hd)
        (fun i hi => ((hrem'.2 i).1 hi).1)
    · rw [List.mem_singleton.1 hn]
      exact hres' d hd

/-- The stages of `selectAssignments`. -/
theorem selectAssignments_stages (fuel : Nat) (crag : Crag) (volumes : CragVolumes)
    (gt : CragNode → Int) (overlaps : CragNode → Histogram) (sel sel' : Selection)
    (h : selectAssignments fuel crag volumes gt overlaps sel = .ok sel') :
    ∃ s1 s2 s4, unselectBelowSelected fuel crag sel = .ok s1 ∧
      selectAssignmentNodes crag gt s1 = .ok s2 ∧
      explanationConstraint crag volumes gt overlaps (selectAssignmentEdges crag gt s2)
        = .ok s4 ∧
      selectNoAssignmentEdges crag volumes s4 = .ok sel' := by
  unfold selectAssignments at h
  cases h1 : unselectBelowSelected fuel crag sel with
  | error e => rw [h1] at h; cases h
  | ok s1 =>
    rw [h1] at h
    simp only at h
    cases h2 : selectAssignmentNodes crag gt s1 with
    | error e => rw [h2] at h; cases h
    | ok s2 =>
      rw [h2] at h
      simp only at h
      cases h3 : explanationConstraint crag volumes gt overlaps
          (selectAssignmentEdges crag gt s2) with
      | error e => rw [h3] at h; cases h
      | ok s4 =>
        rw [h3] at h
        exact ⟨s1, s2, s4, rfl, h2, h3, h⟩

/-- A no-assignment edge selected by `selectNoAssignmentEdges` at a slice node
lies in a direction in which no assignment edge of the node was selected. -/
theorem selectNoAssignmentEdges_exclusive (crag : Crag) (volumes : CragVolumes)
    (sel sel' : Selection) (hid : crag.EdgeIdsDistinct)
    (hpre : ∀ e ∈ crag.edges, e.type = EdgeType.NoAssignmentEdge → sel.edge e.id = false)
    (h : selectNoAssignmentEdges crag volumes sel = .ok sel')
    (n : CragNode) (hts : crag.type n = NodeType.SliceNode) (d : Int) (hd : d = 1 ∨ d = -1)
    (e : CragEdge) (he : e ∈ crag.adjEdges n) (hte : e.type = EdgeType.NoAssignmentEdge)
    (hdir : InDirection volumes n d e) (hse : sel'.edge e.id = true) :
    crag.NeedsNoLink volumes sel n d := by
  obtain ⟨_, hedge, htyped⟩ := selectNoAssignmentEdges_spec crag volumes hid sel sel' h
  rcases (hedge e.id).1 hse with h0 | ⟨m, hm, htm, hsm, d', hd', hneed, e2, he2, hid2, ht2, hp2⟩
  · rw [hpre e (Crag.mem_edges_of_mem_adjEdges he) hte] at h0
    cases h0
  · have hee : e2 = e := Crag.eq_of_id_eq hid (Crag.mem_edges_of_mem_adjEdges he2)
      (Crag.mem_edges_of_mem_adjEdges he) hid2
    subst hee
    have hmn : m = n := by
      by_contra hne
      have hopp := Crag.oppositeNode_of_two_ends he he2 hne
      have := htyped m hm htm hsm d' hd' hneed e2 he2 hte n hopp
      rw [hts] at this
      cases this
    subst hmn
    have hd'' : d' = 1 ∨ d' = -1 := by simpa using hd'
    have hdd := direction_unique hdir hp2 hd hd''
    subst hdd
    exact hneed

/-- When no assignment edge and no no-assignment edge is selected on entry, in a
CRAG with distinct edge ids where every slice node has exactly one
no-assignment edge per direction, any two selected assignment or no-assignment
edges of a selected slice node that lie in the same direction after
`selectAssignments` are the same edge. -/
theorem selectAssignments_at_most_one (fuel : Nat) (crag : Crag) (volumes : CragVolumes)
    (gt : CragNode → Int) (overlaps : CragNode → Histogram) (sel sel' : Selection)
    (hid : crag.EdgeIdsDistinct)
    (hentry : ∀ e ∈ crag.edges,
      e.type = EdgeType.AssignmentEdge ∨ e.type = EdgeType.NoAssignmentEdge →
        sel.edge e.id = false)
    (hone : crag.OneNoLink volumes)
    (h : selectAssignments fuel crag volumes gt overlaps sel = .ok sel')
    (n : CragNode) (hn : n ∈ crag.nodes) (hts : crag.type n = NodeType.SliceNode)
    (hsn : sel'.node n = true) (d : Int) (hd : d = 1 ∨ d = -1)
    (e1 e2 : CragEdge) (he1 : e1 ∈ crag.adjEdges n) (he2 : e2 ∈ crag.adjEdges n)
    (ht1 : e1.type = EdgeType.AssignmentEdge ∨ e1.type = EdgeType.NoAssignmentEdge)
    (ht2 : e2.type = EdgeType.AssignmentEdge ∨ e2.type = EdgeType.NoAssignmentEdge)
    (hd1 : InDirection volumes n d e1) (hd2 : InDirection volumes n d e2)
    (hs1 : sel'.edge e1.id = true) (hs2 : sel'.edge e2.id = true) :
    e1 = e2 := by
  obtain ⟨s1, s2, s4, h1, h2, h3, h4⟩ :=
    selectAssignments_stages fuel crag volumes gt overlaps sel sel' h
  have hedge1 : s1.edge = sel.edge :=
    (unselectBelowSelected_spec fuel crag crag.nodes sel s1 h1).1
  have hedge2 : s2.edge = sel.edge :=
    (selectAssignmentNodes_node crag gt s1 s2 h2).1.trans hedge1
  obtain ⟨hnode3, hedge3⟩ := selectAssignmentEdges_spec crag gt s2
  -- after the third loop a selected assignment edge joins two selected nodes
  have hsel3 : ∀ e ∈ crag.edges, e.type = EdgeType.AssignmentEdge →
      (selectAssignmentEdges crag gt s2).edge e.id = true →
      s2.node e.u = true ∧ s2.node e.v = true := by
    intro e he hte hse
    rcases (hedge3 e.id).1 hse with h0 | ⟨e', he', hid', _, hu, hv, _⟩
    · have hne : sel.edge e.id = true := by rw [← hedge2]; exact h0
      rw [hentry e he (Or.inl hte)] at hne
      cases hne
    · have hee := Crag.eq_of_id_eq hid he' he hid'
      subst hee
      exact ⟨hu, hv⟩
  have hno3 : ∀ e ∈ crag.edges, e.type = EdgeType.NoAssignmentEdge →
      (selectAssignmentEdges crag gt s2).edge e.id = false := by
    intro e he hte
    cases hc : (selectAssignmentEdges crag gt s2).edge e.id with
    | false => rfl
    | true =>
      rcases (hedge3 e.id).1 hc with h0 | ⟨e', he', hid', hte', _⟩
      · have hne : sel.edge e.id = true := by rw [← hedge2]; exact h0
        rw [hentry e he (Or.inr hte)] at hne
        cases hne
      · have hee := Crag.eq_of_id_eq hid he' he hid'
        subst hee
        rw [hte] at hte'
        cases hte'
  have hlinked : ∀ m, crag.Linked (selectAssignmentEdges crag gt s2) m := by
    intro m e he hte hse o ho
    obtain ⟨hu, hv⟩ := hsel3 e (Crag.mem_edges_of_mem_adjEdges he) hte hse
    rw [hnode3]
    unfold Crag.oppositeNode at ho
    by_cases c1 : m = e.u
    · rw [if_pos c1] at ho
      simp only [Option.some.injEq] at ho
      rw [← ho]; exact hv
    · rw [if_neg c1] at ho
      by_cases c2 : m = e.v
      · rw [if_pos c2] at ho
        simp only [Option.some.injEq] at ho
        rw [← ho]; exact hu
      · rw [if_neg c2] at ho
        cases ho
  obtain ⟨R, _, hrem, hres⟩ := explanationConstraint_spec crag volumes gt overlaps _ s4 hlinked h3
  have hpre : ∀ e ∈ crag.edges, e.type = EdgeType.NoAssignmentEdge → s4.edge e.id = false := by
    intro e he hte
    cases hc : s4.edge e.id with
    | false => rfl
    | true =>
      have := ((hrem.2 e.id).1 hc).1
      rw [hno3 e he hte] at this
      cases this
  obtain ⟨⟨hnode5, hkeep⟩, _, _⟩ := selectNoAssignmentEdges_spec crag volumes hid s4 sel' h4
  have hsn4 : s4.node n = true := by rw [← hnode5]; exact hsn
  have hdl : d ∈ [(1 : Int), -1] := by
    rcases hd with rfl | rfl <;> simp
  have hlive : ∀ e ∈ crag.adjEdges n, e.type = EdgeType.AssignmentEdge →
      InDirection volumes n d e → sel'.edge e.id = true → Live volumes s4 n d e := by
    intro e he hte hdir hse
    exact ⟨hte, by rw [← hkeep e (Crag.mem_edges_of_mem_adjEdges he) hte]; exact hse,
      hdir.passes⟩
  have hmixed : ∀ e ∈ crag.adjEdges n, ∀ e' ∈ crag.adjEdges n,
      e.type = EdgeType.AssignmentEdge → e'.type = EdgeType.NoAssignmentEdge →
      InDirection volumes n d e → InDirection volumes n d e' →
      sel'.edge e.id = true → sel'.edge e'.id = true → False := by
    intro e he e' he' hte hte' hdir hdir' hse hse'
    have hneed := selectNoAssignmentEdges_exclusive crag volumes s4 sel' hid hpre h4 n hts d hd
      e' he' hte' hdir' hse'
    have hl := hlive e he hte hdir hse
    exact hneed ⟨e, he, hte, hl.2.2, hl.2.1⟩
  rcases ht1 with ht1 | ht1 <;> rcases ht2 with ht2 | ht2
  · exact hres n hn hts hsn4 d hd e1 he1 e2 he2 (hlive e1 he1 ht1 hd1 hs1)
      (hlive e2 he2 ht2 hd2 hs2)
  · exact (hmixed e1 he1 e2 he2 ht1 ht2 hd1 hd2 hs1 hs2).elim
  · exact (hmixed e2 he2 e1 he1 ht2 ht1 hd2 hd1 hs2 hs1).elim
  · obtain ⟨e, _, _, _, huniq⟩ := hone n hn hts d hdl
    rw [huniq e1 he1 ht1 hd1, huniq e2 he2 ht2 hd2]

/-- C13: in a CRAG with distinct edge ids in which every no-assignment edge
ends in a no-assignment node and every slice node has exactly one no-assignment
edge per direction, after `selectAssignments` has returned at the end of the
constructor, any two selected assignment or no-assignment edges of a selected
slice node that lie in the same direction are the same edge, however many
assignment edges competed in that direction. -/
theorem bestEffort_at_most_one (opts : Options) (fuel : Nat) (crag : Crag)
    (volumes : CragVolumes) (groundTruth : GroundTruth) (sel : Selection)
    (hid : crag.EdgeIdsDistinct)
    (htyped : ∀ e ∈ crag.edges, e.type = EdgeType.NoAssignmentEdge →
      crag.type e.u = NodeType.NoAssignmentNode ∨ crag.type e.v = NodeType.NoAssignmentNode)
    (hone : crag.OneNoLink volumes)
    (h : bestEffort opts fuel crag volumes groundTruth = .ok sel)
    (n : CragNode) (hn : n ∈ crag.nodes) (hts : crag.type n = NodeType.SliceNode)
    (hsn : sel.node n = true) (d : Int) (hd : d = 1 ∨ d = -1)
    (e1 e2 : CragEdge) (he1 : e1 ∈ crag.adjEdges n) (he2 : e2 ∈ crag.adjEdges n)
    (ht1 : e1.type = EdgeType.AssignmentEdge ∨ e1.type = EdgeType.NoAssignmentEdge)
    (ht2 : e2.type = EdgeType.AssignmentEdge ∨ e2.type = EdgeType.NoAssignmentEdge)
    (hd1 : InDirection volumes n d e1) (hd2 : InDirection volumes n d e2)
    (hs1 : sel.edge e1.id = true) (hs2 : sel.edge e2.id = true) :
    e1 = e2 := by
  unfold bestEffort at h
  simp only at h
  cases hc : selectCandidates opts fuel crag (bestEffortOverlaps crag volumes groundTruth)
      (bestEffortAssignments opts crag volumes groundTruth) (clearSelection crag) with
  | error err => rw [hc] at h; cases h
  | ok s =>
    rw [hc] at h
    simp only at h
    refine selectAssignments_at_most_one fuel crag volumes _ _ _ sel hid ?_ hone h n hn hts hsn
      d hd e1 e2 he1 he2 ht1 ht2 hd1 hd2 hs1 hs2
    intro e he hte
    have hedge : s.edge = (clearSelection crag).edge :=
      selectCandidates_edge opts fuel crag _ _ _ s (clearSelection_node crag) hc
    have hzero : ∀ x, crag.type x = NodeType.NoAssignmentNode →
        bestEffortAssignments opts crag volumes groundTruth x = 0 := by
      intro x hx
      unfold bestEffortAssignments
      rw [getGroundTruthAssignments_skip _ crag _ x (Or.inr hx)]
    cases hx : (selectAdjacencyEdges crag
        (bestEffortAssignments opts crag volumes groundTruth) s).edge e.id with
    | false => rfl
    | true =>
      rcases ((selectAdjacencyEdges_spec crag _ s).2 e.id).1 hx with h0 |
        ⟨e', he', hid', hne, _, _, hg0, hg⟩
      · rw [hedge, clearSelection_edge] at h0
        cases h0
      · have hee := Crag.eq_of_id_eq hid he' he hid'
        subst hee
        rcases hte with hte | hte
        · exact absurd hte hne
        · rcases htyped e' he' hte with hu | hv
          · exact absurd (hzero _ hu) hg0
          · rw [hg, hzero _ hv] at hg0
            exact absurd rfl hg0

/-- In `conflictCrag` three assignment edges of the slice node `1` compete in
the direction `+1` with equal overlaps; after the constructor only the edge `4`
to the node `12` is selected there, and the no-assignment edge `7` above the
slice node is not. -/
theorem bestEffort_at_most_one_witness :
    (selectionOf (bestEffort plainOptions 2 conflictCrag conflictVolumes sevenTruth)).edge 0
        = false ∧
    (selectionOf (bestEffort plainOptions 2 conflictCrag conflictVolumes sevenTruth)).edge 2
        = false ∧
    (selectionOf (bestEffort plainOptions 2 conflictCrag conflictVolumes sevenTruth)).edge 4
        = true ∧
    (selectionOf (bestEffort plainOptions 2 conflictCrag conflictVolumes sevenTruth)).edge 7
        = false ∧
    (⟨4, 1, 12, EdgeType.AssignmentEdge⟩ : CragEdge) = ⟨4, 1, 12, EdgeType.AssignmentEdge⟩ :=
  ⟨by decide, by decide, by decide, by decide,
    bestEffort_at_most_one plainOptions 2 conflictCrag conflictVolumes sevenTruth
      (selectionOf (bestEffort plainOptions 2 conflictCrag conflictVolumes sevenTruth))
      (by decide) (by decide) (by decide) rfl 1 (by decide) (by decide) (by decide) 1
      (by decide) ⟨4, 1, 12, EdgeType.AssignmentEdge⟩ ⟨4, 1, 12, EdgeType.AssignmentEdge⟩
      (by decide) (by decide) (by decide) (by decide) (by decide) (by decide)
      (by decide) (by decide)⟩

/-- The loop over `overlaps[i]` keeps the first entry that exceeds everything
before it and is not exceeded by anything after it. -/
theorem bestStep_first (w : Weight) (h : Histogram) :
    ∀ st : Int × Int,
      (h.foldl (bestStep w) st = st ∧ ∀ p ∈ h, weighted w p ≤ st.1) ∨
      ∃ l1 p l2, h = l1 ++ p :: l2 ∧ h.foldl (bestStep w) st = (weighted w p, p.1) ∧
        st.1 < weighted w p ∧ (∀ q ∈ l1, weighted w q < weighted w p) ∧
        ∀ q ∈ l2, weighted w q ≤ weighted w p := by
  induction h with
  | nil => intro st; exact Or.inl ⟨rfl, fun p hp => absurd hp (List.not_mem_nil _)⟩
  | cons a h ih =>
    intro st
    simp only [List.foldl_cons]
    have hstep : (bestStep w st a = (weighted w a, a.1) ∧ st.1 < weighted w a) ∨
        (bestStep w st a = st ∧ weighted w a ≤ st.1) := by
      unfold bestStep
      split_ifs with hc
      · exact Or.inl ⟨rfl, hc⟩
      · exact Or.inr ⟨rfl, not_lt.1 hc⟩
    rcases ih (bestStep w st a) with ⟨h1, h2⟩ | ⟨l1, p, l2, hl, hr, hlt, hb, ha⟩
    · rcases hstep with ⟨hs, hgt⟩ | ⟨hs, hle⟩
      · refine Or.inr ⟨[], a, h, rfl, by rw [h1, hs], hgt,
          fun q hq => absurd hq (List.not_mem_nil _), fun q hq => ?_⟩
        have := h2 q hq
        rw [hs] at this
        exact this
      · refine Or.inl ⟨by rw [h1, hs], fun q hq => ?_⟩
        rcases List.mem_cons.1 hq with rfl | hq
        · exact hle
        · have := h2 q hq
          rw [hs] at this
          exact this
    · refine Or.inr ⟨a :: l1, p, l2, by rw [hl]; rfl, hr, ?_, fun q hq => ?_, ha⟩
      · rcases hstep with ⟨hs, hgt⟩ | ⟨hs, _⟩
        · rw [hs] at hlt
          exact lt_trans hgt hlt
        · rw [hs] at hlt
          exact hlt
      · rcases List.mem_cons.1 hq with rfl | hq
        · rcases hstep with ⟨hs, _⟩ | ⟨hs, hle⟩
          · rw [hs] at hlt
            exact hlt
          · rw [hs] at hlt
            exact lt_of_le_of_lt hle hlt
        · exact hb q hq

/-- The label found for a histogram is not larger than any label whose entry
attains the maximal weighted overlap. -/
theorem bestGtLabel_le (w : Weight) {h : Histogram} (hwf : h.WellFormed)
    (q : Int × Int) (hq : q ∈ h) (hmax : ∀ p ∈ h, weighted w p ≤ weighted w q) :
    bestGtLabel w h ≤ q.1 := by
  unfold bestGtLabel
  rcases bestStep_first w h (0, 0) with ⟨h1, h2⟩ | ⟨l1, p, l2, hl, hr, _, hb, _⟩
  · rw [h1]
    have : q.1 = 0 := by
      by_contra h0
      exact absurd (h2 q hq) (not_le.2 (weighted_pos_of_ne_zero w h0 (hwf.2.1 q hq)))
    rw [this]
  · rw [hr]
    have hp : p ∈ h := by rw [hl]; simp
    rw [hl] at hq
    rcases List.mem_append.1 hq with hq1 | hq2
    · exact absurd (hmax p hp) (not_le.2 (hb q hq1))
    · rcases List.mem_cons.1 hq2 with rfl | hq3
      · exact le_refl _
      · have hs := hwf.1
        rw [hl, List.pairwise_append] at hs
        exact le_of_lt ((List.pairwise_cons.1 hs.2.1).1 q hq3)

/-- Two statements `h[a]++` and `h[b]++` commute. -/
theorem Histogram.increment_comm (h : Histogram) (a b : Int) :
    (h.increment a).increment b = (h.increment b).increment a := by
  by_cases hab : a = b
  · rw [hab]
  induction h with
  | nil =>
    simp only [Histogram.increment]
    have hba : ¬ b = a := fun hh => hab hh.symm
    by_cases h1 : b < a
    · have h2 : ¬ a < b := by omega
      simp [hba, hab, h1, h2]
    · have h2 : a < b := by omega
      simp [hba, hab, h1, h2]
  | cons p h ih =>
    obtain ⟨k, c⟩ := p
    have hba : ¬ b = a := fun hh => hab hh.symm
    simp only [Histogram.increment]
    by_cases ha : a = k
    · subst ha
      by_cases hb : b < a
      · have h2 : ¬ a < b := by omega
        simp [Histogram.increment, hba, hab, hb, h2]
      · simp [Histogram.increment, hba, hab, hb]
    · by_cases hbk : b = k
      · subst hbk
        by_cases h1 : a < b
        · have h2 : ¬ b < a := by omega
          simp [Histogram.increment, hba, hab, h1, h2]
        · simp [Histogram.increment, hba, hab, h1]
      · by_cases h1 : a < k
        · by_cases h2 : b < k
          · by_cases h3 : a < b
            · have h4 : ¬ b < a := by omega
              simp [Histogram.increment, ha, hbk, hba, hab, h1, h2, h3, h4]
            · have h4 : b < a := by omega
              simp [Histogram.increment, ha, hbk, hba, hab, h1, h2, h3, h4]
          · have h3 : ¬ b < a := by omega
            simp [Histogram.increment, ha, hbk, hba, hab, h1, h2, h3]
        · by_cases h2 : b < k
          · have h3 : ¬ a < b := by omega
            simp [Histogram.increment, ha, hbk, hba, hab, h1, h2, h3]
          · simp [Histogram.increment, ha, hbk, hba, hab, h1, h2, ih]

/-- C21 (amended): for a candidate that is assigned a label, whose histogram is
not empty and is a `std::map` as the program builds it (keys ascending, counts
positive 32-bit `int`s), and for every background weight: the label assigned by
`getGroundTruthAssignments` has an entry whose weighted overlap, as the program
computes it in `double`, is maximal, and is not larger than any other label
with maximal weighted overlap; it is the same for every such histogram with the
same entries, and does not change when the labels are counted in another
order. -/
theorem assignment_tie_break (w : Weight) (crag : Crag) (overlaps : CragNode → Histogram)
    (gt : CragNode → Int) (n : CragNode) (hn : n ∈ crag.nodes)
    (ht : crag.type n ≠ NodeType.NoAssignmentNode)
    (hwf : (overlaps n).WellFormed) (hne : overlaps n ≠ []) :
    (∃ c, (getGroundTruthAssignments w crag overlaps gt n, c) ∈ overlaps n ∧
      ∀ p ∈ overlaps n,
        weighted w p ≤ weighted w (getGroundTruthAssignments w crag overlaps gt n, c)) ∧
    (∀ q ∈ overlaps n, (∀ p ∈ overlaps n, weighted w p ≤ weighted w q) →
      getGroundTruthAssignments w crag overlaps gt n ≤ q.1) ∧
    (∀ overlaps' : CragNode → Histogram, (overlaps' n).WellFormed →
      (∀ p, p ∈ overlaps' n ↔ p ∈ overlaps n) →
      getGroundTruthAssignments w crag overlaps' gt n =
        getGroundTruthAssignments w crag overlaps gt n) ∧
    ∀ labels labels' : List Int, labels.Perm labels' →
      getGroundTruthAssignments w crag
          (fun _ => labels.foldl Histogram.increment []) gt n =
        getGroundTruthAssignments w crag
          (fun _ => labels'.foldl Histogram.increment []) gt n := by
  have hmem : ∀ h : Histogram, h.WellFormed → h ≠ [] →
      (bestGtLabel w h, h.get (bestGtLabel w h)) ∈ h ∧
        ∀ p ∈ h, weighted w p ≤ weighted w (bestGtLabel w h, h.get (bestGtLabel w h)) := by
    intro h hwf hne
    obtain ⟨h1, h2⟩ := bestGtLabel_spec w hwf hne
    refine ⟨?_, h2⟩
    cases hc : h.at? (bestGtLabel w h) with
    | none => exact absurd hc h1
    | some c =>
      have : h.get (bestGtLabel w h) = c := by simp [Histogram.get, hc]
      rw [this]
      exact Histogram.mem_of_at? hc
  rw [getGroundTruthAssignments_eq w crag overlaps n hn ht gt]
  refine ⟨⟨_, hmem _ hwf hne⟩, fun q hq hmax => bestGtLabel_le w hwf q hq hmax,
    fun overlaps' hwf' hsame => ?_, fun labels labels' hp => ?_⟩
  · rw [getGroundTruthAssignments_eq w crag overlaps' n hn ht gt]
    have hne' : overlaps' n ≠ [] := by
      obtain ⟨p, hp⟩ := List.exists_mem_of_ne_nil _ hne
      exact List.ne_nil_of_mem ((hsame p).2 hp)
    obtain ⟨m1, x1⟩ := hmem _ hwf hne
    obtain ⟨m2, x2⟩ := hmem _ hwf' hne'
    have le1 := bestGtLabel_le w hwf _ ((hsame _).1 m2)
      (fun p hp => x2 p ((hsame p).2 hp))
    have le2 := bestGtLabel_le w hwf' _ ((hsame _).2 m1)
      (fun p hp => x1 p ((hsame p).1 hp))
    exact le_antisymm le2 le1
  · rw [getGroundTruthAssignments_eq w crag _ n hn ht gt,
      getGroundTruthAssignments_eq w crag _ n hn ht gt]
    rw [List.Perm.foldl_eq' hp (fun x _ y _ z => Histogram.increment_comm z x y) []]

/-- Labels `1` and `2` both have the maximal overlap `5`: the label `1` is
assigned. -/
theorem assignment_tie_break_witness :
    getGroundTruthAssignments Weight.one singleCrag (fun _ => [(1, 5), (2, 5), (3, 2)])
        (fun _ => 0) 0 ≤ 2 ∧
      getGroundTruthAssignments Weight.one singleCrag (fun _ => [(1, 5), (2, 5), (3, 2)])
        (fun _ => 0) 0 = 1 :=
  ⟨(assignment_tie_break Weight.one singleCrag (fun _ => [(1, 5), (2, 5), (3, 2)])
      (fun _ => 0) 0 (by decide) (by decide) (by decide) (by decide)).2.1 (2, 5)
      (by decide) (by decide), by decide⟩

/-- C21 as stated fails for a weight whose product with a count is rounded. The
region of five voxels, three in the background and one in each of the regions
`1` and `2`, has the histogram `{0: 3, 1: 1, 2: 1}`. With the `double` nearest
to one third as the weight, the labels `1` and `2` have the maximal weighted
score and label `0` has a smaller one; but `3 * w` is rounded to `1.0`, the
three computed scores are equal, and the label `0` is assigned. -/
theorem tie_break_rounding_counterexample :
    bestEffortOverlaps singleCrag (fun _ => rowVolume 5) thirdTruth 0
      = [(0, 3), (1, 1), (2, 1)] ∧
    bestEffortAssignments ⟨false, thirdWeight, false⟩ singleCrag (fun _ => rowVolume 5)
      thirdTruth 0 = 0 ∧
    (∀ p ∈ ([(0, 3), (1, 1), (2, 1)] : Histogram),
      exactWeighted thirdWeight p ≤ exactWeighted thirdWeight (1, 1)) ∧
    exactWeighted thirdWeight (2, 1) = exactWeighted thirdWeight (1, 1) ∧
    exactWeighted thirdWeight (0, 3) < exactWeighted thirdWeight (1, 1) ∧
    weighted thirdWeight (0, 3) = weighted thirdWeight (1, 1) := by
  decide

/-- When no assignment edge is selected on entry, every assignment edge that is
selected after `selectAssignments` joins two selected nodes with one label that
is not background. -/
theorem selectAssignments_directLink (fuel : Nat) (crag : Crag) (volumes : CragVolumes)
    (gt : CragNode → Int) (overlaps : CragNode → Histogram) (sel sel' : Selection)
    (hid : crag.EdgeIdsDistinct)
    (hentry : ∀ e ∈ crag.edges, e.type = EdgeType.AssignmentEdge → sel.edge e.id = false)
    (h : selectAssignments fuel crag volumes gt overlaps sel = .ok sel')
    (e : CragEdge) (he : e ∈ crag.edges) (hte : e.type = EdgeType.AssignmentEdge)
    (hse : sel'.edge e.id = true) :
    sel'.node e.u = true ∧ sel'.node e.v = true ∧ gt e.u ≠ 0 ∧ gt e.u = gt e.v := by
  obtain ⟨s1, s2, s4, h1, h2, h3, h4⟩ :=
    selectAssignments_stages fuel crag volumes gt overlaps sel sel' h
  have hedge1 : s1.edge = sel.edge :=
    (unselectBelowSelected_spec fuel crag crag.nodes sel s1 h1).1
  have hedge2 : s2.edge = sel.edge :=
    (selectAssignmentNodes_node crag gt s1 s2 h2).1.trans hedge1
  obtain ⟨hnode3, hedge3⟩ := selectAssignmentEdges_spec crag gt s2
  have hsel3 : ∀ e ∈ crag.edges, e.type = EdgeType.AssignmentEdge →
      (selectAssignmentEdges crag gt s2).edge e.id = true →
      s2.node e.u = true ∧ s2.node e.v = true ∧ gt e.u ≠ 0 ∧ gt e.u = gt e.v := by
    intro e he hte hse
    rcases (hedge3 e.id).1 hse with h0 | ⟨e', he', hid', _, hu, hv, hg⟩
    · have hne : sel.edge e.id = true := by rw [← hedge2]; exact h0
      rw [hentry e he hte] at hne
      cases hne
    · have hee := Crag.eq_of_id_eq hid he' he hid'
      subst hee
      exact ⟨hu, hv, hg⟩
  have hlinked : ∀ m, crag.Linked (selectAssignmentEdges crag gt s2) m := by
    intro m e he hte hse o ho
    obtain ⟨hu, hv, _⟩ := hsel3 e (Crag.mem_edges_of_mem_adjEdges he) hte hse
    rw [hnode3]
    unfold Crag.oppositeNode at ho
    by_cases c1 : m = e.u
    · rw [if_pos c1] at ho
      simp only [Option.some.injEq] at ho
      rw [← ho]; exact hv
    · rw [if_neg c1] at ho
      by_cases c2 : m = e.v
      · rw [if_pos c2] at ho
        simp only [Option.some.injEq] at ho
        rw [← ho]; exact hu
      · rw [if_neg c2] at ho
        cases ho
  obtain ⟨R, _, hrem, _⟩ := explanationConstraint_spec crag volumes gt overlaps _ s4 hlinked h3
  obtain ⟨⟨hnode5, hkeep⟩, _, _⟩ := selectNoAssignmentEdges_spec crag volumes hid s4 sel' h4
  have hse4 : s4.edge e.id = true := by rw [← hkeep e he hte]; exact hse
  obtain ⟨hse3, hfar⟩ := (hrem.2 e.id).1 hse4
  obtain ⟨hu, hv, hg⟩ := hsel3 e he hte hse3
  have hmemu : e ∈ crag.adjEdges e.u := List.mem_filter.2 ⟨he, by simp⟩
  have hmemv : e ∈ crag.adjEdges e.v := List.mem_filter.2 ⟨he, by simp⟩
  rw [hnode5]
  refine ⟨(hrem.1 e.u).2 ⟨by rw [hnode3]; exact hu, fun hR => hfar e.u hR e hmemu rfl⟩,
    (hrem.1 e.v).2 ⟨by rw [hnode3]; exact hv, fun hR => hfar e.v hR e hmemv rfl⟩, hg⟩

/-- C23: in a CRAG with distinct edge ids, every assignment edge that is
selected in the state returned by `selectAssignments` at the end of the
constructor has both end points selected, and the two end points carry the
same ground-truth assignment, which is not background. -/
theorem directLink_endpoints_selected (opts : Options) (fuel : Nat) (crag : Crag)
    (volumes : CragVolumes) (groundTruth : GroundTruth) (sel : Selection)
    (hid : crag.EdgeIdsDistinct)
    (h : bestEffort opts fuel crag volumes groundTruth = .ok sel)
    (e : CragEdge) (he : e ∈ crag.edges) (hte : e.type = EdgeType.AssignmentEdge)
    (hse : sel.edge e.id = true) :
    sel.node e.u = true ∧ sel.node e.v = true ∧
      bestEffortAssignments opts crag volumes groundTruth e.u ≠ 0 ∧
      bestEffortAssignments opts crag volumes groundTruth e.u =
        bestEffortAssignments opts crag volumes groundTruth e.v := by
  unfold bestEffort at h
  simp only at h
  cases hc : selectCandidates opts fuel crag (bestEffortOverlaps crag volumes groundTruth)
      (bestEffortAssignments opts crag volumes groundTruth) (clearSelection crag) with
  | error err => rw [hc] at h; cases h
  | ok s =>
    rw [hc] at h
    simp only at h
    refine selectAssignments_directLink fuel crag volumes _ _ _ sel hid ?_ h e he hte hse
    intro e' he' hte'
    have hedge : s.edge = (clearSelection crag).edge :=
      selectCandidates_edge opts fuel crag _ _ _ s (clearSelection_node crag) hc
    cases hx : (selectAdjacencyEdges crag
        (bestEffortAssignments opts crag volumes groundTruth) s).edge e'.id with
    | false => rfl
    | true =>
      rcases ((selectAdjacencyEdges_spec crag _ s).2 e'.id).1 hx with h0 | ⟨e2, he2, hid2, hne, _⟩
      · rw [hedge, clearSelection_edge] at h0
        cases h0
      · have hee := Crag.eq_of_id_eq hid he2 he' hid2
        subst hee
        exact absurd hte' hne

/-- In `conflictCrag` the three assignment nodes compete with equal overlaps;
the constructor keeps the node `12`, and the selected assignment edge `4` joins
the selected nodes `1` and `12`. -/
theorem directLink_endpoints_selected_witness :
    (selectionOf (bestEffort plainOptions 2 conflictCrag conflictVolumes sevenTruth)).edge 0
        = false ∧
    (selectionOf (bestEffort plainOptions 2 conflictCrag conflictVolumes sevenTruth)).node 1
        = true ∧
    (selectionOf (bestEffort plainOptions 2 conflictCrag conflictVolumes sevenTruth)).node 12
        = true ∧
    bestEffortAssignments plainOptions conflictCrag conflictVolumes sevenTruth 1 ≠ 0 ∧
    bestEffortAssignments plainOptions conflictCrag conflictVolumes sevenTruth 1 =
      bestEffortAssignments plainOptions conflictCrag conflictVolumes sevenTruth 12 :=
  ⟨by decide,
    directLink_endpoints_selected plainOptions 2 conflictCrag conflictVolumes sevenTruth
      (selectionOf (bestEffort plainOptions 2 conflictCrag conflictVolumes sevenTruth))
      (by decide) rfl ⟨4, 1, 12, EdgeType.AssignmentEdge⟩ (by decide) rfl (by decide)⟩

theorem unselectChildren_total (crag : Crag) (level : CragNode → Nat)
    (hl : ∀ a ∈ crag.arcs, level a.source < level a.target) :
    ∀ (fuel : Nat) (n : CragNode) (sel : Selection), level n < fuel →
      ∃ sel', unselectChildren crag fuel n sel = .ok sel' := by
  intro fuel
  induction fuel with
  | zero => intro n sel h; omega
  | succ fuel ih =>
    intro n sel hlev
    unfold unselectChildren
    apply forEach_total
    intro c hc s
    have hlt := hl _ (Crag.mem_inArcs.1 hc)
    exact ih c _ (by simp only at hlt; omega)

theorem unselectBelowSelected_total (fuel : Nat) (crag : Crag) (level : CragNode → Nat)
    (hr : crag.Ranked level fuel) (sel : Selection) :
    ∃ sel', unselectBelowSelected fuel crag sel = .ok sel' := by
  unfold unselectBelowSelected
  apply forEach_total
  intro n hn s
  split_ifs
  · exact ⟨_, rfl⟩
  · exact unselectChildren_total crag level hr.1 fuel n s (hr.2 n hn)
  · exact ⟨_, rfl⟩

/-- The cleanup leaves a selected candidate selected when none of its ancestors
is selected. -/
theorem unselectBelowSelected_keeps (fuel : Nat) (crag : Crag) (sel sel' : Selection)
    (h : unselectBelowSelected fuel crag sel = .ok sel') (x : CragNode)
    (hx : sel.node x = true) (hanc : ∀ a, crag.ProperDescendant x a → sel.node a = false) :
    sel'.node x = true := by
  unfold unselectBelowSelected at h
  refine (forEach_invariant _
    (fun s => (∀ y, s.node y = true → sel.node y = true) ∧ s.node x = true)
    crag.nodes ?_ sel sel' ⟨fun _ hy => hy, hx⟩ h).2
  intro s n s1 _ ⟨hmono, hsx⟩ hb
  split_ifs at hb with h1 h2
  · simp only [Except.ok.injEq] at hb
    subst hb
    exact ⟨hmono, hsx⟩
  · obtain ⟨_, ha1, hb1⟩ := unselectChildren_spec crag fuel n s s1 hb
    have hnx : ¬ crag.ProperDescendant x n := fun hd => by
      have := hanc n hd
      rw [hmono n h2] at this
      cases this
    refine ⟨fun y hy => ?_, by rw [hb1 x hnx]; exact hsx⟩
    by_cases hd : crag.ProperDescendant y n
    · rw [ha1 y hd] at hy; cases hy
    · rw [hb1 y hd] at hy
      exact hmono y hy
  · simp only [Except.ok.injEq] at hb
    subst hb
    exact ⟨hmono, hsx⟩

/-- Above a candidate with a selected ancestor there is a topmost selected
ancestor. -/
theorem Crag.exists_topmost {crag : Crag} {level : CragNode → Nat} {bound : Nat}
    (hr : crag.Ranked level bound) (hc : crag.ArcsClosed) (S : CragNode → Prop)
    (x : CragNode) :
    ∀ (k : Nat) (a : CragNode), bound ≤ level a + k → crag.ProperDescendant x a → S a →
      ∃ t, crag.ProperDescendant x t ∧ S t ∧ ∀ b, crag.ProperDescendant t b → ¬ S b := by
  intro k
  induction k with
  | zero =>
    intro a hk hxa _
    exact absurd (hr.2 a (Crag.ProperDescendant.mem_nodes hc hxa)) (by omega)
  | succ k ih =>
    intro a hk hxa hSa
    by_cases hex : ∃ b, crag.ProperDescendant a b ∧ S b
    · obtain ⟨b, hab, hSb⟩ := hex
      have hlt : level a < level b := hab.level_lt hr.1
      exact ih b (by omega) (hxa.trans hab) hSb
    · exact ⟨a, hxa, hSa, fun b hab hSb => hex ⟨b, hab, hSb⟩⟩

/-- The candidates selected after the cleanup loop of `selectAssignments` on a
forest of slice nodes: the selected candidates without a selected ancestor. -/
theorem unselectBelowSelected_topmost (fuel : Nat) (crag : Crag) (level : CragNode → Nat)
    (hr : crag.Ranked level fuel) (hc : crag.ArcsClosed)
    (hslice : ∀ n ∈ crag.nodes, crag.type n = NodeType.SliceNode)
    (sel sel' : Selection) (h : unselectBelowSelected fuel crag sel = .ok sel')
    (x : CragNode) :
    sel'.node x = true ↔
      sel.node x = true ∧ ∀ a, crag.ProperDescendant x a → sel.node a = false := by
  obtain ⟨_, hmono, hanti⟩ := unselectBelowSelected_spec fuel crag crag.nodes sel sel' h
  constructor
  · intro hx
    refine ⟨hmono x hx, fun a hxa => ?_⟩
    cases hsa : sel.node a with
    | false => rfl
    | true =>
      exfalso
      obtain ⟨t, hxt, hst, htop⟩ := Crag.exists_topmost hr hc (fun y => sel.node y = true) x
        fuel a (by omega) hxa hsa
      have ht : sel'.node t = true := unselectBelowSelected_keeps fuel crag sel sel' h t hst
        (fun b hb => by
          cases hsb : sel.node b with
          | false => rfl
          | true => exact absurd hsb (htop b hb))
      have htn := Crag.ProperDescendant.mem_nodes hc hxt
      have := hanti t htn (hslice t htn) ht x hxt
      rw [hx] at this
      cases this
  · rintro ⟨hx, hanc⟩
    exact unselectBelowSelected_keeps fuel crag sel sel' h x hx hanc

/-- C22: on a forest of slice nodes (unique parents, arcs between candidates of
the CRAG, no chain of `fuel` or more arcs), starting with nothing selected,
Strategy B returns for `fullBestEffort = true` and for `fullBestEffort = false`,
the cleanup loop of `selectAssignments` returns on both selections, and after
it the same candidates are selected in both cases: the ones selected for
`fullBestEffort = false`. -/
theorem cleanup_full_eq_plain (fuel : Nat) (crag : Crag) (gt : CragNode → Int)
    (level : CragNode → Nat) (hu : crag.UniqueParent) (hr : crag.Ranked level fuel)
    (hc : crag.ArcsClosed) (hslice : ∀ n ∈ crag.nodes, crag.type n = NodeType.SliceNode)
    (sel : Selection) (hsel : ∀ x, sel.node x = false) :
    ∃ sT sF cT cF,
      findConcordantLeafNodeCandidates true fuel crag gt sel = .ok sT ∧
      findConcordantLeafNodeCandidates false fuel crag gt sel = .ok sF ∧
      unselectBelowSelected fuel crag sT = .ok cT ∧
      unselectBelowSelected fuel crag sF = .ok cF ∧
      cT.node = cF.node ∧ cT.node = sF.node := by
  obtain ⟨sT, hT⟩ := findConcordantLeafNodeCandidates_total true fuel crag gt level hr sel
  obtain ⟨sF, hF⟩ := findConcordantLeafNodeCandidates_total false fuel crag gt level hr sel
  obtain ⟨cT, hcT⟩ := unselectBelowSelected_total fuel crag level hr sT
  obtain ⟨cF, hcF⟩ := unselectBelowSelected_total fuel crag level hr sF
  obtain ⟨la, hla, _, hselT⟩ :=
    findConcordantLeafNodeCandidates_selected true fuel crag gt sel sT hsel hT
  obtain ⟨la', hla', _, hselF⟩ :=
    findConcordantLeafNodeCandidates_selected false fuel crag gt sel sF hsel hF
  rw [hla] at hla'
  simp only [Except.ok.injEq] at hla'
  subst hla'
  -- the selection for `false` holds the topmost candidates of the one for `true`
  have hFT : ∀ x, sF.node x = true ↔
      sT.node x = true ∧ ∀ a, crag.ProperDescendant x a → sT.node a = false := by
    intro x
    constructor
    · intro hx
      obtain ⟨⟨r, hroot, hv⟩, hst⟩ := (hselF x).1 hx
      refine ⟨(hselT x).2 ⟨⟨r, hroot, hv.mono (fun _ _ => rfl)⟩, hst⟩, fun a hxa => ?_⟩
      have hhalt : singleTest crag la a = false :=
        (Crag.Visits.ancestor_of_root hu hroot.2 hv hxa).1
      cases hsa : sT.node a with
      | false => rfl
      | true =>
        have := ((hselT a).1 hsa).2
        rw [hhalt] at this
        cases this
    · rintro ⟨hx, hanc⟩
      obtain ⟨⟨r, hroot, hv⟩, hst⟩ := (hselT x).1 hx
      refine (hselF x).2 ⟨⟨r, hroot, hv.mono_on hc hroot.1 (fun m hm hxm _ => ?_)⟩, hst⟩
      show singleTest crag la m = false
      cases htm : singleTest crag la m with
      | false => rfl
      | true =>
        obtain ⟨r', hr'n, hr'root, hv'⟩ := Crag.exists_root_visits hr hc
          (singleHalt true crag la) fuel m (by omega) hm (fun _ _ => rfl)
        have := (hselT m).2 ⟨⟨r', ⟨hr'n, hr'root⟩, hv'⟩, htm⟩
        rw [hanc m hxm] at this
        cases this
  have hcTF : ∀ x, cT.node x = true ↔ sF.node x = true := fun x =>
    (unselectBelowSelected_topmost fuel crag level hr hc hslice sT cT hcT x).trans (hFT x).symm
  have hcFF : ∀ x, cF.node x = true ↔ sF.node x = true := by
    intro x
    rw [unselectBelowSelected_topmost fuel crag level hr hc hslice sF cF hcF x]
    constructor
    · exact fun h => h.1
    · intro hx
      refine ⟨hx, fun a hxa => ?_⟩
      cases hsa : sF.node a with
      | false => rfl
      | true =>
        have := ((hFT x).1 hx).2 a hxa
        rw [((hFT a).1 hsa).1] at this
        cases this
  have hbool : ∀ (f g : CragNode → Bool), (∀ x, f x = true ↔ g x = true) → f = g := by
    intro f g hfg
    funext x
    cases hf : f x with
    | false =>
      cases hg : g x with
      | false => rfl
      | true => rw [(hfg x).2 hg] at hf; cases hf
    | true => exact ((hfg x).1 hf).symm
  exact ⟨sT, sF, cT, cF, hT, hF, hcT, hcF,
    hbool _ _ (fun x => (hcTF x).trans (hcFF x).symm), hbool _ _ hcTF⟩

/-- In `forkCrag` with one label everywhere, `fullBestEffort = true` selects all
three candidates and the cleanup leaves the root only, as selected for
`fullBestEffort = false`. -/
theorem cleanup_full_eq_plain_witness :
    ((selectionOf (findConcordantLeafNodeCandidates true 2 forkCrag (fun _ => 5)
        Selection.none)).node 1 = true ∧
      (selectionOf (unselectBelowSelected 2 forkCrag
        (selectionOf (findConcordantLeafNodeCandidates true 2 forkCrag (fun _ => 5)
          Selection.none)))).node 1 = false) ∧
    ∃ sT sF cT cF,
      findConcordantLeafNodeCandidates true 2 forkCrag (fun _ => 5) Selection.none = .ok sT ∧
      findConcordantLeafNodeCandidates false 2 forkCrag (fun _ => 5) Selection.none = .ok sF ∧
      unselectBelowSelected 2 forkCrag sT = .ok cT ∧
      unselectBelowSelected 2 forkCrag sF = .ok cF ∧
      cT.node = cF.node ∧ cT.node = sF.node :=
  ⟨⟨by decide, by decide⟩,
    cleanup_full_eq_plain 2 forkCrag (fun _ => 5) rootLevel
      (Crag.uniqueParent_of_nodup (by decide)) (by decide) (by decide) (by decide)
      Selection.none (fun _ => rfl)⟩

end CandidateMc
